import Mathlib

/-!
Verification of the BFS → IR → BF compiler.

The development shallowly embeds the two compiler stages:

* the lowerer (`lark_parser.py`): symbol table, code generator,
  expression optimiser and the tree transformer that turns the BFS AST
  into a list of IR instructions;
* the backend (`instruction_set_parser.py`): the cursor-tracking
  IR → BF emitter, the copy macro, and the peephole canceller.

Machine integers are `Nat` with explicit `% 256` where the code wraps.
Fallible code returns `Except` / `Option`.  IR and BF programs are
interpreted by fueled interpreters in which fuel is consumed only at
loop iterations, so that straight-line execution composes freely.
-/

/-! ## The peephole canceller (`Parser._remove_redundant_instructions`)

Python:
```
while True:
    new_code = code.replace("<>", "").replace("><", "")
    if new_code == code: break
    code = new_code
return code
```
`str.replace` removes non-overlapping occurrences scanning left to
right; `removePair a b` is that scan for the two-character pattern
`[a, b]`. -/

def removePair (a b : Char) : List Char → List Char
  | [] => []
  | [c] => [c]
  | c :: d :: rest =>
    if c = a ∧ d = b then removePair a b rest
    else c :: removePair a b (d :: rest)

/-- One iteration of the canceller's loop body:
`code.replace("<>", "").replace("><", "")`. -/
def cancelStep (l : List Char) : List Char :=
  removePair '>' '<' (removePair '<' '>' l)

theorem removePair_length_le (a b : Char) :
    ∀ l : List Char, (removePair a b l).length ≤ l.length
  | [] => by simp [removePair]
  | [c] => by simp [removePair]
  | c :: d :: rest => by
    by_cases h : c = a ∧ d = b
    · have ih := removePair_length_le a b rest
      simp only [removePair, if_pos h]
      simp only [List.length_cons]
      omega
    · have ih := removePair_length_le a b (d :: rest)
      simp only [removePair, if_neg h]
      simp only [List.length_cons] at ih ⊢
      omega

theorem removePair_ne_length_lt (a b : Char) :
    ∀ l : List Char, removePair a b l ≠ l → (removePair a b l).length < l.length
  | [] => by simp [removePair]
  | [c] => by simp [removePair]
  | c :: d :: rest => by
    by_cases h : c = a ∧ d = b
    · intro _
      have := removePair_length_le a b rest
      simp only [removePair, if_pos h]
      simp only [List.length_cons]
      omega
    · intro hne
      have hrec : removePair a b (d :: rest) ≠ d :: rest := by
        intro he
        apply hne
        simp only [removePair, if_neg h, he]
      have := removePair_ne_length_lt a b (d :: rest) hrec
      simp only [removePair, if_neg h]
      simp only [List.length_cons] at this ⊢
      omega

theorem removePair_length_eq_iff (a b : Char) (l : List Char) :
    (removePair a b l).length = l.length ↔ removePair a b l = l := by
  constructor
  · intro h
    by_contra hne
    have := removePair_ne_length_lt a b l hne
    omega
  · intro h; rw [h]

theorem cancelStep_ne_length_lt (l : List Char) (h : cancelStep l ≠ l) :
    (cancelStep l).length < l.length := by
  unfold cancelStep at *
  by_cases h1 : removePair '<' '>' l = l
  · rw [h1] at h ⊢
    exact removePair_ne_length_lt _ _ l h
  · have hlt := removePair_ne_length_lt _ _ l h1
    have hle := removePair_length_le '>' '<' (removePair '<' '>' l)
    omega

/-- The canceller's fixed-point loop on character lists. -/
def cancelLoop (l : List Char) : List Char :=
  if h : cancelStep l = l then l
  else cancelLoop (cancelStep l)
termination_by l.length
decreasing_by exact cancelStep_ne_length_lt l h

/-- Source: `Parser._remove_redundant_instructions`. -/
def removeRedundant (s : String) : String :=
  ⟨cancelLoop s.data⟩

theorem cancelStep_cancelLoop : ∀ n l, l.length ≤ n →
    cancelStep (cancelLoop l) = cancelLoop l := by
  intro n
  induction n with
  | zero =>
    intro l hl
    have : l = [] := List.length_eq_zero.mp (Nat.le_zero.mp hl)
    subst this
    rw [cancelLoop]
    simp [cancelStep, removePair]
  | succ n ih =>
    intro l hl
    rw [cancelLoop]
    by_cases h : cancelStep l = l
    · rw [dif_pos h]; exact h
    · rw [dif_neg h]
      exact ih _ (by have := cancelStep_ne_length_lt l h; omega)

theorem cancelLoop_idem (l : List Char) :
    cancelLoop (cancelLoop l) = cancelLoop l := by
  rw [cancelLoop]
  rw [dif_pos (cancelStep_cancelLoop l.length l le_rfl)]

/-- Whether the pattern `[a, b]` occurs at adjacent positions. -/
def hasPair (a b : Char) : List Char → Bool
  | [] => false
  | [_] => false
  | c :: d :: rest => (c = a && d = b) || hasPair a b (d :: rest)

theorem removePair_fixed_no_pair (a b : Char) :
    ∀ l : List Char, removePair a b l = l → hasPair a b l = false
  | [] => by simp [hasPair]
  | [c] => by simp [hasPair]
  | c :: d :: rest => by
    intro h
    by_cases hp : c = a ∧ d = b
    · exfalso
      have hlen := removePair_length_le a b rest
      have : (removePair a b (c :: d :: rest)).length = (c :: d :: rest).length := by
        rw [h]
      simp only [removePair, if_pos hp, List.length_cons] at this
      omega
    · simp only [removePair, if_neg hp, List.cons.injEq, true_and] at h
      have := removePair_fixed_no_pair a b (d :: rest) h
      simp only [hasPair, this, Bool.or_false]
      rcases not_and_or.mp hp with hc | hd
      · simp [hc]
      · simp [hd]

theorem cancelLoop_no_pair (l : List Char) :
    hasPair '<' '>' (cancelLoop l) = false ∧ hasPair '>' '<' (cancelLoop l) = false := by
  have hfix := cancelStep_cancelLoop l.length l le_rfl
  unfold cancelStep at hfix
  have hle1 := removePair_length_le '<' '>' (cancelLoop l)
  have hle2 := removePair_length_le '>' '<' (removePair '<' '>' (cancelLoop l))
  have hlen : (removePair '>' '<' (removePair '<' '>' (cancelLoop l))).length
      = (cancelLoop l).length := by rw [hfix]
  have h1 : removePair '<' '>' (cancelLoop l) = cancelLoop l := by
    rw [← removePair_length_eq_iff]
    omega
  have h2 : removePair '>' '<' (cancelLoop l) = cancelLoop l := by
    rw [h1] at hfix
    exact hfix
  exact ⟨removePair_fixed_no_pair _ _ _ h1, removePair_fixed_no_pair _ _ _ h2⟩

/-- C9: the peephole canceller is idempotent: applying it once to its own
output yields the output unchanged, and the output contains no adjacent
`<>` or `><` pair. -/
theorem C9_canceller_idempotent (s : String) :
    removeRedundant (removeRedundant s) = removeRedundant s ∧
      hasPair '<' '>' (removeRedundant s).data = false ∧
      hasPair '>' '<' (removeRedundant s).data = false := by
  refine ⟨?_, (cancelLoop_no_pair s.data).1, (cancelLoop_no_pair s.data).2⟩
  show (⟨cancelLoop (String.data ⟨cancelLoop s.data⟩)⟩ : String) = ⟨cancelLoop s.data⟩
  rw [show (String.data ⟨cancelLoop s.data⟩) = cancelLoop s.data from rfl,
    cancelLoop_idem]

/-! ## The IR instruction set

The lowerer emits lines of text; each line is either a mnemonic with its
operand or a comment line starting with `#`.  `Instr` is that line
alphabet in tagged form; `Instr.comment` keeps the comment lines because
the expression optimiser's simple-right test counts them
(`len(code) == 1`). -/

inductive Instr where
  | loadAImm (n : Nat)
  | loadAMem (a : Nat)
  | loadBImm (n : Nat)
  | loadBMem (a : Nat)
  | storeA (a : Nat)
  | storeB (a : Nat)
  | add
  | sub
  | inA
  | inB
  | outA
  | outB
  | loopStart
  | loopEnd
  | comment (s : String)
deriving DecidableEq, Repr

/-- Immediate operand of an instruction, when it has one. -/
def Instr.imm : Instr → Option Nat
  | .loadAImm n => some n
  | .loadBImm n => some n
  | _ => none

/-- Memory-address operand of an instruction, when it has one. -/
def Instr.addr : Instr → Option Nat
  | .loadAMem a => some a
  | .loadBMem a => some a
  | .storeA a => some a
  | .storeB a => some a
  | _ => none

/-! ## IR semantics

State of the register machine described in the spec's data model: two
byte registers, byte memory, an input stream and an output trace.  All
writes are reduced `% 256`, matching the byte cells of the BF target. -/

structure IRState where
  regA : Nat
  regB : Nat
  mem : Nat → Nat
  input : List Nat
  output : List Nat

def IRState.init (input : List Nat) : IRState :=
  ⟨0, 0, fun _ => 0, input, []⟩

/-- Byte subtraction `a - b (mod 256)` for `a, b < 256`. -/
def sub256 (a b : Nat) : Nat := (a + 256 - b) % 256

/-- Read one byte from the input stream; an exhausted stream reads 0. -/
def takeInput (s : IRState) : Nat × List Nat :=
  match s.input with
  | [] => (0, [])
  | x :: rest => (x % 256, rest)

/-- Effect of one non-loop instruction.  `loopStart` / `loopEnd` never
occur as plain steps in parsed programs; they are identity here. -/
def irStep (i : Instr) (s : IRState) : IRState :=
  match i with
  | .loadAImm n => { s with regA := n % 256 }
  | .loadAMem a => { s with regA := s.mem a }
  | .loadBImm n => { s with regB := n % 256 }
  | .loadBMem a => { s with regB := s.mem a }
  | .storeA a => { s with mem := Function.update s.mem a s.regA }
  | .storeB a => { s with mem := Function.update s.mem a s.regB }
  | .add => { s with regA := (s.regA + s.regB) % 256, regB := 0 }
  | .sub => { s with regA := sub256 s.regA s.regB, regB := 0 }
  | .inA => { s with regA := (takeInput s).1, input := (takeInput s).2 }
  | .inB => { s with regB := (takeInput s).1, input := (takeInput s).2 }
  | .outA => { s with output := s.output ++ [s.regA] }
  | .outB => { s with output := s.output ++ [s.regB] }
  | .loopStart => s
  | .loopEnd => s
  | .comment _ => s

/-- Structured IR: flat `loopStart` / `loopEnd` brackets matched into
loop nodes. -/
inductive IRT where
  | act (i : Instr)
  | loop (body : List IRT)
deriving Repr

/-- Bracket matcher turning a flat instruction list into structured IR.
The stack holds reversed partial bodies, innermost first. -/
def matchIRAux : List Instr → List (List IRT) → Option (List IRT)
  | [], [top] => some top.reverse
  | [], _ => none
  | .loopStart :: rest, st => matchIRAux rest ([] :: st)
  | .loopEnd :: rest, top :: next :: more =>
    matchIRAux rest ((IRT.loop top.reverse :: next) :: more)
  | .loopEnd :: _, _ => none
  | i :: rest, top :: more => matchIRAux rest ((IRT.act i :: top) :: more)
  | _ :: _, [] => none

def matchIR (l : List Instr) : Option (List IRT) :=
  matchIRAux l [[]]

/-- Fueled interpreter over structured IR.  Fuel is spent only on loop
iterations, so straight-line code composes without fuel bookkeeping. -/
def irExec : Nat → List IRT → IRState → Option IRState
  | _, [], s => some s
  | fuel, .act i :: k, s => irExec fuel k (irStep i s)
  | fuel, .loop b :: k, s =>
    if s.regA = 0 then irExec fuel k s
    else if hf : fuel = 0 then none
    else irExec (fuel - 1) (b ++ .loop b :: k) s
termination_by fuel k => (fuel, k.length)

/-- Run a flat IR instruction list: structure the brackets, then
interpret. -/
def irRun (fuel : Nat) (l : List Instr) (s : IRState) : Option IRState :=
  match matchIR l with
  | none => none
  | some ts => irExec fuel ts s

/-! ## Symbol table (`lark_parser.SymbolTable`) -/

/-- Association-list update with Python-dict overwrite semantics. -/
def setEntry : List (String × Nat) → String → Nat → List (String × Nat)
  | [], name, a => [(name, a)]
  | (m, b) :: rest, name, a =>
    if m = name then (name, a) :: rest else (m, b) :: setEntry rest name a

structure SymbolTable where
  symbols : List (String × Nat)
  next_address : Nat
deriving Repr

namespace SymbolTable

/-- Fresh table: `next_address` starts at 2, leaving user addresses 0 and 1
for temporary storage. -/
def empty : SymbolTable := ⟨[], 2⟩

/-- Source: `SymbolTable.add_symbol`.  Always hands out `next_address`,
even when the name is already present. -/
def addSymbol (t : SymbolTable) (name : String) : Nat × SymbolTable :=
  (t.next_address, ⟨setEntry t.symbols name t.next_address, t.next_address + 1⟩)

/-- Source: `SymbolTable.get_address`; `none` models the
"Undefined variable" exception. -/
def getAddress (t : SymbolTable) (name : String) : Option Nat :=
  (t.symbols.find? (fun p => p.1 = name)).map Prod.snd

/-- Source: `SymbolTable.has_symbol`. -/
def hasSymbol (t : SymbolTable) (name : String) : Bool :=
  (t.getAddress name).isSome

end SymbolTable

/-! ## Code generator (`lark_parser.CodeGenerator`) -/

/-- Source: `CodeGenerator.load_immediate`, including the 0..255 range
check (the value is a `Nat`, so only the upper bound can fail). -/
def load_immediate (value : Nat) : Except String Instr :=
  if value > 255 then
    .error ("Value " ++ toString value ++ " out of range for 8-bit processor")
  else .ok (.loadAImm value)

/-! ## BFS abstract syntax

The tree shapes the lark grammar produces, after token extraction:
number and character literals carry their numeric value (`ord` of the
extracted character for `CHARACTER`). -/

inductive ConstVal where
  | int (n : Nat)
  | str (s : String)
deriving DecidableEq, Repr

inductive Expr where
  | num (n : Nat)
  | chr (c : Nat)
  | var (name : String)
  | addE (l r : Expr)
  | subE (l r : Expr)
  | eqE (l r : Expr)
  | neE (l r : Expr)
  | paren (e : Expr)
deriving DecidableEq, Repr

inductive Stmt where
  | varDecl (name : String) (e : Expr)
  | assign (name : String) (e : Expr)
  | inputS (name : String)
  | outputS (e : Expr)
  | whileS (cond : Expr) (body : List Stmt)
  | ifS (cond : Expr) (body : List Stmt) (els : Option (List Stmt))
  | exprS (e : Expr)
deriving Repr

inductive Item where
  | defineD (name : String) (v : ConstVal)
  | stmtI (s : Stmt)
deriving Repr

/-- Lowerer state: the symbol table plus the `#define` constant table. -/
structure Low where
  tab : SymbolTable
  defines : List (String × ConstVal)
deriving Repr

def setConst : List (String × ConstVal) → String → ConstVal → List (String × ConstVal)
  | [], name, v => [(name, v)]
  | (m, w) :: rest, name, v =>
    if m = name then (name, v) :: rest else (m, w) :: setConst rest name v

def lookupConst (l : List (String × ConstVal)) (name : String) : Option ConstVal :=
  (l.find? (fun p => p.1 = name)).map Prod.snd

/-- Source: `CompilerTransformer.__init__` — `true`/`false` are
prepopulated constants and symbol allocation starts fresh. -/
def initLow : Low :=
  { tab := SymbolTable.empty, defines := [("true", .int 1), ("false", .int 0)] }

/-! ## Expression optimiser (`lark_parser.ExpressionOptimizer`) -/

/-- Source: `ExpressionOptimizer._is_simple_expression` — exactly one
instruction and it starts with `LOAD_A_IMM` or `LOAD_A_MEM`.  Comment
entries count toward the length, as in the Python list of lines. -/
def isSimpleExpr : List Instr → Bool
  | [.loadAImm _] => true
  | [.loadAMem _] => true
  | _ => false

/-- Source: `ExpressionOptimizer.optimize_binary_operation`. -/
def optimizeBinary (left right : List Instr) (op : Instr) (opName : String) :
    List Instr :=
  match right with
  | [.loadAImm v] =>
    .comment ("# Optimized: " ++ opName) :: (left ++ [.loadBImm v, op])
  | [.loadAMem a] =>
    .comment ("# Optimized: " ++ opName) :: (left ++ [.loadBMem a, op])
  | _ =>
    .comment ("# General case: " ++ opName) ::
      (left ++ [.storeA 0] ++ right ++ [.storeA 1, .loadBMem 1, .loadAMem 0, op])

/-! ## Comparison synthesis (`CompilerTransformer.equal` / `not_equal`)

The `load_immediate` calls here use the constants 0 and 1, which are in
range, so the emitted instructions are written directly. -/

def equalLower (left right : List Instr) : List Instr :=
  .comment "# Equal" ::
    ([.loadAImm 1, .storeA 0] ++ left ++ [.storeA 1] ++ right ++
      [.loadBMem 1, .sub, .loopStart, .loadAImm 0, .storeA 0, .loadAImm 0,
        .loopEnd, .loadAMem 0])

def notEqualLower (left right : List Instr) : List Instr :=
  .comment "# Not equal" ::
    ([.loadAImm 0, .storeA 0] ++ left ++ [.storeA 1] ++ right ++
      [.loadBMem 1, .sub, .loopStart, .loadAImm 1, .storeA 0, .loadAImm 0,
        .loopEnd, .loadAMem 0])

/-! ## Expression lowering (`CompilerTransformer`, expression rules) -/

def lowerExpr (st : Low) : Expr → Except String (List Instr)
  | .num n => do
    let i ← load_immediate n
    .ok [i]
  | .chr c =>
    if c > 255 then
      .error ("ASCII value " ++ toString c ++ " out of range for 8-bit processor")
    else do
      let i ← load_immediate c
      .ok [i]
  | .var name =>
    match lookupConst st.defines name with
    | some (.int v) => do
      let i ← load_immediate v
      .ok [i]
    | some (.str _) => .error ("Unsupported constant type for " ++ name)
    | none =>
      match st.tab.getAddress name with
      | some a => .ok [.comment ("# Variable load: " ++ name), .loadAMem a]
      | none => .error ("Undefined variable: " ++ name)
  | .addE l r => do
    let lc ← lowerExpr st l
    let rc ← lowerExpr st r
    .ok (optimizeBinary lc rc .add "ADD")
  | .subE l r => do
    let lc ← lowerExpr st l
    let rc ← lowerExpr st r
    .ok (optimizeBinary lc rc .sub "SUB")
  | .eqE l r => do
    let lc ← lowerExpr st l
    let rc ← lowerExpr st r
    .ok (equalLower lc rc)
  | .neE l r => do
    let lc ← lowerExpr st l
    let rc ← lowerExpr st r
    .ok (notEqualLower lc rc)
  | .paren e => lowerExpr st e

/-! ## Statement lowering (`CompilerTransformer`, statement rules)

Lark's `Transformer` walks the tree bottom-up, so children are
transformed (and allocate symbols) before their parent's callback runs,
siblings left to right.  The functions below thread the lowerer state in
exactly that document order. -/

def goElseName (i : Nat) : String := "go_else_" ++ toString i

/-- Source: the `while not go_else_address` search in
`CompilerTransformer.if_statement` — smallest `i` whose `go_else_i` is
free.  Among `symbols.length + 1` candidates one is always free, so the
bounded search agrees with the unbounded Python loop. -/
def allocGoElse (t : SymbolTable) : Nat × SymbolTable :=
  let i := (((List.range (t.symbols.length + 1)).find?
    (fun i => ! t.hasSymbol (goElseName i))).getD t.symbols.length)
  t.addSymbol (goElseName i)

/-- The optional else item appended to the statement items. -/
def elsItems : Option (List Instr) → List (List Instr)
  | some e => [e]
  | none => []

/-- Tail of `CompilerTransformer.if_statement` once condition, body and
else clause are transformed: Python builds
`items = [cond] ++ bodyCodes ++ else?` and treats `items[-1]` as the
else clause whenever `len(items) > 2 and isinstance(items[-1], list)`;
every item is a list, so the test degenerates to `len(items) > 2`. -/
def buildIf (cc : List Instr) (bodyCodes : List (List Instr))
    (elsCode : Option (List Instr)) (st2 : Low) : List Instr × Low :=
  let items := bodyCodes ++ elsItems elsCode
  let ifBody := if items.length + 1 > 2 then items.dropLast else items
  let elseClause := if items.length + 1 > 2 then items.getLast? else none
  match elseClause with
  | none =>
    (.comment "# If statement" ::
      (cc ++ [.loopStart] ++ ifBody.flatten ++ [.loopEnd]), st2)
  | some elseCode =>
    let (goAddr, tab') := allocGoElse st2.tab
    (.comment "# If statement" ::
      ([.loadAImm 1, .storeA goAddr] ++ cc ++ [.loopStart] ++ ifBody.flatten ++
        [.loadAImm 0, .storeA goAddr, .loopEnd, .loadAMem goAddr, .loopStart] ++
        elseCode ++ [.loadAImm 0, .storeA goAddr, .loopEnd]),
      { st2 with tab := tab' })

mutual

def lowerStmt : Stmt → Low → Except String (List Instr × Low)
  | .varDecl name e, st => do
    let code ← lowerExpr st e
    let (addr, tab') := st.tab.addSymbol name
    .ok (.comment ("# Variable declaration: " ++ name) :: (code ++ [.storeA addr]),
      { st with tab := tab' })
  | .assign name e, st => do
    let code ← lowerExpr st e
    match st.tab.getAddress name with
    | some addr =>
      .ok (.comment ("# Assignment: " ++ name) :: (code ++ [.storeA addr]), st)
    | none => .error ("Undefined variable: " ++ name)
  | .inputS name, st =>
    match st.tab.getAddress name with
    | some addr => .ok ([.comment "# Input statement", .inA, .storeA addr], st)
    | none => .error ("Undefined variable: " ++ name)
  | .outputS e, st => do
    let code ← lowerExpr st e
    .ok (.comment "# Output statement" :: (code ++ [.outA]), st)
  | .whileS cond body, st => do
    let cc ← lowerExpr st cond
    let (bc, st') ← lowerStmts body st
    .ok (.comment "# While loop" :: (cc ++ [.loopStart] ++ bc ++ cc ++ [.loopEnd]),
      st')
  | .ifS cond body els, st => do
    let cc ← lowerExpr st cond
    let (bodyCodes, st1) ← lowerStmtsEach body st
    let (elsCode, st2) ←
      match els with
      | none => pure ((none : Option (List Instr)), st1)
      | some es => do
        let (ec, st2) ← lowerStmts es st1
        pure (some (Instr.comment "# Else clause" :: ec), st2)
    .ok (buildIf cc bodyCodes elsCode st2)
  | .exprS e, st => do
    let code ← lowerExpr st e
    .ok (code, st)

def lowerStmts : List Stmt → Low → Except String (List Instr × Low)
  | [], st => .ok ([], st)
  | s :: rest, st => do
    let (c, st') ← lowerStmt s st
    let (cs, st'') ← lowerStmts rest st'
    .ok (c ++ cs, st'')

def lowerStmtsEach : List Stmt → Low → Except String (List (List Instr) × Low)
  | [], st => .ok ([], st)
  | s :: rest, st => do
    let (c, st') ← lowerStmt s st
    let (cs, st'') ← lowerStmtsEach rest st'
    .ok (c :: cs, st'')

end

def lowerItem : Item → Low → Except String (List Instr × Low)
  | .defineD name v, st =>
    .ok ([], { st with defines := setConst st.defines name v })
  | .stmtI s, st => lowerStmt s st

def lowerItems : List Item → Low → Except String (List Instr × Low)
  | [], st => .ok ([], st)
  | it :: rest, st => do
    let (c, st') ← lowerItem it st
    let (cs, st'') ← lowerItems rest st'
    .ok (c ++ cs, st'')

/-- The lowering pipeline of `Compiler.compile`, from the transformed AST
to the flat IR instruction list (the memory-map comment header that
`compile` prepends is not part of the instruction stream). -/
def lowerProgram (p : List Item) : Except String (List Instr × Low) :=
  lowerItems p initLow

/-! ## Composition lemmas for the IR interpreter -/

theorem irExec_mono : ∀ (f g : Nat) (k : List IRT) (s s' : IRState),
    irExec f k s = some s' → irExec (f + g) k s = some s'
  | f, g, [], s, s' => by simp [irExec]
  | f, g, .act i :: k, s, s' => by
    intro h
    simp only [irExec] at h ⊢
    exact irExec_mono f g k _ s' h
  | f, g, .loop b :: k, s, s' => by
    intro h
    by_cases hz : s.regA = 0
    · simp only [irExec, if_pos hz] at h ⊢
      exact irExec_mono f g k s s' h
    · simp only [irExec, if_neg hz] at h ⊢
      by_cases hf : f = 0
      · simp [hf] at h
      · rw [dif_neg hf] at h
        rw [dif_neg (by omega : ¬ f + g = 0)]
        have hm := irExec_mono (f - 1) g _ s s' h
        rw [show f + g - 1 = f - 1 + g from by omega]
        exact hm
termination_by f _ k => (f, k.length)

theorem irExec_seq : ∀ (f g : Nat) (A B : List IRT) (s s₁ s₂ : IRState),
    irExec f A s = some s₁ → irExec g B s₁ = some s₂ →
    irExec (f + g) (A ++ B) s = some s₂
  | f, g, [], B, s, s₁, s₂ => by
    intro h1 h2
    simp only [irExec, Option.some.injEq] at h1
    subst h1
    simp only [List.nil_append]
    rw [Nat.add_comm]
    exact irExec_mono g f B s s₂ h2
  | f, g, .act i :: A, B, s, s₁, s₂ => by
    intro h1 h2
    simp only [irExec, List.cons_append] at h1 ⊢
    exact irExec_seq f g A B _ s₁ s₂ h1 h2
  | f, g, .loop b :: A, B, s, s₁, s₂ => by
    intro h1 h2
    by_cases hz : s.regA = 0
    · simp only [irExec, List.cons_append, if_pos hz] at h1 ⊢
      exact irExec_seq f g A B s s₁ s₂ h1 h2
    · simp only [irExec, List.cons_append, if_neg hz] at h1 ⊢
      by_cases hf : f = 0
      · simp [hf] at h1
      · rw [dif_neg hf] at h1
        rw [dif_neg (by omega : ¬ f + g = 0)]
        have ih := irExec_seq (f - 1) g (b ++ .loop b :: A) B s s₁ s₂ h1 h2
        rw [show f + g - 1 = f - 1 + g from by omega]
        simpa [List.append_assoc] using ih
termination_by f _ A => (f, A.length)

/-- Straight-line effect of a comment-and-step instruction list. -/
def runActs (l : List Instr) (s : IRState) : IRState :=
  l.foldl (fun s i => irStep i s) s

theorem irExec_acts (f : Nat) : ∀ (l : List Instr) (s : IRState),
    irExec f (l.map IRT.act) s = some (runActs l s)
  | [], s => by simp [irExec, runActs]
  | i :: l, s => by
    simp only [List.map_cons, irExec, runActs, List.foldl_cons]
    exact irExec_acts f l (irStep i s)

theorem runActs_append (a b : List Instr) (s : IRState) :
    runActs (a ++ b) s = runActs b (runActs a s) := by
  simp [runActs, List.foldl_append]

/-! ## Flattening structured IR back to the bracketed instruction list -/

mutual

def flattenT : IRT → List Instr
  | .act i => [i]
  | .loop b => Instr.loopStart :: flattenL b ++ [Instr.loopEnd]

def flattenL : List IRT → List Instr
  | [] => []
  | t :: ts => flattenT t ++ flattenL ts

end

mutual

/-- Trees whose plain steps are genuinely plain: no stray `loopStart` /
`loopEnd` hides under an `act`. -/
def okT : IRT → Bool
  | .act .loopStart => false
  | .act .loopEnd => false
  | .act _ => true
  | .loop b => okL b

def okL : List IRT → Bool
  | [] => true
  | t :: ts => okT t && okL ts

end

theorem matchIRAux_flattenL : ∀ (ts : List IRT), okL ts = true →
    ∀ (rest : List Instr) (top : List IRT) (more : List (List IRT)),
    matchIRAux (flattenL ts ++ rest) (top :: more) =
      matchIRAux rest ((ts.reverse ++ top) :: more)
  | [], _, rest, top, more => by simp [flattenL]
  | .act i :: ts, hok, rest, top, more => by
    have h1 : okT (.act i) = true := by
      have := hok; simp only [okL, Bool.and_eq_true] at this; exact this.1
    have h2 : okL ts = true := by
      have := hok; simp only [okL, Bool.and_eq_true] at this; exact this.2
    have step : matchIRAux ((flattenT (.act i) ++ flattenL ts) ++ rest) (top :: more)
        = matchIRAux (flattenL ts ++ rest) ((IRT.act i :: top) :: more) := by
      cases i <;> simp_all [flattenT, matchIRAux, okT]
    calc matchIRAux (flattenL (.act i :: ts) ++ rest) (top :: more)
        = matchIRAux (flattenL ts ++ rest) ((IRT.act i :: top) :: more) := step
      _ = matchIRAux rest ((ts.reverse ++ IRT.act i :: top) :: more) :=
          matchIRAux_flattenL ts h2 _ _ _
      _ = matchIRAux rest (((IRT.act i :: ts).reverse ++ top) :: more) := by simp
  | .loop b :: ts, hok, rest, top, more => by
    have h1 : okL b = true := by
      have := hok; simp only [okL, okT, Bool.and_eq_true] at this; exact this.1
    have h2 : okL ts = true := by
      have := hok; simp only [okL, Bool.and_eq_true] at this; exact this.2
    calc matchIRAux (flattenL (.loop b :: ts) ++ rest) (top :: more)
        = matchIRAux (flattenL b ++ (Instr.loopEnd :: (flattenL ts ++ rest)))
            ([] :: top :: more) := by
          simp [flattenL, flattenT, matchIRAux]
      _ = matchIRAux (Instr.loopEnd :: (flattenL ts ++ rest))
            ((b.reverse ++ []) :: top :: more) := matchIRAux_flattenL b h1 _ _ _
      _ = matchIRAux (flattenL ts ++ rest) ((IRT.loop b :: top) :: more) := by
          simp [matchIRAux]
      _ = matchIRAux rest ((ts.reverse ++ IRT.loop b :: top) :: more) :=
          matchIRAux_flattenL ts h2 _ _ _
      _ = matchIRAux rest (((IRT.loop b :: ts).reverse ++ top) :: more) := by simp
termination_by ts => sizeOf ts

theorem matchIR_flattenL (ts : List IRT) (h : okL ts = true) :
    matchIR (flattenL ts) = some ts := by
  unfold matchIR
  have heq := matchIRAux_flattenL ts h [] [] []
  rw [List.append_nil] at heq
  rw [heq]
  simp [matchIRAux]

/-- Plain steps in front of a continuation happen by `irStep`, with no
fuel spent. -/
theorem irExec_acts_append (f : Nat) : ∀ (l : List Instr) (k : List IRT) (s : IRState),
    irExec f (l.map IRT.act ++ k) s = irExec f k (runActs l s)
  | [], k, s => by simp [runActs]
  | i :: l, k, s => by
    simp only [List.map_cons, List.cons_append, irExec, runActs, List.foldl_cons]
    exact irExec_acts_append f l k (irStep i s)

/-! ## Reference expression semantics

Denotation of a BFS expression under the spec's data-model semantics
(byte arithmetic mod 256, comparisons producing 1 or 0), used to state
what a lowered expression ought to compute.  `env` gives the values of
program variables. -/

def specExprValue (env : String → Nat) : Expr → Nat
  | .num n => n % 256
  | .chr c => c % 256
  | .var name => env name % 256
  | .addE l r => (specExprValue env l + specExprValue env r) % 256
  | .subE l r => sub256 (specExprValue env l) (specExprValue env r)
  | .eqE l r => if specExprValue env l = specExprValue env r then 1 else 0
  | .neE l r => if specExprValue env l = specExprValue env r then 0 else 1
  | .paren e => specExprValue env e

/-- C2 (code_bug): the general-case binary spill slots 0 and 1 are fixed,
so a general-case right operand that itself spills clobbers the left
value.  For `(10 - 1) - (5 - (2 + 1))`, whose value is 7, the lowered IR
terminates with REG_A = 3. -/
theorem C2_nested_spill_wrong_value :
    lowerExpr initLow
        (Expr.subE (Expr.paren (Expr.subE (Expr.num 10) (Expr.num 1)))
          (Expr.paren (Expr.subE (Expr.num 5)
            (Expr.paren (Expr.addE (Expr.num 2) (Expr.num 1)))))) =
      Except.ok
        [Instr.comment "# General case: SUB",
         Instr.comment "# Optimized: SUB", Instr.loadAImm 10, Instr.loadBImm 1,
         Instr.sub, Instr.storeA 0,
         Instr.comment "# General case: SUB", Instr.loadAImm 5, Instr.storeA 0,
         Instr.comment "# Optimized: ADD", Instr.loadAImm 2, Instr.loadBImm 1,
         Instr.add, Instr.storeA 1, Instr.loadBMem 1, Instr.loadAMem 0,
         Instr.sub, Instr.storeA 1, Instr.loadBMem 1, Instr.loadAMem 0,
         Instr.sub] ∧
    (irRun 0
        [Instr.comment "# General case: SUB",
         Instr.comment "# Optimized: SUB", Instr.loadAImm 10, Instr.loadBImm 1,
         Instr.sub, Instr.storeA 0,
         Instr.comment "# General case: SUB", Instr.loadAImm 5, Instr.storeA 0,
         Instr.comment "# Optimized: ADD", Instr.loadAImm 2, Instr.loadBImm 1,
         Instr.add, Instr.storeA 1, Instr.loadBMem 1, Instr.loadAMem 0,
         Instr.sub, Instr.storeA 1, Instr.loadBMem 1, Instr.loadAMem 0,
         Instr.sub] (IRState.init [])).map IRState.regA = some 3 ∧
    specExprValue (fun _ => 0)
        (Expr.subE (Expr.paren (Expr.subE (Expr.num 10) (Expr.num 1)))
          (Expr.paren (Expr.subE (Expr.num 5)
            (Expr.paren (Expr.addE (Expr.num 2) (Expr.num 1)))))) = 7 ∧
    (3 : Nat) ≠ 7 := by
  refine ⟨rfl, ?_, rfl, by decide⟩
  simp [irRun, matchIR, matchIRAux, irExec, irStep, IRState.init, sub256,
    Function.update]

/-- C3 (code_bug): an `if` without `else` and a single-statement body
lowers to `cond ; LOOP_START ; body ; LOOP_END` with no `LOAD_A_IMM 0`
terminator anywhere, so the loop re-tests whatever the body left in
REG_A: for `if (1) { output(65); }` the IR program never terminates. -/
theorem C3_if_without_else_missing_terminator :
    lowerProgram [Item.stmtI (Stmt.ifS (Expr.num 1) [Stmt.outputS (Expr.num 65)] none)] =
      Except.ok
        ([Instr.comment "# If statement", Instr.loadAImm 1, Instr.loopStart,
          Instr.comment "# Output statement", Instr.loadAImm 65, Instr.outA,
          Instr.loopEnd], initLow) ∧
    ([Instr.comment "# If statement", Instr.loadAImm 1, Instr.loopStart,
      Instr.comment "# Output statement", Instr.loadAImm 65, Instr.outA,
      Instr.loopEnd].contains (Instr.loadAImm 0)) = false ∧
    ∀ fuel,
      irRun fuel
        [Instr.comment "# If statement", Instr.loadAImm 1, Instr.loopStart,
          Instr.comment "# Output statement", Instr.loadAImm 65, Instr.outA,
          Instr.loopEnd] (IRState.init []) = none := by
  refine ⟨rfl, by decide, ?_⟩
  intro fuel
  have key : ∀ f (s : IRState), s.regA ≠ 0 →
      irExec f [IRT.loop [IRT.act (Instr.comment "# Output statement"),
        IRT.act (Instr.loadAImm 65), IRT.act Instr.outA]] s = none := by
    intro f
    induction f with
    | zero => intro s hz; simp [irExec, hz]
    | succ f ih =>
      intro s hz
      rw [irExec.eq_def]
      simp only [if_neg hz]
      rw [dif_neg (by omega : ¬ f + 1 = 0)]
      rw [show ([IRT.act (Instr.comment "# Output statement"),
        IRT.act (Instr.loadAImm 65), IRT.act Instr.outA] : List IRT)
          = [Instr.comment "# Output statement", Instr.loadAImm 65,
              Instr.outA].map IRT.act from rfl]
      rw [irExec_acts_append, Nat.add_sub_cancel]
      exact ih _ (by simp [runActs, irStep])
  have hmatch : matchIR
      [Instr.comment "# If statement", Instr.loadAImm 1, Instr.loopStart,
        Instr.comment "# Output statement", Instr.loadAImm 65, Instr.outA,
        Instr.loopEnd] =
      some [IRT.act (Instr.comment "# If statement"), IRT.act (Instr.loadAImm 1),
        IRT.loop [IRT.act (Instr.comment "# Output statement"),
          IRT.act (Instr.loadAImm 65), IRT.act Instr.outA]] := rfl
  unfold irRun
  rw [hmatch]
  show irExec fuel
    ([Instr.comment "# If statement", Instr.loadAImm 1].map IRT.act ++
      [IRT.loop [IRT.act (Instr.comment "# Output statement"),
        IRT.act (Instr.loadAImm 65), IRT.act Instr.outA]]) (IRState.init []) = none
  rw [irExec_acts_append]
  exact key fuel _ (by simp [runActs, irStep, IRState.init])

/-- C4 counterexample: for `5 == 3` the state in which the gate loop is
reached holds REG_A = 254 = right − left (mod 256), not
left − right (mod 256) = 2 as the claim states. -/
theorem C4_counterexample_direction :
    lowerExpr initLow (Expr.eqE (Expr.num 5) (Expr.num 3)) =
      Except.ok
        [Instr.comment "# Equal", Instr.loadAImm 1, Instr.storeA 0,
         Instr.loadAImm 5, Instr.storeA 1, Instr.loadAImm 3,
         Instr.loadBMem 1, Instr.sub, Instr.loopStart, Instr.loadAImm 0,
         Instr.storeA 0, Instr.loadAImm 0, Instr.loopEnd, Instr.loadAMem 0] ∧
    (irRun 0
        ([Instr.comment "# Equal", Instr.loadAImm 1, Instr.storeA 0,
          Instr.loadAImm 5, Instr.storeA 1, Instr.loadAImm 3,
          Instr.loadBMem 1, Instr.sub, Instr.loopStart, Instr.loadAImm 0,
          Instr.storeA 0, Instr.loadAImm 0, Instr.loopEnd,
          Instr.loadAMem 0].takeWhile (fun i => i != Instr.loopStart))
        (IRState.init [])).map IRState.regA = some 254 ∧
    sub256 5 3 = 2 ∧ (254 : Nat) ≠ 2 := by
  refine ⟨rfl, ?_, by decide, by decide⟩
  simp [irRun, matchIR, matchIRAux, irExec, irStep, IRState.init, sub256,
    Function.update, List.takeWhile]

/-! ## Symbol-table invariants -/

/-- A sequence of `add_symbol` calls, in program order. -/
def applyAdds (names : List String) (t : SymbolTable) : SymbolTable :=
  names.foldl (fun t n => (t.addSymbol n).2) t

theorem mem_setEntry : ∀ (l : List (String × Nat)) (n : String) (a : Nat)
    (p : String × Nat), p ∈ setEntry l n a → p = (n, a) ∨ p ∈ l
  | [], n, a, p => by simp [setEntry]
  | (m, b) :: l, n, a, p => by
    by_cases h : m = n
    · simp only [setEntry, if_pos h, List.mem_cons]
      rintro (rfl | hp)
      · exact Or.inl rfl
      · exact Or.inr (Or.inr hp)
    · simp only [setEntry, if_neg h, List.mem_cons]
      rintro (rfl | hp)
      · exact Or.inr (Or.inl rfl)
      · rcases mem_setEntry l n a p hp with h1 | h1
        · exact Or.inl h1
        · exact Or.inr (Or.inr h1)

theorem snd_setEntry_sub : ∀ (l : List (String × Nat)) (n : String) (a : Nat)
    (v : Nat), v ∈ (setEntry l n a).map Prod.snd → v = a ∨ v ∈ l.map Prod.snd := by
  intro l n a v hv
  rcases List.mem_map.mp hv with ⟨p, hp, rfl⟩
  rcases mem_setEntry l n a p hp with rfl | hp'
  · exact Or.inl rfl
  · exact Or.inr (List.mem_map_of_mem _ hp')

theorem setEntry_values_nodup : ∀ (l : List (String × Nat)) (n : String) (a : Nat),
    (∀ v ∈ l.map Prod.snd, v < a) → (l.map Prod.snd).Nodup →
    ((setEntry l n a).map Prod.snd).Nodup
  | [], n, a, _, _ => by simp [setEntry]
  | (m, b) :: l, n, a, hlt, hnd => by
    by_cases h : m = n
    · simp only [setEntry, if_pos h, List.map_cons, List.nodup_cons]
      refine ⟨fun hmem => ?_, (List.nodup_cons.mp hnd).2⟩
      have := hlt a (by simp [hmem])
      omega
    · simp only [setEntry, if_neg h, List.map_cons, List.nodup_cons]
      constructor
      · intro hmem
        rcases snd_setEntry_sub l n a b hmem with rfl | hb
        · have := hlt b (by simp)
          omega
        · exact (List.nodup_cons.mp hnd).1 hb
      · exact setEntry_values_nodup l n a
          (fun v hv => hlt v (by simp [hv]))
          (List.nodup_cons.mp hnd).2

/-- The two invariants that survive every operation: all stored addresses
are below `next_address`, and no two entries share an address. -/
def SymInv (t : SymbolTable) : Prop :=
  (∀ p ∈ t.symbols, p.2 < t.next_address) ∧ (t.symbols.map Prod.snd).Nodup

theorem symInv_empty : SymInv SymbolTable.empty := by
  constructor <;> simp [SymbolTable.empty]

theorem symInv_addSymbol (t : SymbolTable) (n : String) (h : SymInv t) :
    SymInv (t.addSymbol n).2 := by
  obtain ⟨hlt, hnd⟩ := h
  constructor
  · intro p hp
    rcases mem_setEntry t.symbols n t.next_address p hp with rfl | hp'
    · simp [SymbolTable.addSymbol]
    · have := hlt p hp'
      simp only [SymbolTable.addSymbol]
      omega
  · exact setEntry_values_nodup t.symbols n t.next_address
      (fun v hv => by
        rcases List.mem_map.mp hv with ⟨p, hp, rfl⟩
        exact hlt p hp) hnd

theorem symInv_applyAdds : ∀ (names : List String) (t : SymbolTable),
    SymInv t → SymInv (applyAdds names t)
  | [], t, h => h
  | n :: names, t, h =>
    symInv_applyAdds names (t.addSymbol n).2 (symInv_addSymbol t n h)

theorem next_applyAdds_mono : ∀ (names : List String) (t : SymbolTable),
    t.next_address ≤ (applyAdds names t).next_address
  | [], t => le_refl _
  | n :: names, t => by
    have h1 := next_applyAdds_mono names (t.addSymbol n).2
    have h2 : t.next_address ≤ (t.addSymbol n).2.next_address := by
      simp [SymbolTable.addSymbol]
    exact le_trans h2 h1

theorem getAddress_setEntry_ne (name : String) :
    ∀ (l : List (String × Nat)) (n : String) (a : Nat), n ≠ name →
    (setEntry l n a).find? (fun p => p.1 = name) = l.find? (fun p => p.1 = name)
  | [], n, a, hne => by
    simp only [setEntry, List.find?]
    rw [decide_eq_false hne]
  | (m, b) :: l, n, a, hne => by
    by_cases h : m = n
    · subst h
      simp only [setEntry, if_pos rfl, List.find?]
      rw [decide_eq_false hne]
    · simp only [setEntry, if_neg h, List.find?]
      by_cases hm : m = name
      · rw [decide_eq_true hm]
      · rw [decide_eq_false hm]
        exact getAddress_setEntry_ne name l n a hne

theorem getAddress_addSymbol_ne (t : SymbolTable) (n name : String)
    (hne : n ≠ name) : (t.addSymbol n).2.getAddress name = t.getAddress name := by
  simp only [SymbolTable.addSymbol, SymbolTable.getAddress]
  rw [getAddress_setEntry_ne name t.symbols n t.next_address hne]

theorem getAddress_applyAdds_not_mem : ∀ (more : List String) (t : SymbolTable)
    (name : String), name ∉ more →
    (applyAdds more t).getAddress name = t.getAddress name
  | [], t, name, _ => rfl
  | n :: more, t, name, hnm => by
    have h1 : name ∉ more := fun h => hnm (List.mem_cons_of_mem _ h)
    have h2 : n ≠ name := fun h => hnm (by simp [h])
    have : applyAdds (n :: more) t = applyAdds more (t.addSymbol n).2 := rfl
    rw [this, getAddress_applyAdds_not_mem more _ name h1,
      getAddress_addSymbol_ne t n name h2]

theorem getAddress_setEntry_self : ∀ (l : List (String × Nat)) (n : String) (a : Nat),
    (setEntry l n a).find? (fun p => p.1 = n) = some (n, a)
  | [], n, a => by
    simp [setEntry, List.find?]
  | (m, b) :: l, n, a => by
    by_cases h : m = n
    · simp [setEntry, if_pos h, List.find?]
    · simp only [setEntry, if_neg h, List.find?]
      rw [decide_eq_false h]
      exact getAddress_setEntry_self l n a

theorem getAddress_addSymbol_self (t : SymbolTable) (n : String) :
    (t.addSymbol n).2.getAddress n = some t.next_address := by
  simp only [SymbolTable.addSymbol, SymbolTable.getAddress]
  rw [getAddress_setEntry_self]
  rfl

theorem getAddress_lt_next (t : SymbolTable) (name : String) (a : Nat)
    (hinv : SymInv t) (h : t.getAddress name = some a) : a < t.next_address := by
  obtain ⟨hlt, _⟩ := hinv
  simp only [SymbolTable.getAddress, Option.map_eq_some'] at h
  obtain ⟨p, hp, rfl⟩ := h
  exact hlt p (List.mem_of_find?_eq_some hp)

/-- C8 counterexample: re-declaring `x` moves it to a fresh address, so
an assigned address is not stable across the compilation. -/
theorem C8_counterexample_redeclaration :
    (SymbolTable.empty.addSymbol "x").2.getAddress "x" = some 2 ∧
    ((SymbolTable.empty.addSymbol "x").2.addSymbol "x").2.getAddress "x" = some 3 ∧
    (2 : Nat) ≠ 3 := by
  refine ⟨rfl, rfl, by decide⟩

/-- C8 amended: after any sequence of `add_symbol` calls from a fresh
table, no two entries share an address and every stored address is below
`next_address`; an identifier's address is unchanged by later calls that
do not re-declare it; and a call for `name` — first declaration or
re-declaration — always assigns the fresh address `next_address`, which
strictly exceeds every address previously assigned (in particular the
identifier's own earlier address). -/
theorem C8_amended_symbol_table (names : List String) :
    ((applyAdds names SymbolTable.empty).symbols.map Prod.snd).Nodup ∧
    (∀ p ∈ (applyAdds names SymbolTable.empty).symbols,
      p.2 < (applyAdds names SymbolTable.empty).next_address) ∧
    (∀ (more : List String) (name : String), name ∉ more →
      (applyAdds more (applyAdds names SymbolTable.empty)).getAddress name =
        (applyAdds names SymbolTable.empty).getAddress name) ∧
    (∀ name : String,
      ((applyAdds names SymbolTable.empty).addSymbol name).2.getAddress name =
        some (applyAdds names SymbolTable.empty).next_address) ∧
    (∀ (name : String) (a : Nat),
      (applyAdds names SymbolTable.empty).getAddress name = some a →
        a < (applyAdds names SymbolTable.empty).next_address) := by
  have hinv := symInv_applyAdds names SymbolTable.empty symInv_empty
  refine ⟨hinv.2, hinv.1, ?_, ?_, ?_⟩
  · intro more name hnm
    exact getAddress_applyAdds_not_mem more _ name hnm
  · intro name
    exact getAddress_addSymbol_self _ name
  · intro name a h
    exact getAddress_lt_next _ name a hinv h

/-- Witness for the amended C8 theorem at concrete inputs. -/
theorem C8_amended_symbol_table_witness :
    ("x" ∉ (["y", "z"] : List String)) ∧
    (applyAdds ["y", "z"] (applyAdds ["x"] SymbolTable.empty)).getAddress "x" =
      (applyAdds ["x"] SymbolTable.empty).getAddress "x" := by
  refine ⟨by decide, ?_⟩
  exact (C8_amended_symbol_table ["x"]).2.2.1 ["y", "z"] "x" (by decide)

/-! ## Operand ranges in lowered IR (C7) -/

/-- Every immediate operand in the list is at most 255. -/
def immsOK (l : List Instr) : Prop :=
  ∀ i ∈ l, ∀ n, i.imm = some n → n ≤ 255

/-- Every memory-address operand in the list is below `bound`. -/
def addrsLT (l : List Instr) (bound : Nat) : Prop :=
  ∀ i ∈ l, ∀ a, i.addr = some a → a < bound

theorem immsOK_append {a b : List Instr} (ha : immsOK a) (hb : immsOK b) :
    immsOK (a ++ b) := by
  intro i hi
  rcases List.mem_append.mp hi with h | h
  · exact ha i h
  · exact hb i h

theorem addrsLT_append {a b : List Instr} {bound : Nat}
    (ha : addrsLT a bound) (hb : addrsLT b bound) : addrsLT (a ++ b) bound := by
  intro i hi
  rcases List.mem_append.mp hi with h | h
  · exact ha i h
  · exact hb i h

theorem addrsLT_mono {a : List Instr} {b b' : Nat} (h : b ≤ b')
    (ha : addrsLT a b) : addrsLT a b' := by
  intro i hi n hn
  have := ha i hi n hn
  omega

theorem immsOK_cons {i : Instr} {l : List Instr}
    (hi : ∀ n, i.imm = some n → n ≤ 255) (hl : immsOK l) : immsOK (i :: l) := by
  intro j hj
  rcases List.mem_cons.mp hj with rfl | h
  · exact hi
  · exact hl j h

theorem addrsLT_cons {i : Instr} {l : List Instr} {bound : Nat}
    (hi : ∀ a, i.addr = some a → a < bound) (hl : addrsLT l bound) :
    addrsLT (i :: l) bound := by
  intro j hj
  rcases List.mem_cons.mp hj with rfl | h
  · exact hi
  · exact hl j h

theorem immsOK_nil : immsOK [] := by intro i hi; simp at hi

theorem addrsLT_nil (bound : Nat) : addrsLT [] bound := by intro i hi; simp at hi

/-- The state invariant the lowerer maintains: the allocation counter has
moved past the two scratch addresses and dominates every stored
address. -/
def LowInv (st : Low) : Prop :=
  2 ≤ st.tab.next_address ∧ ∀ p ∈ st.tab.symbols, p.2 < st.tab.next_address

theorem lowInv_initLow : LowInv initLow := by
  constructor
  · simp [initLow, SymbolTable.empty]
  · intro p hp
    simp [initLow, SymbolTable.empty] at hp

theorem lowInv_addSymbol {st : Low} (name : String) (h : LowInv st) :
    LowInv { st with tab := (st.tab.addSymbol name).2 } := by
  obtain ⟨h2, hlt⟩ := h
  constructor
  · simp only [SymbolTable.addSymbol]
    omega
  · intro p hp
    simp only [SymbolTable.addSymbol] at hp ⊢
    rcases mem_setEntry st.tab.symbols name st.tab.next_address p hp with rfl | hp'
    · omega
    · have := hlt p hp'
      omega

theorem getAddress_lt_of_bound {t : SymbolTable} {name : String} {a : Nat}
    (hlt : ∀ p ∈ t.symbols, p.2 < t.next_address)
    (h : t.getAddress name = some a) : a < t.next_address := by
  simp only [SymbolTable.getAddress, Option.map_eq_some'] at h
  obtain ⟨p, hp, rfl⟩ := h
  exact hlt p (List.mem_of_find?_eq_some hp)

theorem ebind_ok {ε α β : Type} (a : α) (f : α → Except ε β) :
    (Except.ok a >>= f) = f a := rfl

theorem ebind_err {ε α β : Type} (e : ε) (f : α → Except ε β) :
    ((Except.error e : Except ε α) >>= f) = Except.error e := rfl

theorem load_immediate_ok {v : Nat} {i : Instr} (h : load_immediate v = .ok i) :
    i = .loadAImm v ∧ v ≤ 255 := by
  by_cases hv : v > 255
  · simp [load_immediate, hv] at h
  · simp only [load_immediate, if_neg hv, Except.ok.injEq] at h
    exact ⟨h.symm, by omega⟩

theorem noImm_ok {i : Instr} (h : i.imm = none) : ∀ n, i.imm = some n → n ≤ 255 := by
  intro n hn
  rw [h] at hn
  cases hn

theorem noAddr_ok {i : Instr} {bound : Nat} (h : i.addr = none) :
    ∀ a, i.addr = some a → a < bound := by
  intro a ha
  rw [h] at ha
  cases ha

theorem generalForm_bounds {left right : List Instr} {op : Instr}
    {c : String} {bound : Nat}
    (hImmL : immsOK left) (hImmR : immsOK right)
    (hAddrL : addrsLT left bound) (hAddrR : addrsLT right bound)
    (h2 : 2 ≤ bound) (hopImm : op.imm = none) (hopAddr : op.addr = none) :
    immsOK (.comment c ::
        (left ++ [.storeA 0] ++ right ++ [.storeA 1, .loadBMem 1, .loadAMem 0, op])) ∧
      addrsLT (.comment c ::
        (left ++ [.storeA 0] ++ right ++ [.storeA 1, .loadBMem 1, .loadAMem 0, op]))
        bound := by
  constructor
  · refine immsOK_cons (by simp [Instr.imm]) ?_
    refine immsOK_append (immsOK_append (immsOK_append hImmL ?_) hImmR) ?_
    · exact immsOK_cons (by simp [Instr.imm]) immsOK_nil
    · refine immsOK_cons (by simp [Instr.imm]) ?_
      refine immsOK_cons (by simp [Instr.imm]) ?_
      refine immsOK_cons (by simp [Instr.imm]) ?_
      exact immsOK_cons (noImm_ok hopImm) immsOK_nil
  · refine addrsLT_cons (by simp [Instr.addr]) ?_
    refine addrsLT_append (addrsLT_append (addrsLT_append hAddrL ?_) hAddrR) ?_
    · exact addrsLT_cons (by intro a ha; simp [Instr.addr] at ha; omega)
        (addrsLT_nil bound)
    · refine addrsLT_cons (by intro a ha; simp [Instr.addr] at ha; omega) ?_
      refine addrsLT_cons (by intro a ha; simp [Instr.addr] at ha; omega) ?_
      refine addrsLT_cons (by intro a ha; simp [Instr.addr] at ha; omega) ?_
      exact addrsLT_cons (noAddr_ok hopAddr) (addrsLT_nil bound)

theorem optimizeBinary_bounds {left right : List Instr} {op : Instr}
    {s : String} {bound : Nat}
    (hImmL : immsOK left) (hImmR : immsOK right)
    (hAddrL : addrsLT left bound) (hAddrR : addrsLT right bound)
    (h2 : 2 ≤ bound) (hopImm : op.imm = none) (hopAddr : op.addr = none) :
    immsOK (optimizeBinary left right op s) ∧
      addrsLT (optimizeBinary left right op s) bound := by
  have hspecImm : ∀ v : Nat, v ≤ 255 →
      immsOK (.comment ("# Optimized: " ++ s) :: (left ++ [.loadBImm v, op])) := by
    intro v hv
    refine immsOK_cons (by simp [Instr.imm]) ?_
    refine immsOK_append hImmL ?_
    refine immsOK_cons (by intro n hn; simp [Instr.imm] at hn; omega) ?_
    exact immsOK_cons (noImm_ok hopImm) immsOK_nil
  have hspecImmAddr : ∀ v : Nat,
      addrsLT (.comment ("# Optimized: " ++ s) :: (left ++ [.loadBImm v, op]))
        bound := by
    intro v
    refine addrsLT_cons (by simp [Instr.addr]) ?_
    refine addrsLT_append hAddrL ?_
    refine addrsLT_cons (by simp [Instr.addr]) ?_
    exact addrsLT_cons (noAddr_ok hopAddr) (addrsLT_nil bound)
  have hspecMemImm : ∀ a : Nat,
      immsOK (.comment ("# Optimized: " ++ s) :: (left ++ [.loadBMem a, op])) := by
    intro a
    refine immsOK_cons (by simp [Instr.imm]) ?_
    refine immsOK_append hImmL ?_
    refine immsOK_cons (by simp [Instr.imm]) ?_
    exact immsOK_cons (noImm_ok hopImm) immsOK_nil
  have hspecMemAddr : ∀ a : Nat, a < bound →
      addrsLT (.comment ("# Optimized: " ++ s) :: (left ++ [.loadBMem a, op]))
        bound := by
    intro a ha
    refine addrsLT_cons (by simp [Instr.addr]) ?_
    refine addrsLT_append hAddrL ?_
    refine addrsLT_cons (by intro b hb; simp [Instr.addr] at hb; omega) ?_
    exact addrsLT_cons (noAddr_ok hopAddr) (addrsLT_nil bound)
  rcases right with _ | ⟨i, tail⟩
  · exact generalForm_bounds hImmL hImmR hAddrL hAddrR h2 hopImm hopAddr
  · rcases tail with _ | ⟨j, rest⟩
    · cases i with
      | loadAImm v =>
        have hv : v ≤ 255 := hImmR (.loadAImm v) (by simp) v rfl
        exact ⟨hspecImm v hv, hspecImmAddr v⟩
      | loadAMem a =>
        have ha : a < bound := hAddrR (.loadAMem a) (by simp) a rfl
        exact ⟨hspecMemImm a, hspecMemAddr a ha⟩
      | loadBImm v =>
        exact generalForm_bounds hImmL hImmR hAddrL hAddrR h2 hopImm hopAddr
      | loadBMem a =>
        exact generalForm_bounds hImmL hImmR hAddrL hAddrR h2 hopImm hopAddr
      | storeA a =>
        exact generalForm_bounds hImmL hImmR hAddrL hAddrR h2 hopImm hopAddr
      | storeB a =>
        exact generalForm_bounds hImmL hImmR hAddrL hAddrR h2 hopImm hopAddr
      | add => exact generalForm_bounds hImmL hImmR hAddrL hAddrR h2 hopImm hopAddr
      | sub => exact generalForm_bounds hImmL hImmR hAddrL hAddrR h2 hopImm hopAddr
      | inA => exact generalForm_bounds hImmL hImmR hAddrL hAddrR h2 hopImm hopAddr
      | inB => exact generalForm_bounds hImmL hImmR hAddrL hAddrR h2 hopImm hopAddr
      | outA => exact generalForm_bounds hImmL hImmR hAddrL hAddrR h2 hopImm hopAddr
      | outB => exact generalForm_bounds hImmL hImmR hAddrL hAddrR h2 hopImm hopAddr
      | loopStart =>
        exact generalForm_bounds hImmL hImmR hAddrL hAddrR h2 hopImm hopAddr
      | loopEnd =>
        exact generalForm_bounds hImmL hImmR hAddrL hAddrR h2 hopImm hopAddr
      | comment c =>
        exact generalForm_bounds hImmL hImmR hAddrL hAddrR h2 hopImm hopAddr
    · cases i <;>
        exact generalForm_bounds hImmL hImmR hAddrL hAddrR h2 hopImm hopAddr

theorem cmpTail_imms_ok (x : Nat) (hx : x ≤ 255) :
    immsOK [Instr.loadBMem 1, Instr.sub, Instr.loopStart, Instr.loadAImm x,
      Instr.storeA 0, Instr.loadAImm 0, Instr.loopEnd, Instr.loadAMem 0] := by
  refine immsOK_cons (by simp [Instr.imm]) ?_
  refine immsOK_cons (by simp [Instr.imm]) ?_
  refine immsOK_cons (by simp [Instr.imm]) ?_
  refine immsOK_cons (by intro n hn; simp [Instr.imm] at hn; omega) ?_
  refine immsOK_cons (by simp [Instr.imm]) ?_
  refine immsOK_cons (by intro n hn; simp [Instr.imm] at hn; omega) ?_
  refine immsOK_cons (by simp [Instr.imm]) ?_
  exact immsOK_cons (by simp [Instr.imm]) immsOK_nil

theorem cmpTail_addrs_lt (x : Nat) {bound : Nat} (h2 : 2 ≤ bound) :
    addrsLT [Instr.loadBMem 1, Instr.sub, Instr.loopStart, Instr.loadAImm x,
      Instr.storeA 0, Instr.loadAImm 0, Instr.loopEnd, Instr.loadAMem 0] bound := by
  refine addrsLT_cons (by intro a ha; simp [Instr.addr] at ha; omega) ?_
  refine addrsLT_cons (by simp [Instr.addr]) ?_
  refine addrsLT_cons (by simp [Instr.addr]) ?_
  refine addrsLT_cons (by simp [Instr.addr]) ?_
  refine addrsLT_cons (by intro a ha; simp [Instr.addr] at ha; omega) ?_
  refine addrsLT_cons (by simp [Instr.addr]) ?_
  refine addrsLT_cons (by simp [Instr.addr]) ?_
  exact addrsLT_cons (by intro a ha; simp [Instr.addr] at ha; omega)
    (addrsLT_nil bound)

theorem equalLower_bounds {left right : List Instr} {bound : Nat}
    (hImmL : immsOK left) (hImmR : immsOK right)
    (hAddrL : addrsLT left bound) (hAddrR : addrsLT right bound)
    (h2 : 2 ≤ bound) :
    immsOK (equalLower left right) ∧ addrsLT (equalLower left right) bound := by
  constructor
  · refine immsOK_cons (by simp [Instr.imm]) ?_
    refine immsOK_append (immsOK_append (immsOK_append (immsOK_append ?_ hImmL)
      ?_) hImmR) (cmpTail_imms_ok 0 (by omega))
    · refine immsOK_cons (by intro n hn; simp [Instr.imm] at hn; omega) ?_
      exact immsOK_cons (by simp [Instr.imm]) immsOK_nil
    · exact immsOK_cons (by simp [Instr.imm]) immsOK_nil
  · refine addrsLT_cons (by simp [Instr.addr]) ?_
    refine addrsLT_append (addrsLT_append (addrsLT_append (addrsLT_append ?_
      hAddrL) ?_) hAddrR) (cmpTail_addrs_lt 0 h2)
    · refine addrsLT_cons (by simp [Instr.addr]) ?_
      exact addrsLT_cons (by intro a ha; simp [Instr.addr] at ha; omega)
        (addrsLT_nil bound)
    · exact addrsLT_cons (by intro a ha; simp [Instr.addr] at ha; omega)
        (addrsLT_nil bound)

theorem notEqualLower_bounds {left right : List Instr} {bound : Nat}
    (hImmL : immsOK left) (hImmR : immsOK right)
    (hAddrL : addrsLT left bound) (hAddrR : addrsLT right bound)
    (h2 : 2 ≤ bound) :
    immsOK (notEqualLower left right) ∧
      addrsLT (notEqualLower left right) bound := by
  constructor
  · refine immsOK_cons (by simp [Instr.imm]) ?_
    refine immsOK_append (immsOK_append (immsOK_append (immsOK_append ?_ hImmL)
      ?_) hImmR) (cmpTail_imms_ok 1 (by omega))
    · refine immsOK_cons (by simp [Instr.imm]) ?_
      exact immsOK_cons (by simp [Instr.imm]) immsOK_nil
    · exact immsOK_cons (by simp [Instr.imm]) immsOK_nil
  · refine addrsLT_cons (by simp [Instr.addr]) ?_
    refine addrsLT_append (addrsLT_append (addrsLT_append (addrsLT_append ?_
      hAddrL) ?_) hAddrR) (cmpTail_addrs_lt 1 h2)
    · refine addrsLT_cons (by simp [Instr.addr]) ?_
      exact addrsLT_cons (by intro a ha; simp [Instr.addr] at ha; omega)
        (addrsLT_nil bound)
    · exact addrsLT_cons (by intro a ha; simp [Instr.addr] at ha; omega)
        (addrsLT_nil bound)

theorem lowerExpr_bounds : ∀ (e : Expr) (st : Low) (code : List Instr),
    LowInv st → lowerExpr st e = .ok code →
    immsOK code ∧ addrsLT code st.tab.next_address
  | .num n, st, code => by
    intro hInv h
    simp only [lowerExpr] at h
    cases hli : load_immediate n with
    | error e => rw [hli, ebind_err] at h; simp at h
    | ok i =>
      rw [hli, ebind_ok] at h
      obtain ⟨rfl, hn⟩ := load_immediate_ok hli
      simp only [Except.ok.injEq] at h
      subst h
      refine ⟨immsOK_cons (by intro m hm; simp [Instr.imm] at hm; omega) immsOK_nil,
        addrsLT_cons (by simp [Instr.addr]) (addrsLT_nil _)⟩
  | .chr c, st, code => by
    intro hInv h
    simp only [lowerExpr] at h
    by_cases hc : c > 255
    · rw [if_pos hc] at h; simp at h
    · rw [if_neg hc] at h
      cases hli : load_immediate c with
      | error e => rw [hli, ebind_err] at h; simp at h
      | ok i =>
        rw [hli, ebind_ok] at h
        obtain ⟨rfl, hn⟩ := load_immediate_ok hli
        simp only [Except.ok.injEq] at h
        subst h
        refine ⟨immsOK_cons (by intro m hm; simp [Instr.imm] at hm; omega) immsOK_nil,
          addrsLT_cons (by simp [Instr.addr]) (addrsLT_nil _)⟩
  | .var name, st, code => by
    intro hInv h
    simp only [lowerExpr] at h
    cases hlc : lookupConst st.defines name with
    | some v =>
      rw [hlc] at h
      cases v with
      | int n =>
        dsimp only at h
        cases hli : load_immediate n with
        | error e => rw [hli, ebind_err] at h; simp at h
        | ok i =>
          rw [hli, ebind_ok] at h
          obtain ⟨rfl, hn⟩ := load_immediate_ok hli
          simp only [Except.ok.injEq] at h
          subst h
          refine ⟨immsOK_cons (by intro m hm; simp [Instr.imm] at hm; omega)
            immsOK_nil, addrsLT_cons (by simp [Instr.addr]) (addrsLT_nil _)⟩
      | str s => simp at h
    | none =>
      rw [hlc] at h
      dsimp only at h
      cases hga : st.tab.getAddress name with
      | some a =>
        rw [hga] at h
        simp only [Except.ok.injEq] at h
        subst h
        refine ⟨?_, ?_⟩
        · refine immsOK_cons (by simp [Instr.imm]) ?_
          exact immsOK_cons (by simp [Instr.imm]) immsOK_nil
        · refine addrsLT_cons (by simp [Instr.addr]) ?_
          refine addrsLT_cons ?_ (addrsLT_nil _)
          intro b hb
          simp only [Instr.addr, Option.some.injEq] at hb
          subst hb
          exact getAddress_lt_of_bound hInv.2 hga
      | none => rw [hga] at h; simp at h
  | .addE l r, st, code => by
    intro hInv h
    simp only [lowerExpr] at h
    cases hl : lowerExpr st l with
    | error e => rw [hl, ebind_err] at h; simp at h
    | ok lc =>
      rw [hl, ebind_ok] at h
      cases hr : lowerExpr st r with
      | error e => rw [hr, ebind_err] at h; simp at h
      | ok rc =>
        rw [hr, ebind_ok] at h
        simp only [Except.ok.injEq] at h
        subst h
        obtain ⟨hImmL, hAddrL⟩ := lowerExpr_bounds l st lc hInv hl
        obtain ⟨hImmR, hAddrR⟩ := lowerExpr_bounds r st rc hInv hr
        exact optimizeBinary_bounds hImmL hImmR hAddrL hAddrR hInv.1 rfl rfl
  | .subE l r, st, code => by
    intro hInv h
    simp only [lowerExpr] at h
    cases hl : lowerExpr st l with
    | error e => rw [hl, ebind_err] at h; simp at h
    | ok lc =>
      rw [hl, ebind_ok] at h
      cases hr : lowerExpr st r with
      | error e => rw [hr, ebind_err] at h; simp at h
      | ok rc =>
        rw [hr, ebind_ok] at h
        simp only [Except.ok.injEq] at h
        subst h
        obtain ⟨hImmL, hAddrL⟩ := lowerExpr_bounds l st lc hInv hl
        obtain ⟨hImmR, hAddrR⟩ := lowerExpr_bounds r st rc hInv hr
        exact optimizeBinary_bounds hImmL hImmR hAddrL hAddrR hInv.1 rfl rfl
  | .eqE l r, st, code => by
    intro hInv h
    simp only [lowerExpr] at h
    cases hl : lowerExpr st l with
    | error e => rw [hl, ebind_err] at h; simp at h
    | ok lc =>
      rw [hl, ebind_ok] at h
      cases hr : lowerExpr st r with
      | error e => rw [hr, ebind_err] at h; simp at h
      | ok rc =>
        rw [hr, ebind_ok] at h
        simp only [Except.ok.injEq] at h
        subst h
        obtain ⟨hImmL, hAddrL⟩ := lowerExpr_bounds l st lc hInv hl
        obtain ⟨hImmR, hAddrR⟩ := lowerExpr_bounds r st rc hInv hr
        exact equalLower_bounds hImmL hImmR hAddrL hAddrR hInv.1
  | .neE l r, st, code => by
    intro hInv h
    simp only [lowerExpr] at h
    cases hl : lowerExpr st l with
    | error e => rw [hl, ebind_err] at h; simp at h
    | ok lc =>
      rw [hl, ebind_ok] at h
      cases hr : lowerExpr st r with
      | error e => rw [hr, ebind_err] at h; simp at h
      | ok rc =>
        rw [hr, ebind_ok] at h
        simp only [Except.ok.injEq] at h
        subst h
        obtain ⟨hImmL, hAddrL⟩ := lowerExpr_bounds l st lc hInv hl
        obtain ⟨hImmR, hAddrR⟩ := lowerExpr_bounds r st rc hInv hr
        exact notEqualLower_bounds hImmL hImmR hAddrL hAddrR hInv.1
  | .paren e, st, code => by
    intro hInv h
    simp only [lowerExpr] at h
    exact lowerExpr_bounds e st code hInv h

theorem immsOK_flatten {codes : List (List Instr)}
    (h : ∀ c ∈ codes, immsOK c) : immsOK codes.flatten := by
  intro i hi
  rcases List.mem_flatten.mp hi with ⟨c, hc, hic⟩
  exact h c hc i hic

theorem addrsLT_flatten {codes : List (List Instr)} {bound : Nat}
    (h : ∀ c ∈ codes, addrsLT c bound) : addrsLT codes.flatten bound := by
  intro i hi
  rcases List.mem_flatten.mp hi with ⟨c, hc, hic⟩
  exact h c hc i hic

theorem mem_of_dropLast {α : Type} : ∀ {l : List α} {a : α},
    a ∈ l.dropLast → a ∈ l := by
  intro l a h
  exact List.dropLast_subset l h

theorem mem_of_getLast? {α : Type} : ∀ {l : List α} {a : α},
    l.getLast? = some a → a ∈ l
  | [], a => by simp
  | [x], a => by
    intro h
    simp only [List.getLast?_singleton, Option.some.injEq] at h
    simp [h]
  | x :: y :: l, a => by
    intro h
    rw [List.getLast?_cons_cons] at h
    exact List.mem_cons_of_mem x (mem_of_getLast? h)

theorem allocGoElse_fst (t : SymbolTable) : (allocGoElse t).1 = t.next_address := rfl

theorem allocGoElse_next (t : SymbolTable) :
    (allocGoElse t).2.next_address = t.next_address + 1 := rfl

theorem buildIf_bounds {cc : List Instr} {bodyCodes : List (List Instr)}
    {elsCode : Option (List Instr)} {st2 : Low}
    (hInv : LowInv st2)
    (hccI : immsOK cc) (hccA : addrsLT cc st2.tab.next_address)
    (hbody : ∀ c ∈ bodyCodes, immsOK c ∧ addrsLT c st2.tab.next_address)
    (hels : ∀ c, elsCode = some c → immsOK c ∧ addrsLT c st2.tab.next_address) :
    LowInv (buildIf cc bodyCodes elsCode st2).2 ∧
      st2.tab.next_address ≤ (buildIf cc bodyCodes elsCode st2).2.tab.next_address ∧
      immsOK (buildIf cc bodyCodes elsCode st2).1 ∧
      addrsLT (buildIf cc bodyCodes elsCode st2).1
        (buildIf cc bodyCodes elsCode st2).2.tab.next_address := by
  set items := bodyCodes ++ elsItems elsCode with hitems_def
  have hitems : ∀ c ∈ items, immsOK c ∧ addrsLT c st2.tab.next_address := by
    intro c hc
    rw [hitems_def] at hc
    rcases List.mem_append.mp hc with h | h
    · exact hbody c h
    · cases helc : elsCode with
      | none => rw [helc] at h; simp [elsItems] at h
      | some e =>
        rw [helc] at h
        simp only [elsItems, List.mem_singleton] at h
        subst h
        exact hels c helc
  by_cases hlen : items.length + 1 > 2
  · cases hlast : items.getLast? with
    | none =>
      rw [List.getLast?_eq_none_iff.mp hlast] at hlen
      simp at hlen
    | some elseCode =>
      have helseI : immsOK elseCode ∧ addrsLT elseCode st2.tab.next_address :=
        hitems elseCode (mem_of_getLast? hlast)
      have hbodyI : ∀ c ∈ items.dropLast,
          immsOK c ∧ addrsLT c st2.tab.next_address :=
        fun c hc => hitems c (mem_of_dropLast hc)
      have hred : buildIf cc bodyCodes elsCode st2 =
          (.comment "# If statement" ::
            ([.loadAImm 1, .storeA st2.tab.next_address] ++ cc ++ [.loopStart] ++
              (items.dropLast).flatten ++
              [.loadAImm 0, .storeA st2.tab.next_address, .loopEnd,
                .loadAMem st2.tab.next_address, .loopStart] ++
              elseCode ++
              [.loadAImm 0, .storeA st2.tab.next_address, .loopEnd]),
            { st2 with tab := (allocGoElse st2.tab).2 }) := by
        simp only [buildIf, ← hitems_def, if_pos hlen, hlast, allocGoElse_fst]
      rw [hred]
      have hnext : (allocGoElse st2.tab).2.next_address =
          st2.tab.next_address + 1 := allocGoElse_next st2.tab
      refine ⟨lowInv_addSymbol _ hInv, by simp only [hnext]; omega, ?_, ?_⟩
      · refine immsOK_cons (by simp [Instr.imm]) ?_
        refine immsOK_append (immsOK_append (immsOK_append (immsOK_append
          (immsOK_append (immsOK_append ?_ hccI) ?_)
          (immsOK_flatten (fun c hc => (hbodyI c hc).1))) ?_) helseI.1) ?_
        · refine immsOK_cons (by intro n hn; simp [Instr.imm] at hn; omega) ?_
          exact immsOK_cons (by simp [Instr.imm]) immsOK_nil
        · exact immsOK_cons (by simp [Instr.imm]) immsOK_nil
        · refine immsOK_cons (by intro n hn; simp [Instr.imm] at hn; omega) ?_
          refine immsOK_cons (by simp [Instr.imm]) ?_
          refine immsOK_cons (by simp [Instr.imm]) ?_
          refine immsOK_cons (by simp [Instr.imm]) ?_
          exact immsOK_cons (by simp [Instr.imm]) immsOK_nil
        · refine immsOK_cons (by intro n hn; simp [Instr.imm] at hn; omega) ?_
          refine immsOK_cons (by simp [Instr.imm]) ?_
          exact immsOK_cons (by simp [Instr.imm]) immsOK_nil
      · simp only [hnext]
        have hmono : st2.tab.next_address ≤ st2.tab.next_address + 1 := by omega
        refine addrsLT_cons (by simp [Instr.addr]) ?_
        refine addrsLT_append (addrsLT_append (addrsLT_append (addrsLT_append
          (addrsLT_append (addrsLT_append ?_ (addrsLT_mono hmono hccA)) ?_)
          (addrsLT_flatten (fun c hc => addrsLT_mono hmono (hbodyI c hc).2))) ?_)
          (addrsLT_mono hmono helseI.2)) ?_
        · refine addrsLT_cons (by simp [Instr.addr]) ?_
          exact addrsLT_cons (by intro a ha; simp [Instr.addr] at ha; omega)
            (addrsLT_nil _)
        · exact addrsLT_cons (by simp [Instr.addr]) (addrsLT_nil _)
        · refine addrsLT_cons (by simp [Instr.addr]) ?_
          refine addrsLT_cons (by intro a ha; simp [Instr.addr] at ha; omega) ?_
          refine addrsLT_cons (by simp [Instr.addr]) ?_
          refine addrsLT_cons (by intro a ha; simp [Instr.addr] at ha; omega) ?_
          exact addrsLT_cons (by simp [Instr.addr]) (addrsLT_nil _)
        · refine addrsLT_cons (by simp [Instr.addr]) ?_
          refine addrsLT_cons (by intro a ha; simp [Instr.addr] at ha; omega) ?_
          exact addrsLT_cons (by simp [Instr.addr]) (addrsLT_nil _)
  · have hred : buildIf cc bodyCodes elsCode st2 =
        (.comment "# If statement" ::
          (cc ++ [.loopStart] ++ items.flatten ++ [.loopEnd]), st2) := by
      simp only [buildIf, ← hitems_def, if_neg hlen]
    rw [hred]
    refine ⟨hInv, le_refl _, ?_, ?_⟩
    · refine immsOK_cons (by simp [Instr.imm]) ?_
      refine immsOK_append (immsOK_append (immsOK_append hccI ?_)
        (immsOK_flatten (fun c hc => (hitems c hc).1))) ?_
      · exact immsOK_cons (by simp [Instr.imm]) immsOK_nil
      · exact immsOK_cons (by simp [Instr.imm]) immsOK_nil
    · refine addrsLT_cons (by simp [Instr.addr]) ?_
      refine addrsLT_append (addrsLT_append (addrsLT_append hccA ?_)
        (addrsLT_flatten (fun c hc => (hitems c hc).2))) ?_
      · exact addrsLT_cons (by simp [Instr.addr]) (addrsLT_nil _)
      · exact addrsLT_cons (by simp [Instr.addr]) (addrsLT_nil _)

theorem epure_bind {ε α β : Type} (a : α) (f : α → Except ε β) :
    (pure a >>= f) = f a := rfl

mutual

theorem lowerStmt_bounds : ∀ (s : Stmt) (st : Low) (code : List Instr) (st' : Low),
    LowInv st → lowerStmt s st = .ok (code, st') →
    LowInv st' ∧ st.tab.next_address ≤ st'.tab.next_address ∧
      immsOK code ∧ addrsLT code st'.tab.next_address
  | .varDecl name e, st, code, st' => by
    intro hInv h
    rw [lowerStmt.eq_1] at h
    cases hle : lowerExpr st e with
    | error err => rw [hle, ebind_err] at h; simp at h
    | ok code0 =>
      rw [hle, ebind_ok] at h
      simp only [SymbolTable.addSymbol] at h
      simp only [Except.ok.injEq, Prod.mk.injEq] at h
      obtain ⟨hcode, hst⟩ := h
      subst hcode
      subst hst
      obtain ⟨hI, hA⟩ := lowerExpr_bounds e st code0 hInv hle
      have hInv' : LowInv { st with
          tab := ⟨setEntry st.tab.symbols name st.tab.next_address,
            st.tab.next_address + 1⟩ } := lowInv_addSymbol name hInv
      refine ⟨hInv', by simp, ?_, ?_⟩
      · refine immsOK_cons (by simp [Instr.imm]) ?_
        refine immsOK_append hI ?_
        exact immsOK_cons (by simp [Instr.imm]) immsOK_nil
      · refine addrsLT_cons (by simp [Instr.addr]) ?_
        refine addrsLT_append (addrsLT_mono (by simp) hA) ?_
        refine addrsLT_cons ?_ (addrsLT_nil _)
        intro a ha
        simp only [Instr.addr, Option.some.injEq] at ha
        subst ha
        simp
  | .assign name e, st, code, st' => by
    intro hInv h
    rw [lowerStmt.eq_2] at h
    cases hle : lowerExpr st e with
    | error err => rw [hle, ebind_err] at h; simp at h
    | ok code0 =>
      rw [hle, ebind_ok] at h
      cases hga : st.tab.getAddress name with
      | none => rw [hga] at h; simp at h
      | some addr =>
        rw [hga] at h
        simp only [Except.ok.injEq, Prod.mk.injEq] at h
        obtain ⟨hcode, hst⟩ := h
        subst hcode
        subst hst
        obtain ⟨hI, hA⟩ := lowerExpr_bounds e st code0 hInv hle
        refine ⟨hInv, le_refl _, ?_, ?_⟩
        · refine immsOK_cons (by simp [Instr.imm]) ?_
          refine immsOK_append hI ?_
          exact immsOK_cons (by simp [Instr.imm]) immsOK_nil
        · refine addrsLT_cons (by simp [Instr.addr]) ?_
          refine addrsLT_append hA ?_
          refine addrsLT_cons ?_ (addrsLT_nil _)
          intro a ha
          simp only [Instr.addr, Option.some.injEq] at ha
          subst ha
          exact getAddress_lt_of_bound hInv.2 hga
  | .inputS name, st, code, st' => by
    intro hInv h
    rw [lowerStmt.eq_3] at h
    cases hga : st.tab.getAddress name with
    | none => rw [hga] at h; simp at h
    | some addr =>
      rw [hga] at h
      simp only [Except.ok.injEq, Prod.mk.injEq] at h
      obtain ⟨hcode, hst⟩ := h
      subst hcode
      subst hst
      refine ⟨hInv, le_refl _, ?_, ?_⟩
      · refine immsOK_cons (by simp [Instr.imm]) ?_
        refine immsOK_cons (by simp [Instr.imm]) ?_
        exact immsOK_cons (by simp [Instr.imm]) immsOK_nil
      · refine addrsLT_cons (by simp [Instr.addr]) ?_
        refine addrsLT_cons (by simp [Instr.addr]) ?_
        refine addrsLT_cons ?_ (addrsLT_nil _)
        intro a ha
        simp only [Instr.addr, Option.some.injEq] at ha
        subst ha
        exact getAddress_lt_of_bound hInv.2 hga
  | .outputS e, st, code, st' => by
    intro hInv h
    rw [lowerStmt.eq_4] at h
    cases hle : lowerExpr st e with
    | error err => rw [hle, ebind_err] at h; simp at h
    | ok code0 =>
      rw [hle, ebind_ok] at h
      simp only [Except.ok.injEq, Prod.mk.injEq] at h
      obtain ⟨hcode, hst⟩ := h
      subst hcode
      subst hst
      obtain ⟨hI, hA⟩ := lowerExpr_bounds e st code0 hInv hle
      refine ⟨hInv, le_refl _, ?_, ?_⟩
      · refine immsOK_cons (by simp [Instr.imm]) ?_
        refine immsOK_append hI ?_
        exact immsOK_cons (by simp [Instr.imm]) immsOK_nil
      · refine addrsLT_cons (by simp [Instr.addr]) ?_
        refine addrsLT_append hA ?_
        exact addrsLT_cons (by simp [Instr.addr]) (addrsLT_nil _)
  | .whileS cond body, st, code, st' => by
    intro hInv h
    rw [lowerStmt.eq_5] at h
    cases hle : lowerExpr st cond with
    | error err => rw [hle, ebind_err] at h; simp at h
    | ok cc =>
      rw [hle, ebind_ok] at h
      cases hls : lowerStmts body st with
      | error err => rw [hls, ebind_err] at h; simp at h
      | ok p =>
        obtain ⟨bc, st1⟩ := p
        rw [hls, ebind_ok] at h
        dsimp only at h
        simp only [Except.ok.injEq, Prod.mk.injEq] at h
        obtain ⟨hcode, hst⟩ := h
        subst hcode
        subst hst
        obtain ⟨hInv1, hmono, hIb, hAb⟩ := lowerStmts_bounds body st bc st1 hInv hls
        obtain ⟨hIc, hAc⟩ := lowerExpr_bounds cond st cc hInv hle
        refine ⟨hInv1, hmono, ?_, ?_⟩
        · refine immsOK_cons (by simp [Instr.imm]) ?_
          refine immsOK_append (immsOK_append (immsOK_append (immsOK_append hIc
            ?_) hIb) hIc) ?_
          · exact immsOK_cons (by simp [Instr.imm]) immsOK_nil
          · exact immsOK_cons (by simp [Instr.imm]) immsOK_nil
        · refine addrsLT_cons (by simp [Instr.addr]) ?_
          refine addrsLT_append (addrsLT_append (addrsLT_append (addrsLT_append
            (addrsLT_mono hmono hAc) ?_) hAb) (addrsLT_mono hmono hAc)) ?_
          · exact addrsLT_cons (by simp [Instr.addr]) (addrsLT_nil _)
          · exact addrsLT_cons (by simp [Instr.addr]) (addrsLT_nil _)
  | .ifS cond body els, st, code, st' => by
    intro hInv h
    rw [lowerStmt.eq_6] at h
    cases hle : lowerExpr st cond with
    | error err => rw [hle, ebind_err] at h; simp at h
    | ok cc =>
      rw [hle, ebind_ok] at h
      cases hbe : lowerStmtsEach body st with
      | error err => rw [hbe, ebind_err] at h; simp at h
      | ok p =>
        obtain ⟨bodyCodes, st1⟩ := p
        rw [hbe, ebind_ok] at h
        dsimp only at h
        obtain ⟨hInv1, hmono1, hEach⟩ :=
          lowerStmtsEach_bounds body st bodyCodes st1 hInv hbe
        obtain ⟨hIc, hAc⟩ := lowerExpr_bounds cond st cc hInv hle
        cases els with
        | none =>
          dsimp only at h
          rw [epure_bind] at h
          dsimp only at h
          simp only [Except.ok.injEq] at h
          have hbuild := @buildIf_bounds cc bodyCodes none st1
            hInv1 hIc (addrsLT_mono hmono1 hAc)
            hEach (by intro c hc; cases hc)
          rw [h] at hbuild
          refine ⟨hbuild.1, le_trans hmono1 hbuild.2.1, hbuild.2.2.1, hbuild.2.2.2⟩
        | some es =>
          dsimp only at h
          cases hes : lowerStmts es st1 with
          | error err => rw [hes, ebind_err] at h; simp at h
          | ok q =>
            obtain ⟨ec, st2⟩ := q
            rw [hes, ebind_ok] at h
            dsimp only at h
            rw [epure_bind] at h
            dsimp only at h
            simp only [Except.ok.injEq] at h
            obtain ⟨hInv2, hmono2, hIe, hAe⟩ :=
              lowerStmts_bounds es st1 ec st2 hInv1 hes
            have hbuild := @buildIf_bounds cc bodyCodes
              (some (Instr.comment "# Else clause" :: ec)) st2 hInv2 hIc
              (addrsLT_mono (le_trans hmono1 hmono2) hAc)
              (fun c hc => ⟨(hEach c hc).1,
                addrsLT_mono hmono2 (hEach c hc).2⟩)
              (by
                intro c hc
                simp only [Option.some.injEq] at hc
                subst hc
                exact ⟨immsOK_cons (by simp [Instr.imm]) hIe,
                  addrsLT_cons (by simp [Instr.addr]) hAe⟩)
            rw [h] at hbuild
            refine ⟨hbuild.1, le_trans hmono1 (le_trans hmono2 hbuild.2.1),
              hbuild.2.2.1, hbuild.2.2.2⟩
  | .exprS e, st, code, st' => by
    intro hInv h
    rw [lowerStmt.eq_7] at h
    cases hle : lowerExpr st e with
    | error err => rw [hle, ebind_err] at h; simp at h
    | ok code0 =>
      rw [hle, ebind_ok] at h
      simp only [Except.ok.injEq, Prod.mk.injEq] at h
      obtain ⟨hcode, hst⟩ := h
      subst hcode
      subst hst
      obtain ⟨hI, hA⟩ := lowerExpr_bounds e st code0 hInv hle
      exact ⟨hInv, le_refl _, hI, hA⟩
termination_by s => sizeOf s

theorem lowerStmts_bounds : ∀ (ss : List Stmt) (st : Low) (code : List Instr)
    (st' : Low), LowInv st → lowerStmts ss st = .ok (code, st') →
    LowInv st' ∧ st.tab.next_address ≤ st'.tab.next_address ∧
      immsOK code ∧ addrsLT code st'.tab.next_address
  | [], st, code, st' => by
    intro hInv h
    rw [lowerStmts.eq_1] at h
    simp only [Except.ok.injEq, Prod.mk.injEq] at h
    obtain ⟨hcode, hst⟩ := h
    subst hcode
    subst hst
    exact ⟨hInv, le_refl _, immsOK_nil, addrsLT_nil _⟩
  | s :: rest, st, code, st' => by
    intro hInv h
    rw [lowerStmts.eq_2] at h
    cases hs : lowerStmt s st with
    | error err => rw [hs, ebind_err] at h; simp at h
    | ok p =>
      obtain ⟨c, st1⟩ := p
      rw [hs, ebind_ok] at h
      dsimp only at h
      cases hr : lowerStmts rest st1 with
      | error err => rw [hr, ebind_err] at h; simp at h
      | ok q =>
        obtain ⟨cs, st2⟩ := q
        rw [hr, ebind_ok] at h
        dsimp only at h
        simp only [Except.ok.injEq, Prod.mk.injEq] at h
        obtain ⟨hcode, hst⟩ := h
        subst hcode
        subst hst
        obtain ⟨hInv1, hm1, hI1, hA1⟩ := lowerStmt_bounds s st c st1 hInv hs
        obtain ⟨hInv2, hm2, hI2, hA2⟩ := lowerStmts_bounds rest st1 cs st2 hInv1 hr
        exact ⟨hInv2, le_trans hm1 hm2, immsOK_append hI1 hI2,
          addrsLT_append (addrsLT_mono hm2 hA1) hA2⟩
termination_by ss => sizeOf ss

theorem lowerStmtsEach_bounds : ∀ (ss : List Stmt) (st : Low)
    (codes : List (List Instr)) (st' : Low),
    LowInv st → lowerStmtsEach ss st = .ok (codes, st') →
    LowInv st' ∧ st.tab.next_address ≤ st'.tab.next_address ∧
      ∀ c ∈ codes, immsOK c ∧ addrsLT c st'.tab.next_address
  | [], st, codes, st' => by
    intro hInv h
    rw [lowerStmtsEach.eq_1] at h
    simp only [Except.ok.injEq, Prod.mk.injEq] at h
    obtain ⟨hcode, hst⟩ := h
    subst hcode
    subst hst
    exact ⟨hInv, le_refl _, by intro c hc; cases hc⟩
  | s :: rest, st, codes, st' => by
    intro hInv h
    rw [lowerStmtsEach.eq_2] at h
    cases hs : lowerStmt s st with
    | error err => rw [hs, ebind_err] at h; simp at h
    | ok p =>
      obtain ⟨c, st1⟩ := p
      rw [hs, ebind_ok] at h
      dsimp only at h
      cases hr : lowerStmtsEach rest st1 with
      | error err => rw [hr, ebind_err] at h; simp at h
      | ok q =>
        obtain ⟨cs, st2⟩ := q
        rw [hr, ebind_ok] at h
        dsimp only at h
        simp only [Except.ok.injEq, Prod.mk.injEq] at h
        obtain ⟨hcode, hst⟩ := h
        subst hcode
        subst hst
        obtain ⟨hInv1, hm1, hI1, hA1⟩ := lowerStmt_bounds s st c st1 hInv hs
        obtain ⟨hInv2, hm2, hEach⟩ := lowerStmtsEach_bounds rest st1 cs st2 hInv1 hr
        refine ⟨hInv2, le_trans hm1 hm2, ?_⟩
        intro d hd
        rcases List.mem_cons.mp hd with rfl | hd'
        · exact ⟨hI1, addrsLT_mono hm2 hA1⟩
        · exact hEach d hd'
termination_by ss => sizeOf ss

end

theorem lowerItems_bounds : ∀ (items : List Item) (st : Low) (code : List Instr)
    (st' : Low), LowInv st → lowerItems items st = .ok (code, st') →
    LowInv st' ∧ st.tab.next_address ≤ st'.tab.next_address ∧
      immsOK code ∧ addrsLT code st'.tab.next_address
  | [], st, code, st' => by
    intro hInv h
    simp only [lowerItems, Except.ok.injEq, Prod.mk.injEq] at h
    obtain ⟨hcode, hst⟩ := h
    subst hcode
    subst hst
    exact ⟨hInv, le_refl _, immsOK_nil, addrsLT_nil _⟩
  | it :: rest, st, code, st' => by
    intro hInv h
    simp only [lowerItems] at h
    cases it with
    | defineD name v =>
      simp only [lowerItem, ebind_ok] at h
      cases hr : lowerItems rest { st with defines := setConst st.defines name v } with
      | error err => rw [hr, ebind_err] at h; simp at h
      | ok q =>
        obtain ⟨cs, st2⟩ := q
        rw [hr, ebind_ok] at h
        dsimp only at h
        simp only [Except.ok.injEq, Prod.mk.injEq] at h
        obtain ⟨hcode, hst⟩ := h
        subst hcode
        subst hst
        have hInvD : LowInv { st with defines := setConst st.defines name v } := hInv
        obtain ⟨hInv2, hm2, hI2, hA2⟩ := lowerItems_bounds rest _ cs st2 hInvD hr
        exact ⟨hInv2, hm2, by simpa using hI2, by simpa using hA2⟩
    | stmtI s =>
      simp only [lowerItem] at h
      cases hs : lowerStmt s st with
      | error err => rw [hs, ebind_err] at h; simp at h
      | ok p =>
        obtain ⟨c, st1⟩ := p
        rw [hs, ebind_ok] at h
        dsimp only at h
        cases hr : lowerItems rest st1 with
        | error err => rw [hr, ebind_err] at h; simp at h
        | ok q =>
          obtain ⟨cs, st2⟩ := q
          rw [hr, ebind_ok] at h
          dsimp only at h
          simp only [Except.ok.injEq, Prod.mk.injEq] at h
          obtain ⟨hcode, hst⟩ := h
          subst hcode
          subst hst
          obtain ⟨hInv1, hm1, hI1, hA1⟩ := lowerStmt_bounds s st c st1 hInv hs
          obtain ⟨hInv2, hm2, hI2, hA2⟩ := lowerItems_bounds rest st1 cs st2 hInv1 hr
          exact ⟨hInv2, le_trans hm1 hm2, immsOK_append hI1 hI2,
            addrsLT_append (addrsLT_mono hm2 hA1) hA2⟩

/-- C7 amended: in every IR program the lowerer emits, all immediates are
in 0..255 (`load_immediate` checks the range and `LOAD_B_IMM` copies an
already-checked immediate), and every memory-address operand — scratch
slots 0/1 and allocated addresses alike — is below the final
`next_address` of the symbol table.  Since allocation starts at 2 and
each declaration or `go_else` slot advances it by one, the addresses stay
within 0..255 only while at most 254 symbols are allocated; they are not
bounded by 255 for programs with arbitrarily many declarations. -/
theorem C7_amended_operand_ranges (p : List Item) (ir : List Instr) (st' : Low)
    (h : lowerProgram p = .ok (ir, st')) :
    (∀ i ∈ ir, ∀ n, Instr.imm i = some n → n ≤ 255) ∧
    (∀ i ∈ ir, ∀ a, Instr.addr i = some a → a < st'.tab.next_address) := by
  obtain ⟨_, _, hI, hA⟩ := lowerItems_bounds p initLow ir st' lowInv_initLow h
  exact ⟨hI, hA⟩

/-- Witness for the amended C7 theorem on `var x = 7;`. -/
theorem C7_amended_operand_ranges_witness :
    (∀ i ∈ [Instr.comment "# Variable declaration: x", Instr.loadAImm 7,
        Instr.storeA 2], ∀ n, Instr.imm i = some n → n ≤ 255) ∧
    (∀ i ∈ [Instr.comment "# Variable declaration: x", Instr.loadAImm 7,
        Instr.storeA 2], ∀ a, Instr.addr i = some a → a < 3) :=
  C7_amended_operand_ranges [Item.stmtI (Stmt.varDecl "x" (Expr.num 7))]
    [Instr.comment "# Variable declaration: x", Instr.loadAImm 7, Instr.storeA 2]
    { tab := ⟨[("x", 2)], 3⟩,
      defines := [("true", ConstVal.int 1), ("false", ConstVal.int 0)] } rfl

theorem lowerStmt_declX (st : Low) :
    lowerStmt (Stmt.varDecl "x" (Expr.num 0)) st =
      .ok ([Instr.comment "# Variable declaration: x", Instr.loadAImm 0,
          Instr.storeA st.tab.next_address],
        { st with tab := ⟨setEntry st.tab.symbols "x" st.tab.next_address,
            st.tab.next_address + 1⟩ }) := by
  rw [lowerStmt.eq_1]
  rfl

theorem lowerItems_replicate_declX (n : Nat) : ∀ st : Low,
    ∃ ir st', lowerItems
        (List.replicate n (Item.stmtI (Stmt.varDecl "x" (Expr.num 0)))) st =
        .ok (ir, st') ∧
      st'.tab.next_address = st.tab.next_address + n ∧
      ∀ k < n, Instr.storeA (st.tab.next_address + k) ∈ ir := by
  induction n with
  | zero =>
    intro st
    exact ⟨[], st, rfl, by omega, by intro k hk; omega⟩
  | succ n ih =>
    intro st
    obtain ⟨ir, st', hrun, hnext, hmem⟩ :=
      ih { st with tab := ⟨setEntry st.tab.symbols "x" st.tab.next_address,
        st.tab.next_address + 1⟩ }
    refine ⟨[Instr.comment "# Variable declaration: x", Instr.loadAImm 0,
      Instr.storeA st.tab.next_address] ++ ir, st', ?_, ?_, ?_⟩
    · rw [List.replicate_succ]
      simp only [lowerItems, lowerItem, lowerStmt_declX, ebind_ok]
      rw [hrun, ebind_ok]
    · simp only [hnext]
      omega
    · intro k hk
      cases k with
      | zero => simp
      | succ j =>
        have hj : j < n := by omega
        have := hmem j hj
        simp only [List.mem_append]
        right
        have : Instr.storeA (st.tab.next_address + 1 + j) ∈ ir := by
          simpa using hmem j hj
        simpa [Nat.add_assoc, Nat.add_comm, Nat.add_left_comm] using this

/-- C7 counterexample: a program of 255 declarations allocates address
256, so memory-address operands are not confined to 0..255 for programs
with arbitrarily many declarations. -/
theorem C7_counterexample_address_overflow :
    ∃ ir st', lowerProgram
        (List.replicate 255 (Item.stmtI (Stmt.varDecl "x" (Expr.num 0)))) =
        .ok (ir, st') ∧ Instr.storeA 256 ∈ ir ∧ ¬ (256 : Nat) ≤ 255 := by
  obtain ⟨ir, st', hrun, hnext, hmem⟩ := lowerItems_replicate_declX 255 initLow
  refine ⟨ir, st', hrun, ?_, by omega⟩
  have := hmem 254 (by omega)
  simpa using this

theorem flattenL_append : ∀ (a b : List IRT),
    flattenL (a ++ b) = flattenL a ++ flattenL b
  | [], b => by simp [flattenL]
  | t :: ts, b => by
    rw [List.cons_append, flattenL.eq_2, flattenL.eq_2, flattenL_append ts b,
      List.append_assoc]

theorem okL_append : ∀ (a b : List IRT),
    okL (a ++ b) = (okL a && okL b)
  | [], b => by simp [okL]
  | t :: ts, b => by
    rw [List.cons_append, okL.eq_2, okL.eq_2, okL_append ts b, Bool.and_assoc]

theorem sub256_eq_zero_iff {l r : Nat} (hl : l < 256) (hr : r < 256) :
    sub256 r l = 0 ↔ r = l := by
  unfold sub256
  omega

/-! ## Execution of the comparison template (C4) -/

theorem cmpGate_exec (fl : Nat) (sG : IRState) :
    irExec 1 [.loop [.act (.loadAImm fl), .act (.storeA 0), .act (.loadAImm 0)],
        .act (.loadAMem 0)] sG =
      some (if sG.regA = 0 then irStep (.loadAMem 0) sG
        else irStep (.loadAMem 0)
          (runActs [.loadAImm fl, .storeA 0, .loadAImm 0] sG)) := by
  by_cases hz : sG.regA = 0
  · rw [if_pos hz]
    rw [irExec, if_pos hz]
    simp [irExec]
  · rw [if_neg hz]
    rw [irExec, if_neg hz]
    rw [dif_neg (by omega : ¬ (1 : Nat) = 0)]
    rw [show ([.act (.loadAImm fl), .act (.storeA 0), .act (.loadAImm 0)] :
        List IRT) ++ [.loop [.act (.loadAImm fl), .act (.storeA 0),
          .act (.loadAImm 0)], .act (.loadAMem 0)] =
      ([Instr.loadAImm fl, Instr.storeA 0, Instr.loadAImm 0].map IRT.act) ++
        [.loop [.act (.loadAImm fl), .act (.storeA 0), .act (.loadAImm 0)],
          .act (.loadAMem 0)] from rfl]
    rw [irExec_acts_append]
    have hz' : (runActs [Instr.loadAImm fl, Instr.storeA 0, Instr.loadAImm 0]
        sG).regA = 0 := by
      simp [runActs, irStep]
    rw [show (1 : Nat) - 1 = 0 from rfl]
    rw [irExec, if_pos hz']
    simp [irExec]


theorem cmpTrees_exec (c : String) (a0 fl : Nat) (tsL tsR : List IRT)
    (s₀ sL sR : IRState) (l r fL fR : Nat)
    (hl : l < 256) (hr : r < 256)
    (hL : irExec fL tsL
      (runActs [.comment c, .loadAImm a0, .storeA 0] s₀) = some sL)
    (hLA : sL.regA = l)
    (hLm : sL.mem 0 =
      (runActs [.comment c, .loadAImm a0, .storeA 0] s₀).mem 0)
    (hR : irExec fR tsR (irStep (.storeA 1) sL) = some sR)
    (hRA : sR.regA = r)
    (hRm0 : sR.mem 0 = (irStep (.storeA 1) sL).mem 0)
    (hRm1 : sR.mem 1 = (irStep (.storeA 1) sL).mem 1) :
    ∃ sG sFin,
      irExec (fL + fR)
        ([.act (.comment c), .act (.loadAImm a0), .act (.storeA 0)] ++ tsL ++
          [.act (.storeA 1)] ++ tsR ++ [.act (.loadBMem 1), .act .sub])
        s₀ = some sG ∧
      sG.regA = sub256 r l ∧
      irExec 1 [.loop [.act (.loadAImm fl), .act (.storeA 0),
        .act (.loadAImm 0)], .act (.loadAMem 0)] sG = some sFin ∧
      irExec (fL + (fR + 1))
        ([.act (.comment c), .act (.loadAImm a0), .act (.storeA 0)] ++ tsL ++
          [.act (.storeA 1)] ++ tsR ++ [.act (.loadBMem 1), .act .sub,
            .loop [.act (.loadAImm fl), .act (.storeA 0), .act (.loadAImm 0)],
            .act (.loadAMem 0)]) s₀ = some sFin ∧
      sFin.regA = (if l = r then a0 % 256 else fl % 256) := by
  set sPre := runActs [.comment c, .loadAImm a0, .storeA 0] s₀ with hsPre
  set sMid := irStep (.storeA 1) sL with hsMid
  set sGate := irStep .sub (irStep (.loadBMem 1) sR) with hsGate
  have hmem1 : sMid.mem 1 = l := by
    rw [hsMid]
    simp [irStep, hLA]
  have hGateA : sGate.regA = sub256 r l := by
    rw [hsGate]
    simp only [irStep]
    rw [hRA, hRm1, hmem1]
  have hPre0 : sPre.mem 0 = a0 % 256 := by
    rw [hsPre]
    simp [runActs, irStep]
  have hGate0 : sGate.mem 0 = a0 % 256 := by
    rw [hsGate]
    simp only [irStep]
    rw [hRm0, hsMid]
    simp only [irStep]
    rw [Function.update_noteq (by decide) _ _]
    rw [hLm, hPre0]
  -- straight-line pieces
  have hEnd : irExec 0 ([Instr.loadBMem 1, Instr.sub].map IRT.act) sR =
      some sGate := irExec_acts 0 _ sR
  have hMidR : irExec fR
      ((IRT.act (.storeA 1)) :: (tsR ++ [.act (.loadBMem 1), .act .sub])) sL =
      some sGate := by
    have h1 : irExec fR (([Instr.storeA 1].map IRT.act) ++
        (tsR ++ [.act (.loadBMem 1), .act .sub])) sL =
        irExec fR (tsR ++ [.act (.loadBMem 1), .act .sub]) sMid := by
      rw [irExec_acts_append]
      rfl
    have h2 : irExec (fR + 0) (tsR ++ [.act (.loadBMem 1), .act .sub]) sMid =
        some sGate := irExec_seq fR 0 tsR _ sMid sR sGate hR hEnd
    rw [Nat.add_zero] at h2
    rw [show (IRT.act (.storeA 1)) :: (tsR ++ [.act (.loadBMem 1), .act .sub]) =
      ([Instr.storeA 1].map IRT.act) ++ (tsR ++ [.act (.loadBMem 1), .act .sub])
      from rfl]
    rw [h1]
    exact h2
  have hPrefix : irExec (fL + fR)
      (IRT.act (.comment c) :: IRT.act (.loadAImm a0) :: IRT.act (.storeA 0) ::
        (tsL ++ (IRT.act (.storeA 1) ::
          (tsR ++ [.act (.loadBMem 1), .act .sub])))) s₀ = some sGate := by
    rw [show (IRT.act (.comment c) :: IRT.act (.loadAImm a0) ::
        IRT.act (.storeA 0) :: (tsL ++ (IRT.act (.storeA 1) ::
          (tsR ++ [.act (.loadBMem 1), .act .sub])))) =
      ([Instr.comment c, Instr.loadAImm a0, Instr.storeA 0].map IRT.act) ++
        (tsL ++ (IRT.act (.storeA 1) :: (tsR ++ [.act (.loadBMem 1), .act .sub])))
      from rfl]
    rw [irExec_acts_append]
    exact irExec_seq fL fR tsL _ sPre sL sGate hL hMidR
  -- the gate and final load
  obtain ⟨sFin, hGateRun, hFinA⟩ :
      ∃ sFin, irExec 1 [.loop [.act (.loadAImm fl), .act (.storeA 0),
        .act (.loadAImm 0)], .act (.loadAMem 0)] sGate = some sFin ∧
        sFin.regA = (if l = r then a0 % 256 else fl % 256) := by
    refine ⟨_, cmpGate_exec fl sGate, ?_⟩
    by_cases heq : l = r
    · have hz : sGate.regA = 0 := by
        rw [hGateA, (sub256_eq_zero_iff hl hr).mpr heq.symm]
      rw [if_pos hz, if_pos heq]
      simp only [irStep]
      exact hGate0
    · have hz : ¬ sGate.regA = 0 := by
        rw [hGateA]
        intro hc
        exact heq ((sub256_eq_zero_iff hl hr).mp hc).symm
      rw [if_neg hz, if_neg heq]
      simp [irStep, runActs]
  refine ⟨sGate, sFin, ?_, hGateA, hGateRun, ?_, hFinA⟩
  · rw [show ([.act (.comment c), .act (.loadAImm a0), .act (.storeA 0)] ++ tsL ++
      [.act (.storeA 1)] ++ tsR ++ [.act (.loadBMem 1), .act .sub] : List IRT) =
      (IRT.act (.comment c) :: IRT.act (.loadAImm a0) :: IRT.act (.storeA 0) ::
        (tsL ++ (IRT.act (.storeA 1) ::
          (tsR ++ [.act (.loadBMem 1), .act .sub])))) from by
      simp [List.append_assoc]]
    exact hPrefix
  · have hfull : irExec ((fL + fR) + 1)
        ((IRT.act (.comment c) :: IRT.act (.loadAImm a0) :: IRT.act (.storeA 0) ::
          (tsL ++ (IRT.act (.storeA 1) ::
            (tsR ++ [.act (.loadBMem 1), .act .sub])))) ++
          [.loop [.act (.loadAImm fl), .act (.storeA 0), .act (.loadAImm 0)],
            .act (.loadAMem 0)]) s₀ = some sFin :=
      irExec_seq (fL + fR) 1 _ _ s₀ sGate sFin hPrefix hGateRun
    rw [show fL + (fR + 1) = (fL + fR) + 1 from by omega]
    rw [show ([.act (.comment c), .act (.loadAImm a0), .act (.storeA 0)] ++ tsL ++
      [.act (.storeA 1)] ++ tsR ++ [.act (.loadBMem 1), .act .sub,
        .loop [.act (.loadAImm fl), .act (.storeA 0), .act (.loadAImm 0)],
        .act (.loadAMem 0)] : List IRT) =
      ((IRT.act (.comment c) :: IRT.act (.loadAImm a0) :: IRT.act (.storeA 0) ::
        (tsL ++ (IRT.act (.storeA 1) ::
          (tsR ++ [.act (.loadBMem 1), .act .sub])))) ++
        [.loop [.act (.loadAImm fl), .act (.storeA 0), .act (.loadAImm 0)],
          .act (.loadAMem 0)]) from by simp [List.append_assoc]]
    exact hfull

theorem cmpFlatten (c : String) (a0 fl : Nat) (tsL tsR : List IRT) :
    (Instr.comment c ::
      ([Instr.loadAImm a0, Instr.storeA 0] ++ flattenL tsL ++ [Instr.storeA 1] ++
        flattenL tsR ++ [Instr.loadBMem 1, Instr.sub, Instr.loopStart,
          Instr.loadAImm fl, Instr.storeA 0, Instr.loadAImm 0, Instr.loopEnd,
          Instr.loadAMem 0])) =
    flattenL ([.act (.comment c), .act (.loadAImm a0), .act (.storeA 0)] ++ tsL ++
      [.act (.storeA 1)] ++ tsR ++ [.act (.loadBMem 1), .act .sub,
        .loop [.act (.loadAImm fl), .act (.storeA 0), .act (.loadAImm 0)],
        .act (.loadAMem 0)]) := by
  simp [flattenL_append, flattenL, flattenT, List.append_assoc]

theorem cmpOkL (c : String) (a0 fl : Nat) (tsL tsR : List IRT)
    (hokL : okL tsL = true) (hokR : okL tsR = true) :
    okL ([.act (.comment c), .act (.loadAImm a0), .act (.storeA 0)] ++ tsL ++
      [.act (.storeA 1)] ++ tsR ++ [.act (.loadBMem 1), .act .sub,
        .loop [.act (.loadAImm fl), .act (.storeA 0), .act (.loadAImm 0)],
        .act (.loadAMem 0)]) = true := by
  simp [okL_append, okL, okT, hokL, hokR]

/-- C4 amended: for a `==` or `!=` node whose operand code terminates and
behaves (left leaves the result cell 0 alone; right also leaves the spill
cell 1 alone), the emitted IR initialises the result cell to the assume
value (1 for `==`, 0 for `!=`), REG_A holds right − left (mod 256) — not
left − right — when the gate loop is reached, the gate loop needs only
one unit of fuel (it runs at most one iteration) and fires exactly when
the operands differ, and the final instruction loads the result cell into
REG_A, leaving the comparison's boolean value there. -/
theorem C4_amended_comparison (isEq : Bool) (tsL tsR : List IRT)
    (s₀ sL sR : IRState) (l r : Nat) (fL fR : Nat)
    (hokL : okL tsL = true) (hokR : okL tsR = true)
    (hl : l < 256) (hr : r < 256)
    (hL : irExec fL tsL
      (runActs [.loadAImm (if isEq then 1 else 0), .storeA 0] s₀) = some sL)
    (hLA : sL.regA = l)
    (hLm : sL.mem 0 =
      (runActs [.loadAImm (if isEq then 1 else 0), .storeA 0] s₀).mem 0)
    (hR : irExec fR tsR (irStep (.storeA 1) sL) = some sR)
    (hRA : sR.regA = r)
    (hRm0 : sR.mem 0 = (irStep (.storeA 1) sL).mem 0)
    (hRm1 : sR.mem 1 = (irStep (.storeA 1) sL).mem 1) :
    matchIR (if isEq then equalLower (flattenL tsL) (flattenL tsR)
        else notEqualLower (flattenL tsL) (flattenL tsR)) =
      some ([.act (.comment (if isEq then "# Equal" else "# Not equal")),
        .act (.loadAImm (if isEq then 1 else 0)), .act (.storeA 0)] ++ tsL ++
        [.act (.storeA 1)] ++ tsR ++ [.act (.loadBMem 1), .act .sub,
          .loop [.act (.loadAImm (if isEq then 0 else 1)), .act (.storeA 0),
            .act (.loadAImm 0)], .act (.loadAMem 0)]) ∧
    (∃ sG sFin,
      irExec (fL + fR)
        ([.act (.comment (if isEq then "# Equal" else "# Not equal")),
          .act (.loadAImm (if isEq then 1 else 0)), .act (.storeA 0)] ++ tsL ++
          [.act (.storeA 1)] ++ tsR ++ [.act (.loadBMem 1), .act .sub])
        s₀ = some sG ∧
      sG.regA = sub256 r l ∧
      irExec 1 [.loop [.act (.loadAImm (if isEq then 0 else 1)),
        .act (.storeA 0), .act (.loadAImm 0)], .act (.loadAMem 0)] sG =
        some sFin ∧
      irExec (fL + (fR + 1))
        ([.act (.comment (if isEq then "# Equal" else "# Not equal")),
          .act (.loadAImm (if isEq then 1 else 0)), .act (.storeA 0)] ++ tsL ++
          [.act (.storeA 1)] ++ tsR ++ [.act (.loadBMem 1), .act .sub,
            .loop [.act (.loadAImm (if isEq then 0 else 1)), .act (.storeA 0),
              .act (.loadAImm 0)], .act (.loadAMem 0)]) s₀ = some sFin ∧
      sFin.regA = (if l = r then (if isEq then 1 else 0)
        else (if isEq then 0 else 1))) ∧
    (if isEq then equalLower (flattenL tsL) (flattenL tsR)
      else notEqualLower (flattenL tsL) (flattenL tsR)).getLast? =
      some (.loadAMem 0) := by
  have hlast8 : ∀ (Y : List Instr) (fl : Nat),
      (Y ++ [Instr.loadBMem 1, Instr.sub, Instr.loopStart, Instr.loadAImm fl,
        Instr.storeA 0, Instr.loadAImm 0, Instr.loopEnd,
        Instr.loadAMem 0]).getLast? = some (.loadAMem 0) := by
    intro Y fl
    rw [List.getLast?_append]
    rfl
  cases isEq
  · obtain ⟨sG, sFin, hPrefix, hGA, hGate, hFull, hFinA⟩ :=
      cmpTrees_exec "# Not equal" 0 1 tsL tsR s₀ sL sR l r fL fR hl hr hL hLA
        hLm hR hRA hRm0 hRm1
    simp only [Bool.false_eq_true, if_false]
    refine ⟨?_, ⟨sG, sFin, hPrefix, hGA, hGate, hFull, ?_⟩, ?_⟩
    · rw [show notEqualLower (flattenL tsL) (flattenL tsR) =
        flattenL ([.act (.comment "# Not equal"), .act (.loadAImm 0),
          .act (.storeA 0)] ++ tsL ++ [.act (.storeA 1)] ++ tsR ++
          [.act (.loadBMem 1), .act .sub, .loop [.act (.loadAImm 1),
            .act (.storeA 0), .act (.loadAImm 0)], .act (.loadAMem 0)]) from
        cmpFlatten "# Not equal" 0 1 tsL tsR]
      exact matchIR_flattenL _ (cmpOkL "# Not equal" 0 1 tsL tsR hokL hokR)
    · rw [hFinA]
    · rw [show notEqualLower (flattenL tsL) (flattenL tsR) =
        (Instr.comment "# Not equal" ::
          ([Instr.loadAImm 0, Instr.storeA 0] ++ flattenL tsL ++
            [Instr.storeA 1] ++ flattenL tsR)) ++
          [Instr.loadBMem 1, Instr.sub, Instr.loopStart, Instr.loadAImm 1,
            Instr.storeA 0, Instr.loadAImm 0, Instr.loopEnd, Instr.loadAMem 0]
        from by simp [notEqualLower, List.append_assoc]]
      exact hlast8 _ 1
  · obtain ⟨sG, sFin, hPrefix, hGA, hGate, hFull, hFinA⟩ :=
      cmpTrees_exec "# Equal" 1 0 tsL tsR s₀ sL sR l r fL fR hl hr hL hLA
        hLm hR hRA hRm0 hRm1
    simp only [if_true]
    refine ⟨?_, ⟨sG, sFin, hPrefix, hGA, hGate, hFull, ?_⟩, ?_⟩
    · rw [show equalLower (flattenL tsL) (flattenL tsR) =
        flattenL ([.act (.comment "# Equal"), .act (.loadAImm 1),
          .act (.storeA 0)] ++ tsL ++ [.act (.storeA 1)] ++ tsR ++
          [.act (.loadBMem 1), .act .sub, .loop [.act (.loadAImm 0),
            .act (.storeA 0), .act (.loadAImm 0)], .act (.loadAMem 0)]) from
        cmpFlatten "# Equal" 1 0 tsL tsR]
      exact matchIR_flattenL _ (cmpOkL "# Equal" 1 0 tsL tsR hokL hokR)
    · rw [hFinA]
    · rw [show equalLower (flattenL tsL) (flattenL tsR) =
        (Instr.comment "# Equal" ::
          ([Instr.loadAImm 1, Instr.storeA 0] ++ flattenL tsL ++
            [Instr.storeA 1] ++ flattenL tsR)) ++
          [Instr.loadBMem 1, Instr.sub, Instr.loopStart, Instr.loadAImm 0,
            Instr.storeA 0, Instr.loadAImm 0, Instr.loopEnd, Instr.loadAMem 0]
        from by simp [equalLower, List.append_assoc]]
      exact hlast8 _ 0

/-- Witness for the amended C4 theorem at `5 == 3`. -/
theorem C4_amended_comparison_witness :
    matchIR (equalLower [Instr.loadAImm 5] [Instr.loadAImm 3]) =
      some [IRT.act (.comment "# Equal"), .act (.loadAImm 1), .act (.storeA 0),
        .act (.loadAImm 5), .act (.storeA 1), .act (.loadAImm 3),
        .act (.loadBMem 1), .act .sub,
        .loop [.act (.loadAImm 0), .act (.storeA 0), .act (.loadAImm 0)],
        .act (.loadAMem 0)] :=
  (C4_amended_comparison true [.act (.loadAImm 5)] [.act (.loadAImm 3)]
    (IRState.init [])
    (runActs [Instr.loadAImm 5]
      (runActs [Instr.loadAImm 1, Instr.storeA 0] (IRState.init [])))
    (runActs [Instr.loadAImm 3]
      (irStep (Instr.storeA 1)
        (runActs [Instr.loadAImm 5]
          (runActs [Instr.loadAImm 1, Instr.storeA 0] (IRState.init [])))))
    5 3 0 0 rfl rfl (by decide) (by decide)
    (irExec_acts 0 [Instr.loadAImm 5] _) rfl rfl
    (irExec_acts 0 [Instr.loadAImm 3] _) rfl rfl rfl).1

/-! ## The IR → BF backend (`instruction_set_parser.py`)

The backend works on text: lines are split, tokenised and dispatched on
the first token; handlers emit BF while threading the compile-time
cursor.  The Python cursor is an unbounded integer (hand-written IR text
may use negative addresses), so the cursor is modelled as `Int`.  The
string utilities are defined over `List Char` so that every definition
evaluates by kernel reduction. -/

/-- Python `str.split`-style whitespace test. -/
def isPySpace (c : Char) : Bool :=
  c = ' ' || c = '\t' || c = '\n' || c = '\r' || c = '\x0b' || c = '\x0c'

/-- Split a character list at every separator character (Python
`str.split(sep)` keeps empty fields). -/
def splitSep (sep : Char) : List Char → List (List Char)
  | [] => [[]]
  | c :: rest =>
    match splitSep sep rest with
    | [] => [[c]]
    | h :: t => if c = sep then [] :: h :: t else (c :: h) :: t

/-- Python `str.strip()` on a character list. -/
def pyStrip (l : List Char) : List Char :=
  ((l.dropWhile isPySpace).reverse.dropWhile isPySpace).reverse

/-- Split at whitespace runs (Python `str.split()` with no argument). -/
def splitAtWs : List Char → List (List Char)
  | [] => [[]]
  | c :: rest =>
    match splitAtWs rest with
    | [] => [[c]]
    | h :: t => if isPySpace c then [] :: h :: t else (c :: h) :: t

def pyWords (l : List Char) : List String :=
  ((splitAtWs l).filter (fun w => w ≠ [])).map (fun w => ⟨w⟩)

def pyDigits? : List Char → Option Nat
  | [] => none
  | l =>
    if l.all (fun c => c.isDigit) then
      some (l.foldl (fun n c => n * 10 + (c.toNat - 48)) 0)
    else none

/-- Model of Python `int(str)`: optional surrounding whitespace, an
optional sign, then decimal digits. -/
def pyInt? (s : String) : Option Int :=
  match pyStrip s.data with
  | '-' :: rest => (pyDigits? rest).map (fun n => -(n : Int))
  | '+' :: rest => (pyDigits? rest).map (fun n => (n : Int))
  | l => (pyDigits? l).map (fun n => (n : Int))

def repChar (n : Nat) (c : Char) : String := ⟨List.replicate n c⟩

/-- Source: `Parser._move_to`. -/
def move_to (cell cur : Int) : String × Int :=
  (if cell > cur then repChar (cell - cur).toNat '>'
    else repChar (cur - cell).toNat '<', cell)

/-- Source: `Parser._move_offset`. -/
def move_offset (off cur : Int) : String × Int :=
  (if off > 0 then repChar off.toNat '>' else repChar (-off).toNat '<',
    cur + off)

/-- Source: `Parser._clear_cell`. -/
def clear_cell (reg cur : Int) : String × Int :=
  let (m, c) := move_to reg cur
  (m ++ "[-]", c)

/-- Source: `Parser._copy_value` (TEMP is cell 2). -/
def copy_value (source destination cur : Int) : String × Int :=
  let (s1, c1) := clear_cell 2 cur
  let (s2, c2) := clear_cell destination c1
  let (s3, c3) := move_to source c2
  let (m1, c4) := move_offset (destination - source) c3
  let (m2, c5) := move_offset (2 - destination) c4
  let (m3, c6) := move_offset (source - 2) c5
  let (s5, c7) := move_to 2 c6
  let (m4, c8) := move_offset (source - 2) c7
  let (m5, c9) := move_offset (2 - source) c8
  (s1 ++ s2 ++ s3 ++ "[" ++ m1 ++ "+" ++ m2 ++ "+" ++ m3 ++ "-]" ++ s5 ++
    "[" ++ m4 ++ "+" ++ m5 ++ "-]", c9)

def startsWithChars : List Char → List Char → Bool
  | [], _ => true
  | _ :: _, [] => false
  | p :: ps, c :: cs => p = c && startsWithChars ps cs

/-- Source: `Parser._handle_load_immediate` (raises on a missing or
non-integer operand, like the Python `args[0]` / `int(value)`). -/
def handle_load_immediate (instruction : String) (args : List String)
    (cur : Int) : Except String (String × Int) :=
  let register : Int := if startsWithChars "LOAD_A".data instruction.data then 0 else 1
  match args with
  | [] => .error "IndexError: list index out of range"
  | value :: _ =>
    match pyInt? value with
    | none => .error ("ValueError: invalid literal for int: " ++ value)
    | some v =>
      let (m, c) := move_to register cur
      .ok (m ++ "[-]" ++ repChar v.toNat '+', c)

/-- Source: `Parser._handle_load_memory`. -/
def handle_load_memory (instruction : String) (args : List String)
    (cur : Int) : Except String (String × Int) :=
  let register : Int := if startsWithChars "LOAD_A".data instruction.data then 0 else 1
  match args with
  | [] => .error "IndexError: list index out of range"
  | value :: _ =>
    match pyInt? value with
    | none => .error ("ValueError: invalid literal for int: " ++ value)
    | some v => .ok (copy_value (v + 3) register cur)

/-- Source: `Parser._handle_store`. -/
def handle_store (instruction : String) (args : List String)
    (cur : Int) : Except String (String × Int) :=
  let register : Int := if instruction = "STORE_A" then 0 else 1
  match args with
  | [] => .error "IndexError: list index out of range"
  | value :: _ =>
    match pyInt? value with
    | none => .error ("ValueError: invalid literal for int: " ++ value)
    | some v => .ok (copy_value register (v + 3) cur)

/-- Source: `Parser._handle_arithmetic`. -/
def handle_arithmetic (instruction : String) (_args : List String)
    (cur : Int) : Except String (String × Int) :=
  let (m, c1) := move_to 1 cur
  let (o1, c2) := move_offset (0 - 1) c1
  let (o2, c3) := move_offset (1 - 0) c2
  if instruction = "ADD" then .ok (m ++ "[" ++ o1 ++ "+" ++ o2 ++ "-]", c3)
  else .ok (m ++ "[" ++ o1 ++ "-" ++ o2 ++ "-]", c3)

/-- Source: `Parser._handle_loop_start` / `_handle_loop_end`. -/
def handle_loop_start (_instruction : String) (_args : List String)
    (cur : Int) : Except String (String × Int) :=
  let (m, c) := move_to 0 cur
  .ok (m ++ "[", c)

def handle_loop_end (_instruction : String) (_args : List String)
    (cur : Int) : Except String (String × Int) :=
  let (m, c) := move_to 0 cur
  .ok (m ++ "]", c)

/-- Source: `Parser._handle_input` / `_handle_output`. -/
def handle_input (instruction : String) (_args : List String)
    (cur : Int) : Except String (String × Int) :=
  let register : Int := if instruction = "IN_A" then 0 else 1
  let (m, c) := move_to register cur
  .ok (m ++ ",", c)

def handle_output (instruction : String) (_args : List String)
    (cur : Int) : Except String (String × Int) :=
  let register : Int := if instruction = "OUT_A" then 0 else 1
  let (m, c) := move_to register cur
  .ok (m ++ ".", c)

/-- The keys of `Parser.instruction_handlers`. -/
def knownInstr (s : String) : Bool :=
  s = "LOAD_A_IMM" || s = "LOAD_A_MEM" || s = "LOAD_B_IMM" || s = "LOAD_B_MEM" ||
  s = "STORE_A" || s = "STORE_B" || s = "ADD" || s = "SUB" ||
  s = "LOOP_START" || s = "LOOP_END" || s = "IN_A" || s = "IN_B" ||
  s = "OUT_A" || s = "OUT_B"

/-- Dispatch of `Parser.instruction_handlers`. -/
def runHandler (instruction : String) (args : List String) (cur : Int) :
    Except String (String × Int) :=
  if instruction = "LOAD_A_IMM" || instruction = "LOAD_B_IMM" then
    handle_load_immediate instruction args cur
  else if instruction = "LOAD_A_MEM" || instruction = "LOAD_B_MEM" then
    handle_load_memory instruction args cur
  else if instruction = "STORE_A" || instruction = "STORE_B" then
    handle_store instruction args cur
  else if instruction = "ADD" || instruction = "SUB" then
    handle_arithmetic instruction args cur
  else if instruction = "LOOP_START" then handle_loop_start instruction args cur
  else if instruction = "LOOP_END" then handle_loop_end instruction args cur
  else if instruction = "IN_A" || instruction = "IN_B" then
    handle_input instruction args cur
  else if instruction = "OUT_A" || instruction = "OUT_B" then
    handle_output instruction args cur
  else .error ("Error: Unknown instruction " ++ instruction)

/-- The loop of `Parser.parse`: skip blank and comment lines, dispatch on
the first token, raise on unknown mnemonics, accumulate code and run the
peephole canceller at the end. -/
def parseISGo : List (List Char) → Nat → String → Int → Except String String
  | [], _, code, _ => .ok (removeRedundant code)
  | row :: rest, i, code, cur =>
    let r := pyStrip row
    if r = [] || startsWithChars "#".data r then parseISGo rest (i + 1) code cur
    else
      match pyWords r with
      | [] => parseISGo rest (i + 1) code cur
      | instruction :: args =>
        if knownInstr instruction then
          match runHandler instruction args cur with
          | .error e => .error e
          | .ok (result, cur') =>
            parseISGo rest (i + 1)
              (if result = "" then code else code ++ result ++ "\n") cur'
        else
          .error ("Error: Unknown instruction " ++ instruction ++ " at line " ++
            toString i)

/-- Source: `Parser.parse` with `debug = False`. -/
def parseIS (instructions : String) : Except String String :=
  parseISGo (splitSep '\n' (pyStrip instructions.data)) 0 "" 0

/-! ## What the backend validates (C10)

The parse loop checks only that the first token of each effective line is
a key of `instruction_handlers`; every other failure mode comes from
inside a handler (a missing `args[0]` or a non-integer operand), and loop
balance is never inspected. -/

/-- Mnemonics whose handler reads `args[0]` and converts it with `int`. -/
def needsArg (instruction : String) : Bool :=
  instruction = "LOAD_A_IMM" || instruction = "LOAD_B_IMM" ||
  instruction = "LOAD_A_MEM" || instruction = "LOAD_B_MEM" ||
  instruction = "STORE_A" || instruction = "STORE_B"

/-- The handler's own success condition: an integer first argument is
present whenever the mnemonic requires one. -/
def argsOK (instruction : String) (args : List String) : Bool :=
  !needsArg instruction ||
    (match args with
     | [] => false
     | a :: _ => (pyInt? a).isSome)

/-- A line the parse loop accepts: blank, comment, or a recognised
mnemonic whose handler does not raise. -/
def lineOK (row : List Char) : Bool :=
  let r := pyStrip row
  (r = [] || startsWithChars "#".data r) ||
    (match pyWords r with
     | [] => true
     | instruction :: args => knownInstr instruction && argsOK instruction args)

theorem cancelLoop_of_fixed {l : List Char} (h : cancelStep l = l) :
    cancelLoop l = l := by
  rw [cancelLoop, dif_pos h]

theorem runHandler_isOk (instruction : String) (args : List String) (cur : Int)
    (h : knownInstr instruction = true) :
    (runHandler instruction args cur).isOk = argsOK instruction args := by
  simp only [knownInstr, Bool.or_eq_true, decide_eq_true_eq] at h
  rcases h with (((((((((((((h|h)|h)|h)|h)|h)|h)|h)|h)|h)|h)|h)|h)|h) <;> subst h <;>
    first
      | rfl
      | (cases args with
         | nil => rfl
         | cons a rest =>
             cases ha : pyInt? a <;>
               simp [runHandler, handle_load_immediate, handle_load_memory,
                 handle_store, argsOK, needsArg, ha, Except.isOk, Except.toBool,
                 move_to, copy_value, clear_cell, move_offset])

theorem parseISGo_isOk : ∀ (rows : List (List Char)) (i : Nat) (code : String)
    (cur : Int), (parseISGo rows i code cur).isOk = rows.all lineOK := by
  intro rows
  induction rows with
  | nil => intro i code cur; rfl
  | cons row rest ih =>
    intro i code cur
    rw [parseISGo, List.all_cons]
    by_cases hskip :
        (decide (pyStrip row = []) || startsWithChars "#".data (pyStrip row)) = true
    · rw [if_pos hskip, ih]
      have hline : lineOK row = true := by
        simp only [lineOK, Bool.or_eq_true, decide_eq_true_eq] at hskip ⊢
        exact Or.inl hskip
      rw [hline, Bool.true_and]
    · rw [if_neg hskip]
      have hb := Bool.of_not_eq_true hskip
      cases hw : pyWords (pyStrip row) with
      | nil =>
        have hline : lineOK row = true := by
          simp only [lineOK, hb, Bool.false_or, hw]
        rw [hline, Bool.true_and]
        exact ih (i + 1) code cur
      | cons instruction args =>
        have hline : lineOK row = (knownInstr instruction && argsOK instruction args) := by
          simp only [lineOK, hb, Bool.false_or, hw]
        dsimp only
        by_cases hk : knownInstr instruction = true
        · rw [if_pos hk]
          cases hres : runHandler instruction args cur with
          | error e =>
            have hargs : argsOK instruction args = false := by
              have hrun := runHandler_isOk instruction args cur hk
              rw [hres] at hrun
              exact hrun.symm
            rw [hline, hk, hargs]
            rfl
          | ok pr =>
            obtain ⟨result, cur'⟩ := pr
            have : argsOK instruction args = true := by
              have := runHandler_isOk instruction args cur hk
              rw [hres] at this
              exact this.symm
            rw [hline, hk, this]
            simp only [Bool.and_self, Bool.true_and]
            exact ih (i + 1) _ cur'
        · rw [if_neg hk]
          rw [hline, Bool.eq_false_iff.mpr hk, Bool.false_and]
          rfl

/-- C10 counterexample: `LOAD_A_IMM` is a recognised mnemonic, yet a line
consisting of that mnemonic alone makes `Parser.parse` raise (the handler
reads `args[0]`), so an error is not raised only on unknown mnemonics. -/
theorem C10_counterexample_argument_exceptions :
    knownInstr "LOAD_A_IMM" = true ∧
      parseIS "LOAD_A_IMM" = .error "IndexError: list index out of range" :=
  ⟨rfl, rfl⟩

/-- C10 (amended): `Parser.parse` succeeds exactly when every non-blank,
non-comment line starts with a recognised mnemonic AND carries an integer
first argument whenever the mnemonic's handler reads one; loop structure
is never validated, so an unmatched bracket stream parses fine and the
unmatched brackets propagate into the output. -/
theorem C10_amended_backend_validation :
    (∀ text : String,
        (parseIS text).isOk = (splitSep '\n' (pyStrip text.data)).all lineOK) ∧
      parseIS "LOOP_START\nLOOP_END\nLOOP_END" = .ok "[\n]\n]\n" := by
  constructor
  · intro text
    exact parseISGo_isOk _ 0 "" 0
  · have h1 : parseIS "LOOP_START\nLOOP_END\nLOOP_END" =
        .ok (removeRedundant "[\n]\n]\n") := rfl
    have h2 : removeRedundant "[\n]\n]\n" = "[\n]\n]\n" := by
      show (⟨cancelLoop "[\n]\n]\n".data⟩ : String) = "[\n]\n]\n"
      rw [cancelLoop_of_fixed rfl]
    rw [h1, h2]

theorem C10_amended_backend_validation_witness :
    (parseIS "LOAD_A_IMM 7\nLOOP_START\nOUT_A").isOk = true := by
  rw [C10_amended_backend_validation.1 "LOAD_A_IMM 7\nLOOP_START\nOUT_A"]
  rfl

/-! ## Brainfuck target semantics

The standard BF machine of the spec: byte cells wrapping at 256, a data
head, an input stream and an output trace.  The head is an `Int` because
the backend's cursor is an unbounded integer and hand-written IR may
address cells left of the start; compiled programs never go below 0. -/

inductive BF where
  | right
  | left
  | inc
  | dec
  | out
  | inp
  | loop (body : List BF)
deriving Repr

structure BFState where
  tape : Int → Nat
  head : Int
  input : List Nat
  output : List Nat

def BFState.init (input : List Nat) : BFState :=
  ⟨fun _ => 0, 0, input, []⟩

/-- Read one byte from the input stream; an exhausted stream reads 0,
the same convention as the IR machine's `takeInput`. -/
def takeInputB (s : BFState) : Nat × List Nat :=
  match s.input with
  | [] => (0, [])
  | x :: rest => (x % 256, rest)

/-- Effect of one non-loop BF command. -/
def bfStep (op : BF) (s : BFState) : BFState :=
  match op with
  | .right => { s with head := s.head + 1 }
  | .left => { s with head := s.head - 1 }
  | .inc => { s with tape := Function.update s.tape s.head ((s.tape s.head + 1) % 256) }
  | .dec => { s with tape := Function.update s.tape s.head ((s.tape s.head + 255) % 256) }
  | .out => { s with output := s.output ++ [s.tape s.head] }
  | .inp => { s with tape := Function.update s.tape s.head (takeInputB s).1,
                     input := (takeInputB s).2 }
  | .loop _ => s

/-- Fueled BF interpreter, in the same queue style as `irExec`: fuel is
spent only on loop iterations. -/
def bfExec : Nat → List BF → BFState → Option BFState
  | _, [], s => some s
  | fuel, .loop b :: k, s =>
    if s.tape s.head = 0 then bfExec fuel k s
    else if hf : fuel = 0 then none
    else bfExec (fuel - 1) (b ++ .loop b :: k) s
  | fuel, op :: k, s => bfExec fuel k (bfStep op s)
termination_by fuel k => (fuel, k.length)

/-- The eight BF command characters other than the brackets; any other
character is a no-op for a standard BF interpreter. -/
def bfOp? (c : Char) : Option BF :=
  if c = '>' then some .right
  else if c = '<' then some .left
  else if c = '+' then some .inc
  else if c = '-' then some .dec
  else if c = '.' then some .out
  else if c = ',' then some .inp
  else none

/-- Bracket matcher for BF text; unknown characters are skipped, and
unmatched brackets make the program ill-formed. -/
def matchBFAux : List Char → List (List BF) → Option (List BF)
  | [], [top] => some top.reverse
  | [], _ => none
  | c :: rest, st =>
    if c = '[' then matchBFAux rest ([] :: st)
    else if c = ']' then
      match st with
      | top :: next :: more => matchBFAux rest ((BF.loop top.reverse :: next) :: more)
      | _ => none
    else
      match bfOp? c with
      | some op =>
        match st with
        | top :: more => matchBFAux rest ((op :: top) :: more)
        | [] => none
      | none => matchBFAux rest st

def parseBF (s : String) : Option (List BF) :=
  matchBFAux s.data [[]]

/-- Run a BF text under the standard interpreter. -/
def bfRun (fuel : Nat) (s : String) (st : BFState) : Option BFState :=
  match parseBF s with
  | none => none
  | some prog => bfExec fuel prog st

/-- Straight-line effect of a loop-free BF command list. -/
def runBFActs (l : List BF) (s : BFState) : BFState :=
  l.foldl (fun s op => bfStep op s) s

/-- Loop-free commands. -/
def plainBF : BF → Bool
  | .loop _ => false
  | _ => true

mutual

/-- The char list a structured BF program prints back to. -/
def flatBT : BF → List Char
  | .right => ['>']
  | .left => ['<']
  | .inc => ['+']
  | .dec => ['-']
  | .out => ['.']
  | .inp => [',']
  | .loop b => '[' :: flatBLC b ++ [']']

def flatBLC : List BF → List Char
  | [] => []
  | t :: ts => flatBT t ++ flatBLC ts

end

theorem flatBLC_append : ∀ (a b : List BF),
    flatBLC (a ++ b) = flatBLC a ++ flatBLC b
  | [], b => by simp [flatBLC]
  | t :: ts, b => by
    show flatBT t ++ flatBLC (ts ++ b) = flatBT t ++ flatBLC ts ++ flatBLC b
    rw [flatBLC_append ts b, List.append_assoc]

theorem matchBFAux_flatBLC : ∀ (ts : List BF) (rest : List Char)
    (top : List BF) (more : List (List BF)),
    matchBFAux (flatBLC ts ++ rest) (top :: more) =
      matchBFAux rest ((ts.reverse ++ top) :: more)
  | [], rest, top, more => by simp [flatBLC]
  | .loop b :: ts, rest, top, more => by
    calc matchBFAux (flatBLC (.loop b :: ts) ++ rest) (top :: more)
        = matchBFAux (flatBLC b ++ (']' :: (flatBLC ts ++ rest)))
            ([] :: top :: more) := by
          simp [flatBLC, flatBT, matchBFAux]
      _ = matchBFAux (']' :: (flatBLC ts ++ rest))
            ((b.reverse ++ []) :: top :: more) := matchBFAux_flatBLC b _ _ _
      _ = matchBFAux (flatBLC ts ++ rest) ((BF.loop b :: top) :: more) := by
          simp [matchBFAux]
      _ = matchBFAux rest ((ts.reverse ++ BF.loop b :: top) :: more) :=
          matchBFAux_flatBLC ts _ _ _
      _ = matchBFAux rest (((BF.loop b :: ts).reverse ++ top) :: more) := by simp
  | .right :: ts, rest, top, more => by
    have step : matchBFAux (flatBLC (.right :: ts) ++ rest) (top :: more)
        = matchBFAux (flatBLC ts ++ rest) ((BF.right :: top) :: more) := by
      simp [flatBLC, flatBT, matchBFAux, bfOp?]
    rw [step, matchBFAux_flatBLC ts _ _ _]
    simp
  | .left :: ts, rest, top, more => by
    have step : matchBFAux (flatBLC (.left :: ts) ++ rest) (top :: more)
        = matchBFAux (flatBLC ts ++ rest) ((BF.left :: top) :: more) := by
      simp [flatBLC, flatBT, matchBFAux, bfOp?]
    rw [step, matchBFAux_flatBLC ts _ _ _]
    simp
  | .inc :: ts, rest, top, more => by
    have step : matchBFAux (flatBLC (.inc :: ts) ++ rest) (top :: more)
        = matchBFAux (flatBLC ts ++ rest) ((BF.inc :: top) :: more) := by
      simp [flatBLC, flatBT, matchBFAux, bfOp?]
    rw [step, matchBFAux_flatBLC ts _ _ _]
    simp
  | .dec :: ts, rest, top, more => by
    have step : matchBFAux (flatBLC (.dec :: ts) ++ rest) (top :: more)
        = matchBFAux (flatBLC ts ++ rest) ((BF.dec :: top) :: more) := by
      simp [flatBLC, flatBT, matchBFAux, bfOp?]
    rw [step, matchBFAux_flatBLC ts _ _ _]
    simp
  | .out :: ts, rest, top, more => by
    have step : matchBFAux (flatBLC (.out :: ts) ++ rest) (top :: more)
        = matchBFAux (flatBLC ts ++ rest) ((BF.out :: top) :: more) := by
      simp [flatBLC, flatBT, matchBFAux, bfOp?]
    rw [step, matchBFAux_flatBLC ts _ _ _]
    simp
  | .inp :: ts, rest, top, more => by
    have step : matchBFAux (flatBLC (.inp :: ts) ++ rest) (top :: more)
        = matchBFAux (flatBLC ts ++ rest) ((BF.inp :: top) :: more) := by
      simp [flatBLC, flatBT, matchBFAux, bfOp?]
    rw [step, matchBFAux_flatBLC ts _ _ _]
    simp
termination_by ts => sizeOf ts

theorem parseBF_flatBLC (ts : List BF) : parseBF ⟨flatBLC ts⟩ = some ts := by
  show matchBFAux (flatBLC ts) [[]] = some ts
  have heq := matchBFAux_flatBLC ts [] [] []
  rw [List.append_nil] at heq
  rw [heq]
  simp [matchBFAux]

theorem bfExec_plain_append : ∀ (l : List BF), l.all plainBF = true →
    ∀ (f : Nat) (k : List BF) (s : BFState),
    bfExec f (l ++ k) s = bfExec f k (runBFActs l s)
  | [], _, f, k, s => by simp [runBFActs]
  | op :: l, hp, f, k, s => by
    simp only [List.all_cons, Bool.and_eq_true] at hp
    have step : bfExec f (op :: (l ++ k)) s = bfExec f (l ++ k) (bfStep op s) := by
      cases op with
      | loop b => simp [plainBF] at hp
      | right => simp only [bfExec]
      | left => simp only [bfExec]
      | inc => simp only [bfExec]
      | dec => simp only [bfExec]
      | out => simp only [bfExec]
      | inp => simp only [bfExec]
    rw [List.cons_append, step, bfExec_plain_append l hp.2 f k (bfStep op s)]
    rfl

theorem runBFActs_append_bf (a b : List BF) (s : BFState) :
    runBFActs (a ++ b) s = runBFActs b (runBFActs a s) := by
  simp [runBFActs, List.foldl_append]

/-- The backend's cursor moves as a command list: `off` steps right when
positive, `-off` steps left otherwise. -/
def moveOps (off : Int) : List BF :=
  if off > 0 then List.replicate off.toNat .right
  else List.replicate (-off).toNat .left

theorem runBFActs_replicate_right : ∀ (n : Nat) (s : BFState),
    runBFActs (List.replicate n .right) s = { s with head := s.head + n }
  | 0, s => by simp [runBFActs]
  | n + 1, s => by
    rw [List.replicate_succ]
    show runBFActs (List.replicate n .right) (bfStep .right s) = _
    rw [runBFActs_replicate_right n (bfStep .right s)]
    obtain ⟨t, h, i, o⟩ := s
    simp only [bfStep, BFState.mk.injEq, true_and, and_true]
    omega

theorem runBFActs_replicate_left : ∀ (n : Nat) (s : BFState),
    runBFActs (List.replicate n .left) s = { s with head := s.head - n }
  | 0, s => by simp [runBFActs]
  | n + 1, s => by
    rw [List.replicate_succ]
    show runBFActs (List.replicate n .left) (bfStep .left s) = _
    rw [runBFActs_replicate_left n (bfStep .left s)]
    obtain ⟨t, h, i, o⟩ := s
    simp only [bfStep, BFState.mk.injEq, true_and, and_true]
    omega

theorem runBFActs_moveOps (off : Int) (s : BFState) :
    runBFActs (moveOps off) s = { s with head := s.head + off } := by
  unfold moveOps
  by_cases hpos : off > 0
  · rw [if_pos hpos, runBFActs_replicate_right]
    obtain ⟨t, h, i, o⟩ := s
    simp only [BFState.mk.injEq, true_and, and_true]
    omega
  · rw [if_neg hpos, runBFActs_replicate_left]
    obtain ⟨t, h, i, o⟩ := s
    simp only [BFState.mk.injEq, true_and, and_true]
    omega

theorem moveOps_plain (off : Int) : (moveOps off).all plainBF = true := by
  unfold moveOps
  split <;>
    · simp only [List.all_eq_true]
      intro x hx
      rw [List.eq_of_mem_replicate hx]
      rfl

/-- Straight-line cursor moves in front of a continuation. -/
theorem bfExec_moveOps (f : Nat) (off : Int) (k : List BF) (s : BFState) :
    bfExec f (moveOps off ++ k) s = bfExec f k { s with head := s.head + off } := by
  rw [bfExec_plain_append (moveOps off) (moveOps_plain off) f k s, runBFActs_moveOps]

theorem bfExec_cons_plain (op : BF) (h : plainBF op = true) (f : Nat)
    (k : List BF) (s : BFState) :
    bfExec f (op :: k) s = bfExec f k (bfStep op s) := by
  have hall : ([op] : List BF).all plainBF = true := by simp [h]
  have := bfExec_plain_append [op] hall f k s
  simpa [runBFActs] using this

/-- The cell-clearing idiom `[-]`. -/
def clearLoop : BF := .loop [.dec]

theorem clearLoop_exec : ∀ (v f : Nat) (k : List BF) (s : BFState),
    s.tape s.head = v → v < 256 →
    bfExec (v + f) (clearLoop :: k) s =
      bfExec f k { s with tape := Function.update s.tape s.head 0 }
  | 0, f, k, s, hv, _ => by
    rw [show clearLoop = BF.loop [BF.dec] from rfl, bfExec.eq_def]
    dsimp only
    rw [if_pos hv]
    have hupd : Function.update s.tape s.head 0 = s.tape := by
      rw [← hv]
      exact Function.update_eq_self _ _
    rw [hupd, Nat.zero_add]
  | v + 1, f, k, s, hv, hlt => by
    rw [show clearLoop = BF.loop [BF.dec] from rfl, bfExec.eq_def]
    dsimp only
    rw [if_neg (by omega : ¬ s.tape s.head = 0)]
    rw [dif_neg (by omega : ¬ (v + 1 + f = 0))]
    rw [show v + 1 + f - 1 = v + f from by omega]
    rw [show ([BF.dec] ++ BF.loop [BF.dec] :: k) = BF.dec :: BF.loop [BF.dec] :: k
      from rfl]
    rw [bfExec_cons_plain BF.dec rfl]
    have hh : (bfStep BF.dec s).tape (bfStep BF.dec s).head = v := by
      show Function.update s.tape s.head ((s.tape s.head + 255) % 256) s.head = v
      rw [Function.update_same, hv,
        show v + 1 + 255 = v + 256 from by omega, Nat.add_mod_right,
        Nat.mod_eq_of_lt (by omega)]
    rw [show (BF.loop [BF.dec] : BF) = clearLoop from rfl,
      clearLoop_exec v f k (bfStep BF.dec s) hh (by omega)]
    congr 1
    show BFState.mk (Function.update (Function.update s.tape s.head ((s.tape s.head + 255) % 256)) s.head 0) s.head s.input s.output = BFState.mk (Function.update s.tape s.head 0) s.head s.input s.output
    rw [Function.update_idem]

/-- Body of the backend's one-target drain loops: walk to `b`, bump it,
walk back to `a`, decrement.  `op` is `+` for the copy drain-back and for
ADD, `-` for SUB. -/
def xferBody (a b : Int) (op : BF) : List BF :=
  moveOps (b - a) ++ op :: (moveOps (a - b) ++ [.dec])

def xferLoop (a b : Int) (op : BF) : BF := .loop (xferBody a b op)

theorem xferLoop_exec (op : BF) (u : Nat)
    (hu : (op = BF.inc ∧ u = 1) ∨ (op = BF.dec ∧ u = 255)) :
    ∀ (v f : Nat) (k : List BF) (t : Int → Nat) (a b : Int) (i o : List Nat),
    b ≠ a → t a = v → v < 256 → t b < 256 →
    bfExec (v + f) (xferLoop a b op :: k) (BFState.mk t a i o) =
      bfExec f k (BFState.mk (Function.update (Function.update t b ((t b + u * v) % 256)) a 0) a i o)
  | 0, f, k, t, a, b, i, o, hba, hv, hvlt, hb => by
    rw [xferLoop, bfExec.eq_def]
    dsimp only
    rw [if_pos hv]
    have h1 : (t b + u * 0) % 256 = t b := by
      rw [Nat.mul_zero, Nat.add_zero, Nat.mod_eq_of_lt hb]
    have h2 : Function.update t a 0 = t := by
      rw [← hv]
      exact Function.update_eq_self _ _
    rw [h1, Function.update_eq_self, h2, Nat.zero_add]
  | v + 1, f, k, t, a, b, i, o, hba, hv, hvlt, hb => by
    have hplain : plainBF op = true := by
      rcases hu with ⟨h, _⟩ | ⟨h, _⟩ <;> subst h <;> rfl
    have hstep : ∀ (t' : Int → Nat) (h' : Int) (i' o' : List Nat),
        bfStep op (BFState.mk t' h' i' o') =
          BFState.mk (Function.update t' h' ((t' h' + u) % 256)) h' i' o' := by
      rcases hu with ⟨h, h2⟩ | ⟨h, h2⟩ <;> subst h <;> subst h2 <;>
        intro t' h' i' o' <;> rfl
    rw [xferLoop, bfExec.eq_def]
    dsimp only
    rw [if_neg (by omega : ¬ t a = 0)]
    rw [dif_neg (by omega : ¬ (v + 1 + f = 0))]
    rw [show v + 1 + f - 1 = v + f from by omega]
    have hlist : xferBody a b op ++ BF.loop (xferBody a b op) :: k =
        moveOps (b - a) ++ (op :: (moveOps (a - b) ++ (BF.dec :: (BF.loop (xferBody a b op) :: k)))) := by
      simp [xferBody, List.append_assoc]
    rw [hlist, bfExec_moveOps]
    dsimp only
    rw [show a + (b - a) = b from by omega]
    rw [bfExec_cons_plain op hplain, hstep, bfExec_moveOps]
    dsimp only
    rw [show b + (a - b) = a from by omega]
    rw [bfExec_cons_plain BF.dec rfl]
    rw [show ∀ (t' : Int → Nat) (h' : Int) (i' o' : List Nat),
        bfStep BF.dec (BFState.mk t' h' i' o') =
          BFState.mk (Function.update t' h' ((t' h' + 255) % 256)) h' i' o'
      from fun _ _ _ _ => rfl]
    have hTa : Function.update t b ((t b + u) % 256) a = t a :=
      Function.update_noteq (Ne.symm hba) _ _
    rw [show (Function.update t b ((t b + u) % 256) a + 255) % 256 = v from by
      rw [hTa, hv, show v + 1 + 255 = v + 256 from by omega, Nat.add_mod_right,
        Nat.mod_eq_of_lt (by omega)]]
    rw [show (BF.loop (xferBody a b op) : BF) = xferLoop a b op from rfl]
    rw [xferLoop_exec op u hu v f k _ a b i o hba
      (Function.update_same a v _)
      (by omega)
      (by rw [Function.update_noteq hba _ _, Function.update_same]
          exact Nat.mod_lt _ (by omega))]
    refine congrArg (bfExec f k) ?_
    refine congrArg (fun tp => BFState.mk tp a i o) ?_
    funext x
    by_cases hxa : x = a
    · subst hxa
      simp only [Function.update_same]
    · simp only [Function.update_noteq hxa]
      by_cases hxb : x = b
      · subst hxb
        simp only [Function.update_noteq hba, Function.update_same, Nat.mod_add_mod]
        rw [show t x + u + u * v = t x + u * (v + 1) from by rw [Nat.mul_succ]; omega]
      · simp only [Function.update_noteq hxb, Function.update_noteq hxa]

/-- Body of the copy macro's first loop: walk to `b`, bump it, walk to
`c`, bump it, walk back to `a`, decrement. -/
def xfer2Body (a b c : Int) : List BF :=
  moveOps (b - a) ++ .inc :: (moveOps (c - b) ++ .inc :: (moveOps (a - c) ++ [.dec]))

def xfer2Loop (a b c : Int) : BF := .loop (xfer2Body a b c)

theorem xfer2Loop_exec : ∀ (v f : Nat) (k : List BF) (t : Int → Nat)
    (a b c : Int) (i o : List Nat),
    b ≠ a → c ≠ a → c ≠ b →
    t a = v → v < 256 → t b < 256 → t c < 256 →
    bfExec (v + f) (xfer2Loop a b c :: k) (BFState.mk t a i o) =
      bfExec f k (BFState.mk (Function.update (Function.update (Function.update t b ((t b + v) % 256)) c ((t c + v) % 256)) a 0) a i o)
  | 0, f, k, t, a, b, c, i, o, hba, hca, hcb, hv, hvlt, hb, hc => by
    rw [xfer2Loop, bfExec.eq_def]
    dsimp only
    rw [if_pos hv]
    rw [show (t b + 0) % 256 = t b from by rw [Nat.add_zero, Nat.mod_eq_of_lt hb],
      Function.update_eq_self]
    rw [show (t c + 0) % 256 = t c from by rw [Nat.add_zero, Nat.mod_eq_of_lt hc],
      Function.update_eq_self]
    have h2 : Function.update t a 0 = t := by
      rw [← hv]
      exact Function.update_eq_self _ _
    rw [h2, Nat.zero_add]
  | v + 1, f, k, t, a, b, c, i, o, hba, hca, hcb, hv, hvlt, hb, hc => by
    have hinc : ∀ (t' : Int → Nat) (h' : Int) (i' o' : List Nat),
        bfStep BF.inc (BFState.mk t' h' i' o') =
          BFState.mk (Function.update t' h' ((t' h' + 1) % 256)) h' i' o' :=
      fun _ _ _ _ => rfl
    have hdec : ∀ (t' : Int → Nat) (h' : Int) (i' o' : List Nat),
        bfStep BF.dec (BFState.mk t' h' i' o') =
          BFState.mk (Function.update t' h' ((t' h' + 255) % 256)) h' i' o' :=
      fun _ _ _ _ => rfl
    rw [xfer2Loop, bfExec.eq_def]
    dsimp only
    rw [if_neg (by omega : ¬ t a = 0)]
    rw [dif_neg (by omega : ¬ (v + 1 + f = 0))]
    rw [show v + 1 + f - 1 = v + f from by omega]
    have hlist : xfer2Body a b c ++ BF.loop (xfer2Body a b c) :: k =
        moveOps (b - a) ++ (BF.inc :: (moveOps (c - b) ++ (BF.inc :: (moveOps (a - c) ++ (BF.dec :: (BF.loop (xfer2Body a b c) :: k)))))) := by
      simp [xfer2Body, List.append_assoc]
    rw [hlist, bfExec_moveOps]
    dsimp only
    rw [show a + (b - a) = b from by omega]
    rw [bfExec_cons_plain BF.inc rfl, hinc, bfExec_moveOps]
    dsimp only
    rw [show b + (c - b) = c from by omega]
    rw [bfExec_cons_plain BF.inc rfl, hinc, bfExec_moveOps]
    dsimp only
    rw [show c + (a - c) = a from by omega]
    rw [bfExec_cons_plain BF.dec rfl, hdec]
    rw [show Function.update (Function.update t b ((t b + 1) % 256)) c ((Function.update t b ((t b + 1) % 256) c + 1) % 256) a = t a from by
      rw [Function.update_noteq (Ne.symm hca), Function.update_noteq (Ne.symm hba)]]
    rw [show (t a + 255) % 256 = v from by
      rw [hv, show v + 1 + 255 = v + 256 from by omega, Nat.add_mod_right,
        Nat.mod_eq_of_lt (by omega)]]
    rw [show (BF.loop (xfer2Body a b c) : BF) = xfer2Loop a b c from rfl]
    rw [xfer2Loop_exec v f k _ a b c i o hba hca hcb
      (Function.update_same a v _)
      (by omega)
      (by rw [Function.update_noteq hba _ _, Function.update_noteq (Ne.symm hcb) _ _,
            Function.update_same]
          exact Nat.mod_lt _ (by omega))
      (by rw [Function.update_noteq hca _ _, Function.update_same]
          exact Nat.mod_lt _ (by omega))]
    refine congrArg (bfExec f k) ?_
    refine congrArg (fun tp => BFState.mk tp a i o) ?_
    funext x
    by_cases hxa : x = a
    · subst hxa
      simp only [Function.update_same]
    · simp only [Function.update_noteq hxa]
      by_cases hxb : x = b
      · subst hxb
        simp only [Function.update_noteq hba, Function.update_noteq (Ne.symm hcb),
          Function.update_same, Nat.mod_add_mod]
        rw [show t x + 1 + v = t x + (v + 1) from by omega]
      · by_cases hxc : x = c
        · subst hxc
          simp only [Function.update_noteq hca, Function.update_noteq hcb,
            Function.update_same, Nat.mod_add_mod]
          rw [show t x + 1 + v = t x + (v + 1) from by omega]
        · simp only [Function.update_noteq hxa, Function.update_noteq hxb,
            Function.update_noteq hxc]

theorem flatBLC_replicate_right : ∀ n : Nat,
    flatBLC (List.replicate n .right) = List.replicate n '>'
  | 0 => rfl
  | n + 1 => by
    rw [List.replicate_succ, List.replicate_succ]
    show '>' :: flatBLC (List.replicate n .right) = '>' :: List.replicate n '>'
    rw [flatBLC_replicate_right n]

theorem flatBLC_replicate_left : ∀ n : Nat,
    flatBLC (List.replicate n .left) = List.replicate n '<'
  | 0 => rfl
  | n + 1 => by
    rw [List.replicate_succ, List.replicate_succ]
    show '<' :: flatBLC (List.replicate n .left) = '<' :: List.replicate n '<'
    rw [flatBLC_replicate_left n]

theorem move_to_data (cell cur : Int) :
    (move_to cell cur).1.data = flatBLC (moveOps (cell - cur)) := by
  unfold move_to moveOps
  by_cases h : cell > cur
  · rw [if_pos h, if_pos (by omega : cell - cur > 0), flatBLC_replicate_right]
    rfl
  · rw [if_neg h, if_neg (by omega : ¬ cell - cur > 0), flatBLC_replicate_left]
    show (List.replicate (cur - cell).toNat '<') = _
    rw [show (-(cell - cur)) = cur - cell from by ring]

theorem move_offset_data (off cur : Int) :
    (move_offset off cur).1.data = flatBLC (moveOps off) := by
  unfold move_offset moveOps
  by_cases h : off > 0
  · rw [if_pos h, if_pos h, flatBLC_replicate_right]
    rfl
  · rw [if_neg h, if_neg h, flatBLC_replicate_left]
    rfl

/-- Structured form of the BF text `_copy_value` emits. -/
def copyTrees (source destination cur : Int) : List BF :=
  moveOps (2 - cur) ++ clearLoop ::
    (moveOps (destination - 2) ++ clearLoop ::
      (moveOps (source - destination) ++ xfer2Loop source destination 2 ::
        (moveOps (2 - source) ++ [xferLoop 2 source BF.inc])))

theorem copy_value_cursor (source destination cur : Int) :
    (copy_value source destination cur).2 = 2 := by
  show 2 + (source - 2) + (2 - source) = 2
  ring

theorem copy_value_data (source destination cur : Int) :
    (copy_value source destination cur).1.data =
      flatBLC (copyTrees source destination cur) := by
  show ((move_to 2 cur).1 ++ "[-]" ++ ((move_to destination 2).1 ++ "[-]") ++ (move_to source destination).1 ++ "[" ++ (move_offset (destination - source) source).1 ++ "+" ++ (move_offset (2 - destination) (source + (destination - source))).1 ++ "+" ++ (move_offset (source - 2) (source + (destination - source) + (2 - destination))).1 ++ "-]" ++ (move_to 2 (source + (destination - source) + (2 - destination) + (source - 2))).1 ++ "[" ++ (move_offset (source - 2) 2).1 ++ "+" ++ (move_offset (2 - source) (2 + (source - 2))).1 ++ "-]").data = flatBLC (copyTrees source destination cur)
  simp only [String.data_append]
  rw [move_to_data, move_to_data, move_to_data, move_to_data,
    move_offset_data, move_offset_data, move_offset_data, move_offset_data,
    move_offset_data]
  simp only [copyTrees, clearLoop, xfer2Loop, xfer2Body, xferLoop, xferBody,
    flatBLC_append, flatBLC, flatBT, List.append_assoc, List.cons_append,
    List.nil_append, List.append_nil]
  rw [show (2 : Int) - (source + (destination - source) + (2 - destination) + (source - 2)) = 2 - source from by ring]

theorem bfExec_moveOps_mk (f : Nat) (off : Int) (k : List BF) (t : Int → Nat)
    (h : Int) (i o : List Nat) :
    bfExec f (moveOps off ++ k) (BFState.mk t h i o) =
      bfExec f k (BFState.mk t (h + off) i o) :=
  bfExec_moveOps f off k (BFState.mk t h i o)

theorem clearLoop_exec_mk (v f : Nat) (k : List BF) (t : Int → Nat) (h : Int)
    (i o : List Nat) (hv : t h = v) (hlt : v < 256) :
    bfExec (v + f) (clearLoop :: k) (BFState.mk t h i o) =
      bfExec f k (BFState.mk (Function.update t h 0) h i o) :=
  clearLoop_exec v f k (BFState.mk t h i o) hv hlt

/-- Final tape of the copy macro: the destination holds the source value,
TEMP is drained to 0, the source is restored, everything else is kept. -/
def copyTape (t : Int → Nat) (source destination : Int) : Int → Nat :=
  fun x => if x = 2 then 0
    else if x = source then t source
    else if x = destination then t source
    else t x

theorem copyTrees_exec (source destination cur : Int)
    (hsd : source ≠ destination) (hs2 : source ≠ 2) (hd2 : destination ≠ 2)
    (t : Int → Nat) (ht : ∀ x, t x < 256) (f : Nat) (k : List BF)
    (i o : List Nat) :
    bfExec (t 2 + (t destination + (t source + (t source + f))))
      (copyTrees source destination cur ++ k) (BFState.mk t cur i o) =
      bfExec f k (BFState.mk (copyTape t source destination) 2 i o) := by
  have hlist : copyTrees source destination cur ++ k =
      moveOps (2 - cur) ++ (clearLoop :: (moveOps (destination - 2) ++ (clearLoop :: (moveOps (source - destination) ++ (xfer2Loop source destination 2 :: (moveOps (2 - source) ++ (xferLoop 2 source BF.inc :: k))))))) := by
    simp [copyTrees, List.append_assoc]
  rw [hlist, bfExec_moveOps_mk, show cur + (2 - cur) = 2 from by ring]
  rw [clearLoop_exec_mk (t 2) _ _ t 2 i o rfl (ht 2)]
  rw [bfExec_moveOps_mk, show (2 : Int) + (destination - 2) = destination from by ring]
  rw [clearLoop_exec_mk (t destination) _ _ _ destination i o
    (Function.update_noteq hd2 _ _) (ht destination)]
  rw [bfExec_moveOps_mk, show destination + (source - destination) = source from by ring]
  rw [xfer2Loop_exec (t source) _ _ _ source destination 2 i o
    (Ne.symm hsd) (Ne.symm hs2) (Ne.symm hd2)
    (by rw [Function.update_noteq hsd, Function.update_noteq hs2])
    (ht source)
    (by rw [Function.update_same]; omega)
    (by rw [Function.update_noteq (Ne.symm hd2), Function.update_same]; omega)]
  rw [bfExec_moveOps_mk, show source + (2 - source) = 2 from by ring]
  rw [xferLoop_exec BF.inc 1 (Or.inl ⟨rfl, rfl⟩) (t source) f k _ 2 source i o
    hs2
    (by rw [Function.update_noteq (Ne.symm hs2), Function.update_same,
          Function.update_noteq (Ne.symm hd2), Function.update_same,
          Nat.zero_add, Nat.mod_eq_of_lt (ht source)])
    (ht source)
    (by rw [Function.update_same]; omega)]
  refine congrArg (bfExec f k) ?_
  refine congrArg (fun tp => BFState.mk tp 2 i o) ?_
  funext x
  show _ = copyTape t source destination x
  unfold copyTape
  by_cases hx2 : x = 2
  · subst hx2
    rw [Function.update_same, if_pos rfl]
  · rw [Function.update_noteq hx2, if_neg hx2]
    by_cases hxs : x = source
    · subst hxs
      rw [Function.update_same, Function.update_same, Nat.zero_add, Nat.one_mul,
        Nat.mod_eq_of_lt (ht x), if_pos rfl]
    · rw [Function.update_noteq hxs, Function.update_noteq hxs,
        Function.update_noteq hx2, if_neg hxs]
      by_cases hxd : x = destination
      · subst hxd
        rw [Function.update_same, Function.update_same, Nat.zero_add,
          Nat.mod_eq_of_lt (ht source), if_pos rfl]
      · rw [Function.update_noteq hxd, Function.update_noteq hxd,
          Function.update_noteq hx2, if_neg hxd]

theorem copyTape_lt (t : Int → Nat) (source destination : Int)
    (ht : ∀ x, t x < 256) : ∀ x, copyTape t source destination x < 256 := by
  intro x
  unfold copyTape
  split
  · omega
  · split
    · exact ht source
    · split
      · exact ht source
      · exact ht x

theorem parseBF_copy_value (source destination cur : Int) :
    parseBF (copy_value source destination cur).1 =
      some (copyTrees source destination cur) := by
  show matchBFAux (copy_value source destination cur).1.data [[]] = _
  rw [copy_value_data]
  exact parseBF_flatBLC (copyTrees source destination cur)

/-- C5 counterexample: copying cell 3 to cell 0 from cursor 0 on a tape
with 5 in cell 3 does copy the value and restore the source, but leaves
the compile-time cursor and the runtime head at TEMP = 2, not at the
source cell 3. -/
theorem C5_counterexample_head_at_temp :
    (copy_value 3 0 0).2 = 2 ∧
      ∃ s', bfRun 10 (copy_value 3 0 0).1
          (BFState.mk (fun x => if x = 3 then 5 else 0) 0 [] []) = some s' ∧
        s'.head = 2 ∧ s'.tape 0 = 5 ∧ s'.tape 3 = 5 ∧ ¬ s'.head = 3 := by
  constructor
  · rfl
  · refine ⟨BFState.mk (copyTape (fun x => if x = 3 then 5 else 0) 3 0) 2 [] [], ?_, rfl, by decide, by decide, by decide⟩
    show (match parseBF (copy_value 3 0 0).1 with
      | none => none
      | some prog => bfExec 10 prog (BFState.mk (fun x => if x = 3 then 5 else 0) 0 [] [])) = _
    rw [parseBF_copy_value]
    show bfExec 10 (copyTrees 3 0 0) _ = _
    rw [show (copyTrees 3 0 0 : List BF) = copyTrees 3 0 0 ++ [] from (List.append_nil _).symm]
    have hrun := copyTrees_exec 3 0 0 (by decide) (by decide) (by decide)
      (fun x => if x = 3 then 5 else 0) (fun x => by dsimp only; split <;> decide)
      0 [] [] []
    rw [show (10 : Nat) = (fun x : Int => if x = 3 then 5 else 0) 2 + ((fun x : Int => if x = 3 then 5 else 0) 0 + ((fun x : Int => if x = 3 then 5 else 0) 3 + ((fun x : Int => if x = 3 then 5 else 0) 3 + 0))) from by decide]
    rw [hrun]
    simp only [bfExec]

/-- C5 (amended): for a source and destination distinct from each other
and from TEMP = 2, the emitted BF copies the source value to the
destination non-destructively (the source is restored via TEMP and TEMP
ends at 0), but after the drain-back loop the compile-time cursor and the
runtime head both sit at TEMP (cell 2), not at the source. -/
theorem C5_amended_copy_semantics (source destination cur : Int)
    (hsd : source ≠ destination) (hs2 : source ≠ 2) (hd2 : destination ≠ 2)
    (t : Int → Nat) (ht : ∀ x, t x < 256) (i o : List Nat) :
    (copy_value source destination cur).2 = 2 ∧
      ∃ fuel s', bfRun fuel (copy_value source destination cur).1
          (BFState.mk t cur i o) = some s' ∧
        s'.head = 2 ∧ s'.tape source = t source ∧
        s'.tape destination = t source ∧ s'.tape 2 = 0 ∧
        (∀ x, x ≠ source → x ≠ destination → x ≠ 2 → s'.tape x = t x) ∧
        s'.input = i ∧ s'.output = o := by
  refine ⟨copy_value_cursor source destination cur,
    t 2 + (t destination + (t source + (t source + 0))),
    BFState.mk (copyTape t source destination) 2 i o, ?_, rfl, ?_, ?_, ?_, ?_, rfl, rfl⟩
  · have hp := parseBF_copy_value source destination cur
    simp only [bfRun, hp]
    rw [show copyTrees source destination cur = copyTrees source destination cur ++ [] from (List.append_nil _).symm]
    rw [copyTrees_exec source destination cur hsd hs2 hd2 t ht 0 [] i o]
    simp only [bfExec]
  · show copyTape t source destination source = t source
    unfold copyTape
    rw [if_neg hs2, if_pos rfl]
  · show copyTape t source destination destination = t source
    unfold copyTape
    rw [if_neg hd2, if_neg (Ne.symm hsd), if_pos rfl]
  · show copyTape t source destination 2 = 0
    unfold copyTape
    rw [if_pos rfl]
  · intro x hxs hxd hx2
    show copyTape t source destination x = t x
    unfold copyTape
    rw [if_neg hx2, if_neg hxs, if_neg hxd]

theorem C5_amended_copy_semantics_witness :
    (copy_value 4 3 0).2 = 2 ∧
      ∃ fuel s', bfRun fuel (copy_value 4 3 0).1
          (BFState.mk (fun _ => 0) 0 [] []) = some s' ∧
        s'.head = 2 ∧ s'.tape 4 = (fun _ : Int => (0 : Nat)) 4 ∧
        s'.tape 3 = (fun _ : Int => (0 : Nat)) 4 ∧ s'.tape 2 = 0 ∧
        (∀ x, x ≠ 4 → x ≠ 3 → x ≠ 2 → s'.tape x = (fun _ : Int => (0 : Nat)) x) ∧
        s'.input = [] ∧ s'.output = [] :=
  C5_amended_copy_semantics 4 3 0 (by decide) (by decide) (by decide)
    (fun _ => 0) (fun _ => Nat.zero_lt_succ 255) [] []

theorem runBFActs_replicate_inc : ∀ (n : Nat) (t : Int → Nat) (h : Int)
    (i o : List Nat), t h < 256 →
    runBFActs (List.replicate n .inc) (BFState.mk t h i o) =
      BFState.mk (Function.update t h ((t h + n) % 256)) h i o
  | 0, t, h, i, o, hlt => by
    show BFState.mk t h i o = _
    rw [Nat.add_zero, Nat.mod_eq_of_lt hlt, Function.update_eq_self]
  | n + 1, t, h, i, o, hlt => by
    rw [List.replicate_succ]
    show runBFActs (List.replicate n .inc) (bfStep .inc (BFState.mk t h i o)) = _
    rw [show bfStep BF.inc (BFState.mk t h i o) =
        BFState.mk (Function.update t h ((t h + 1) % 256)) h i o from rfl]
    rw [runBFActs_replicate_inc n _ h i o
      (by rw [Function.update_same]; exact Nat.mod_lt _ (by omega))]
    rw [Function.update_same, Function.update_idem, Nat.mod_add_mod,
      show t h + 1 + n = t h + (n + 1) from by omega]

theorem replicate_inc_plain (n : Nat) :
    (List.replicate n BF.inc).all plainBF = true := by
  simp only [List.all_eq_true]
  intro x hx
  rw [List.eq_of_mem_replicate hx]
  rfl

/-- Byte subtraction through 255 repeated decrements. -/
theorem mod_dec_eq_sub256 (a b : Nat) (hb : b < 256) :
    (a + 255 * b) % 256 = sub256 a b := by
  unfold sub256
  rcases Nat.eq_zero_or_pos b with hb0 | hb1
  · subst hb0
    rw [Nat.mul_zero, Nat.add_zero, show a + 256 - 0 = a + 256 from by omega,
      Nat.add_mod_right]
  · rw [show a + 255 * b = (a + 256 - b) + (b - 1) * 256 from by omega,
      Nat.add_mul_mod_self_right]

/-! ## Per-instruction backend emission at the IR alphabet level

`emitInstr` is the handler suite of `instruction_set_parser.py` applied
to an already-tokenised instruction whose operand is the (nonnegative)
integer the lowerer wrote: `_handle_load_immediate`, `_handle_load_memory`,
`_handle_store`, `_handle_arithmetic`, `_handle_loop_start/end`,
`_handle_input/output`, with `address = operand + memory_offset` and
comment lines skipped by the parse loop. -/
def emitInstr : Instr → Int → String × Int
  | .loadAImm n, cur =>
    let (m, c) := move_to 0 cur
    (m ++ "[-]" ++ repChar n '+', c)
  | .loadBImm n, cur =>
    let (m, c) := move_to 1 cur
    (m ++ "[-]" ++ repChar n '+', c)
  | .loadAMem a, cur => copy_value ((a : Int) + 3) 0 cur
  | .loadBMem a, cur => copy_value ((a : Int) + 3) 1 cur
  | .storeA a, cur => copy_value 0 ((a : Int) + 3) cur
  | .storeB a, cur => copy_value 1 ((a : Int) + 3) cur
  | .add, cur =>
    let (m, c1) := move_to 1 cur
    let (o1, c2) := move_offset (0 - 1) c1
    let (o2, c3) := move_offset (1 - 0) c2
    (m ++ "[" ++ o1 ++ "+" ++ o2 ++ "-]", c3)
  | .sub, cur =>
    let (m, c1) := move_to 1 cur
    let (o1, c2) := move_offset (0 - 1) c1
    let (o2, c3) := move_offset (1 - 0) c2
    (m ++ "[" ++ o1 ++ "-" ++ o2 ++ "-]", c3)
  | .inA, cur =>
    let (m, c) := move_to 0 cur
    (m ++ ",", c)
  | .inB, cur =>
    let (m, c) := move_to 1 cur
    (m ++ ",", c)
  | .outA, cur =>
    let (m, c) := move_to 0 cur
    (m ++ ".", c)
  | .outB, cur =>
    let (m, c) := move_to 1 cur
    (m ++ ".", c)
  | .loopStart, cur =>
    let (m, c) := move_to 0 cur
    (m ++ "[", c)
  | .loopEnd, cur =>
    let (m, c) := move_to 0 cur
    (m ++ "]", c)
  | .comment _, cur => ("", cur)

/-- Structured BF for each non-bracket instruction. -/
def emitTrees : Instr → Int → List BF × Int
  | .loadAImm n, cur => (moveOps (0 - cur) ++ clearLoop :: List.replicate n .inc, 0)
  | .loadBImm n, cur => (moveOps (1 - cur) ++ clearLoop :: List.replicate n .inc, 1)
  | .loadAMem a, cur => (copyTrees ((a : Int) + 3) 0 cur, 2)
  | .loadBMem a, cur => (copyTrees ((a : Int) + 3) 1 cur, 2)
  | .storeA a, cur => (copyTrees 0 ((a : Int) + 3) cur, 2)
  | .storeB a, cur => (copyTrees 1 ((a : Int) + 3) cur, 2)
  | .add, cur => (moveOps (1 - cur) ++ [xferLoop 1 0 .inc], 1)
  | .sub, cur => (moveOps (1 - cur) ++ [xferLoop 1 0 .dec], 1)
  | .inA, cur => (moveOps (0 - cur) ++ [.inp], 0)
  | .inB, cur => (moveOps (1 - cur) ++ [.inp], 1)
  | .outA, cur => (moveOps (0 - cur) ++ [.out], 0)
  | .outB, cur => (moveOps (1 - cur) ++ [.out], 1)
  | .loopStart, _ => ([], 0)
  | .loopEnd, _ => ([], 0)
  | .comment _, cur => ([], cur)

theorem flatBLC_replicate_inc : ∀ n : Nat,
    flatBLC (List.replicate n .inc) = List.replicate n '+'
  | 0 => rfl
  | n + 1 => by
    rw [List.replicate_succ, List.replicate_succ]
    show '+' :: flatBLC (List.replicate n .inc) = '+' :: List.replicate n '+'
    rw [flatBLC_replicate_inc n]

/-- For every non-bracket instruction, the handler's text is the flattening
of its structured BF and the threaded cursors agree. -/
theorem emitInstr_data (i : Instr) (cur : Int)
    (hs : i ≠ .loopStart) (he : i ≠ .loopEnd) :
    (emitInstr i cur).1.data = flatBLC (emitTrees i cur).1 ∧
      (emitInstr i cur).2 = (emitTrees i cur).2 := by
  cases i with
  | loadAImm n =>
    constructor
    · show ((move_to 0 cur).1 ++ "[-]" ++ repChar n '+').data = _
      simp only [String.data_append]
      rw [move_to_data]
      show _ = flatBLC (moveOps (0 - cur) ++ clearLoop :: List.replicate n .inc)
      rw [flatBLC_append]
      show _ = flatBLC (moveOps (0 - cur)) ++ (flatBT clearLoop ++ flatBLC (List.replicate n .inc))
      rw [flatBLC_replicate_inc,
        show flatBT clearLoop = ['[', '-', ']'] from rfl,
        show (repChar n '+').data = List.replicate n '+' from rfl,
        List.append_assoc]
    · rfl
  | loadBImm n =>
    constructor
    · show ((move_to 1 cur).1 ++ "[-]" ++ repChar n '+').data = _
      simp only [String.data_append]
      rw [move_to_data]
      show _ = flatBLC (moveOps (1 - cur) ++ clearLoop :: List.replicate n .inc)
      rw [flatBLC_append]
      show _ = flatBLC (moveOps (1 - cur)) ++ (flatBT clearLoop ++ flatBLC (List.replicate n .inc))
      rw [flatBLC_replicate_inc,
        show flatBT clearLoop = ['[', '-', ']'] from rfl,
        show (repChar n '+').data = List.replicate n '+' from rfl,
        List.append_assoc]
    · rfl
  | loadAMem a => exact ⟨copy_value_data _ _ _, copy_value_cursor _ _ _⟩
  | loadBMem a => exact ⟨copy_value_data _ _ _, copy_value_cursor _ _ _⟩
  | storeA a => exact ⟨copy_value_data _ _ _, copy_value_cursor _ _ _⟩
  | storeB a => exact ⟨copy_value_data _ _ _, copy_value_cursor _ _ _⟩
  | add =>
    constructor
    · show ((move_to 1 cur).1 ++ "[" ++ (move_offset (0 - 1) 1).1 ++ "+" ++ (move_offset (1 - 0) (1 + (0 - 1))).1 ++ "-]").data = _
      simp only [String.data_append]
      rw [move_to_data, move_offset_data, move_offset_data]
      show _ = flatBLC (moveOps (1 - cur) ++ [xferLoop 1 0 BF.inc])
      rw [flatBLC_append]
      simp only [xferLoop, xferBody, flatBLC, flatBT, flatBLC_append,
        List.append_assoc, List.cons_append, List.nil_append, List.append_nil]
    · show (1 : Int) + (0 - 1) + (1 - 0) = 1
      ring
  | sub =>
    constructor
    · show ((move_to 1 cur).1 ++ "[" ++ (move_offset (0 - 1) 1).1 ++ "-" ++ (move_offset (1 - 0) (1 + (0 - 1))).1 ++ "-]").data = _
      simp only [String.data_append]
      rw [move_to_data, move_offset_data, move_offset_data]
      show _ = flatBLC (moveOps (1 - cur) ++ [xferLoop 1 0 BF.dec])
      rw [flatBLC_append]
      simp only [xferLoop, xferBody, flatBLC, flatBT, flatBLC_append,
        List.append_assoc, List.cons_append, List.nil_append, List.append_nil]
    · show (1 : Int) + (0 - 1) + (1 - 0) = 1
      ring
  | inA =>
    refine ⟨?_, rfl⟩
    show ((move_to 0 cur).1 ++ ",").data = _
    simp only [String.data_append]
    rw [move_to_data]
    show _ = flatBLC (moveOps (0 - cur) ++ [BF.inp])
    rw [flatBLC_append]
    rfl
  | inB =>
    refine ⟨?_, rfl⟩
    show ((move_to 1 cur).1 ++ ",").data = _
    simp only [String.data_append]
    rw [move_to_data]
    show _ = flatBLC (moveOps (1 - cur) ++ [BF.inp])
    rw [flatBLC_append]
    rfl
  | outA =>
    refine ⟨?_, rfl⟩
    show ((move_to 0 cur).1 ++ ".").data = _
    simp only [String.data_append]
    rw [move_to_data]
    show _ = flatBLC (moveOps (0 - cur) ++ [BF.out])
    rw [flatBLC_append]
    rfl
  | outB =>
    refine ⟨?_, rfl⟩
    show ((move_to 1 cur).1 ++ ".").data = _
    simp only [String.data_append]
    rw [move_to_data]
    show _ = flatBLC (moveOps (1 - cur) ++ [BF.out])
    rw [flatBLC_append]
    rfl
  | loopStart => exact absurd rfl hs
  | loopEnd => exact absurd rfl he
  | comment c => exact ⟨rfl, rfl⟩

/-- Abstraction relation of the compilation scheme: cell 0 is REG_A,
cell 1 is REG_B, cell `a + 3` is memory address `a`, and every cell is a
byte. -/
def relate (ir : IRState) (t : Int → Nat) : Prop :=
  t 0 = ir.regA ∧ t 1 = ir.regB ∧
    (∀ a : Nat, t ((a : Int) + 3) = ir.mem a) ∧ (∀ x, t x < 256)

theorem takeInput_fst_lt (s : IRState) : (takeInput s).1 < 256 := by
  unfold takeInput
  cases hsi : s.input with
  | nil => decide
  | cons x rest => exact Nat.mod_lt _ (by omega)

theorem emitTrees_sim (i : Instr) (hs : i ≠ .loopStart) (he : i ≠ .loopEnd)
    (cur : Int) (ir : IRState) (t : Int → Nat) (hrel : relate ir t) :
    ∃ (V : Nat) (T : Int → Nat),
      (∀ (f : Nat) (k : List BF),
        bfExec (V + f) ((emitTrees i cur).1 ++ k)
            (BFState.mk t cur ir.input ir.output) =
          bfExec f k (BFState.mk T (emitTrees i cur).2
            (irStep i ir).input (irStep i ir).output)) ∧
      relate (irStep i ir) T := by
  obtain ⟨h0, h1, hm, hb⟩ := hrel
  cases i with
  | comment c =>
    refine ⟨0, t, fun f k => ?_, h0, h1, hm, hb⟩
    rw [Nat.zero_add]
    rfl
  | outA =>
    refine ⟨0, t, fun f k => ?_, h0, h1, hm, hb⟩
    rw [Nat.zero_add]
    show bfExec f ((moveOps (0 - cur) ++ [BF.out]) ++ k) _ = _
    rw [List.append_assoc, List.singleton_append, bfExec_moveOps_mk,
      show cur + (0 - cur) = 0 from by ring, bfExec_cons_plain BF.out rfl]
    rw [show bfStep BF.out (BFState.mk t 0 ir.input ir.output) =
      BFState.mk t 0 ir.input (ir.output ++ [t 0]) from rfl, h0]
    rfl
  | outB =>
    refine ⟨0, t, fun f k => ?_, h0, h1, hm, hb⟩
    rw [Nat.zero_add]
    show bfExec f ((moveOps (1 - cur) ++ [BF.out]) ++ k) _ = _
    rw [List.append_assoc, List.singleton_append, bfExec_moveOps_mk,
      show cur + (1 - cur) = 1 from by ring, bfExec_cons_plain BF.out rfl]
    rw [show bfStep BF.out (BFState.mk t 1 ir.input ir.output) =
      BFState.mk t 1 ir.input (ir.output ++ [t 1]) from rfl, h1]
    rfl
  | inA =>
    refine ⟨0, Function.update t 0 (takeInput ir).1, fun f k => ?_, ?_, ?_, ?_, ?_⟩
    · rw [Nat.zero_add]
      show bfExec f ((moveOps (0 - cur) ++ [BF.inp]) ++ k) _ = _
      rw [List.append_assoc, List.singleton_append, bfExec_moveOps_mk,
        show cur + (0 - cur) = 0 from by ring, bfExec_cons_plain BF.inp rfl]
      rfl
    · rw [Function.update_same]
      rfl
    · rw [Function.update_noteq (by decide : (1 : Int) ≠ 0)]
      exact h1
    · intro a
      rw [Function.update_noteq (by
        have := Int.natCast_nonneg a
        omega : ((a : Int) + 3) ≠ 0)]
      exact hm a
    · intro x
      by_cases hx : x = 0
      · subst hx
        rw [Function.update_same]
        exact takeInput_fst_lt ir
      · rw [Function.update_noteq hx]
        exact hb x
  | inB =>
    refine ⟨0, Function.update t 1 (takeInput ir).1, fun f k => ?_, ?_, ?_, ?_, ?_⟩
    · rw [Nat.zero_add]
      show bfExec f ((moveOps (1 - cur) ++ [BF.inp]) ++ k) _ = _
      rw [List.append_assoc, List.singleton_append, bfExec_moveOps_mk,
        show cur + (1 - cur) = 1 from by ring, bfExec_cons_plain BF.inp rfl]
      rfl
    · rw [Function.update_noteq (by decide : (0 : Int) ≠ 1)]
      exact h0
    · rw [Function.update_same]
      rfl
    · intro a
      rw [Function.update_noteq (by
        have := Int.natCast_nonneg a
        omega : ((a : Int) + 3) ≠ 1)]
      exact hm a
    · intro x
      by_cases hx : x = 1
      · subst hx
        rw [Function.update_same]
        exact takeInput_fst_lt ir
      · rw [Function.update_noteq hx]
        exact hb x
  | add =>
    refine ⟨t 1, Function.update (Function.update t 0 ((t 0 + 1 * t 1) % 256)) 1 0,
      fun f k => ?_, ?_, ?_, ?_, ?_⟩
    · show bfExec (t 1 + f) ((moveOps (1 - cur) ++ [xferLoop 1 0 BF.inc]) ++ k) _ = _
      rw [List.append_assoc, List.singleton_append, bfExec_moveOps_mk,
        show cur + (1 - cur) = 1 from by ring]
      rw [xferLoop_exec BF.inc 1 (Or.inl ⟨rfl, rfl⟩) (t 1) f k t 1 0
        ir.input ir.output (by decide) rfl (hb 1) (hb 0)]
      rfl
    · rw [Function.update_noteq (by decide : (0 : Int) ≠ 1), Function.update_same,
        Nat.one_mul, h0, h1]
      rfl
    · rw [Function.update_same]
      rfl
    · intro a
      have ha3 := Int.natCast_nonneg a
      rw [Function.update_noteq (by omega : ((a : Int) + 3) ≠ 1),
        Function.update_noteq (by omega : ((a : Int) + 3) ≠ 0)]
      exact hm a
    · intro x
      by_cases hx1 : x = 1
      · subst hx1
        rw [Function.update_same]
        omega
      · rw [Function.update_noteq hx1]
        by_cases hx0 : x = 0
        · subst hx0
          rw [Function.update_same]
          exact Nat.mod_lt _ (by omega)
        · rw [Function.update_noteq hx0]
          exact hb x
  | sub =>
    refine ⟨t 1, Function.update (Function.update t 0 ((t 0 + 255 * t 1) % 256)) 1 0,
      fun f k => ?_, ?_, ?_, ?_, ?_⟩
    · show bfExec (t 1 + f) ((moveOps (1 - cur) ++ [xferLoop 1 0 BF.dec]) ++ k) _ = _
      rw [List.append_assoc, List.singleton_append, bfExec_moveOps_mk,
        show cur + (1 - cur) = 1 from by ring]
      rw [xferLoop_exec BF.dec 255 (Or.inr ⟨rfl, rfl⟩) (t 1) f k t 1 0
        ir.input ir.output (by decide) rfl (hb 1) (hb 0)]
      rfl
    · rw [Function.update_noteq (by decide : (0 : Int) ≠ 1), Function.update_same,
        mod_dec_eq_sub256 _ _ (hb 1), h0, h1]
      rfl
    · rw [Function.update_same]
      rfl
    · intro a
      have ha3 := Int.natCast_nonneg a
      rw [Function.update_noteq (by omega : ((a : Int) + 3) ≠ 1),
        Function.update_noteq (by omega : ((a : Int) + 3) ≠ 0)]
      exact hm a
    · intro x
      by_cases hx1 : x = 1
      · subst hx1
        rw [Function.update_same]
        omega
      · rw [Function.update_noteq hx1]
        by_cases hx0 : x = 0
        · subst hx0
          rw [Function.update_same]
          exact Nat.mod_lt _ (by omega)
        · rw [Function.update_noteq hx0]
          exact hb x
  | loopStart => exact absurd rfl hs
  | loopEnd => exact absurd rfl he
  | loadAImm n =>
    refine ⟨t 0, Function.update t 0 (n % 256), fun f k => ?_, ?_, ?_, ?_, ?_⟩
    · show bfExec (t 0 + f) ((moveOps (0 - cur) ++ clearLoop :: List.replicate n .inc) ++ k) _ = _
      rw [List.append_assoc, List.cons_append, bfExec_moveOps_mk,
        show cur + (0 - cur) = 0 from by ring]
      rw [clearLoop_exec_mk (t 0) f _ t 0 ir.input ir.output rfl (hb 0)]
      rw [bfExec_plain_append _ (replicate_inc_plain n) f k]
      rw [runBFActs_replicate_inc n _ 0 ir.input ir.output
        (by rw [Function.update_same]; omega)]
      rw [Function.update_same, Function.update_idem, Nat.zero_add]
      rfl
    · rw [Function.update_same]
      rfl
    · rw [Function.update_noteq (by decide : (1 : Int) ≠ 0)]
      exact h1
    · intro a
      have ha3 := Int.natCast_nonneg a
      rw [Function.update_noteq (by omega : ((a : Int) + 3) ≠ 0)]
      exact hm a
    · intro x
      by_cases hx : x = 0
      · subst hx
        rw [Function.update_same]
        exact Nat.mod_lt _ (by omega)
      · rw [Function.update_noteq hx]
        exact hb x
  | loadBImm n =>
    refine ⟨t 1, Function.update t 1 (n % 256), fun f k => ?_, ?_, ?_, ?_, ?_⟩
    · show bfExec (t 1 + f) ((moveOps (1 - cur) ++ clearLoop :: List.replicate n .inc) ++ k) _ = _
      rw [List.append_assoc, List.cons_append, bfExec_moveOps_mk,
        show cur + (1 - cur) = 1 from by ring]
      rw [clearLoop_exec_mk (t 1) f _ t 1 ir.input ir.output rfl (hb 1)]
      rw [bfExec_plain_append _ (replicate_inc_plain n) f k]
      rw [runBFActs_replicate_inc n _ 1 ir.input ir.output
        (by rw [Function.update_same]; omega)]
      rw [Function.update_same, Function.update_idem, Nat.zero_add]
      rfl
    · rw [Function.update_noteq (by decide : (0 : Int) ≠ 1)]
      exact h0
    · rw [Function.update_same]
      rfl
    · intro a
      have ha3 := Int.natCast_nonneg a
      rw [Function.update_noteq (by omega : ((a : Int) + 3) ≠ 1)]
      exact hm a
    · intro x
      by_cases hx : x = 1
      · subst hx
        rw [Function.update_same]
        exact Nat.mod_lt _ (by omega)
      · rw [Function.update_noteq hx]
        exact hb x
  | loadAMem a =>
    have ha3 := Int.natCast_nonneg a
    refine ⟨t 2 + (t 0 + (t ((a : Int) + 3) + t ((a : Int) + 3))),
      copyTape t ((a : Int) + 3) 0, fun f k => ?_, ?_, ?_, ?_, copyTape_lt t _ _ hb⟩
    · show bfExec (t 2 + (t 0 + (t ((a : Int) + 3) + t ((a : Int) + 3))) + f) (copyTrees ((a : Int) + 3) 0 cur ++ k) (BFState.mk t cur ir.input ir.output) = bfExec f k (BFState.mk (copyTape t ((a : Int) + 3) 0) (emitTrees (Instr.loadAMem a) cur).2 (irStep (Instr.loadAMem a) ir).input (irStep (Instr.loadAMem a) ir).output)
      rw [show t 2 + (t 0 + (t ((a : Int) + 3) + t ((a : Int) + 3))) + f =
        t 2 + (t 0 + (t ((a : Int) + 3) + (t ((a : Int) + 3) + f))) from by omega]
      rw [copyTrees_exec ((a : Int) + 3) 0 cur (by omega) (by omega) (by decide)
        t hb f k ir.input ir.output]
      rfl
    · show copyTape t ((a : Int) + 3) 0 0 = ir.mem a
      unfold copyTape
      rw [if_neg (by decide : (0 : Int) ≠ 2), if_neg (by omega : (0 : Int) ≠ (a : Int) + 3),
        if_pos rfl]
      exact hm a
    · show copyTape t ((a : Int) + 3) 0 1 = ir.regB
      unfold copyTape
      rw [if_neg (by decide : (1 : Int) ≠ 2), if_neg (by omega : (1 : Int) ≠ (a : Int) + 3),
        if_neg (by decide : (1 : Int) ≠ 0)]
      exact h1
    · intro b
      have hb3 := Int.natCast_nonneg b
      show copyTape t ((a : Int) + 3) 0 ((b : Int) + 3) = ir.mem b
      unfold copyTape
      rw [if_neg (by omega : ((b : Int) + 3) ≠ 2)]
      by_cases hab : (b : Int) + 3 = (a : Int) + 3
      · rw [if_pos hab, hm a, show b = a from by omega]
      · rw [if_neg hab, if_neg (by omega : ((b : Int) + 3) ≠ 0)]
        exact hm b
  | loadBMem a =>
    have ha3 := Int.natCast_nonneg a
    refine ⟨t 2 + (t 1 + (t ((a : Int) + 3) + t ((a : Int) + 3))),
      copyTape t ((a : Int) + 3) 1, fun f k => ?_, ?_, ?_, ?_, copyTape_lt t _ _ hb⟩
    · show bfExec (t 2 + (t 1 + (t ((a : Int) + 3) + t ((a : Int) + 3))) + f) (copyTrees ((a : Int) + 3) 1 cur ++ k) (BFState.mk t cur ir.input ir.output) = bfExec f k (BFState.mk (copyTape t ((a : Int) + 3) 1) (emitTrees (Instr.loadBMem a) cur).2 (irStep (Instr.loadBMem a) ir).input (irStep (Instr.loadBMem a) ir).output)
      rw [show t 2 + (t 1 + (t ((a : Int) + 3) + t ((a : Int) + 3))) + f =
        t 2 + (t 1 + (t ((a : Int) + 3) + (t ((a : Int) + 3) + f))) from by omega]
      rw [copyTrees_exec ((a : Int) + 3) 1 cur (by omega) (by omega) (by decide)
        t hb f k ir.input ir.output]
      rfl
    · show copyTape t ((a : Int) + 3) 1 0 = ir.regA
      unfold copyTape
      rw [if_neg (by decide : (0 : Int) ≠ 2), if_neg (by omega : (0 : Int) ≠ (a : Int) + 3),
        if_neg (by decide : (0 : Int) ≠ 1)]
      exact h0
    · show copyTape t ((a : Int) + 3) 1 1 = ir.mem a
      unfold copyTape
      rw [if_neg (by decide : (1 : Int) ≠ 2), if_neg (by omega : (1 : Int) ≠ (a : Int) + 3),
        if_pos rfl]
      exact hm a
    · intro b
      have hb3 := Int.natCast_nonneg b
      show copyTape t ((a : Int) + 3) 1 ((b : Int) + 3) = ir.mem b
      unfold copyTape
      rw [if_neg (by omega : ((b : Int) + 3) ≠ 2)]
      by_cases hab : (b : Int) + 3 = (a : Int) + 3
      · rw [if_pos hab, hm a, show b = a from by omega]
      · rw [if_neg hab, if_neg (by omega : ((b : Int) + 3) ≠ 1)]
        exact hm b
  | storeA a =>
    have ha3 := Int.natCast_nonneg a
    refine ⟨t 2 + (t ((a : Int) + 3) + (t 0 + t 0)),
      copyTape t 0 ((a : Int) + 3), fun f k => ?_, ?_, ?_, ?_, copyTape_lt t _ _ hb⟩
    · show bfExec (t 2 + (t ((a : Int) + 3) + (t 0 + t 0)) + f) (copyTrees 0 ((a : Int) + 3) cur ++ k) (BFState.mk t cur ir.input ir.output) = bfExec f k (BFState.mk (copyTape t 0 ((a : Int) + 3)) (emitTrees (Instr.storeA a) cur).2 (irStep (Instr.storeA a) ir).input (irStep (Instr.storeA a) ir).output)
      rw [show t 2 + (t ((a : Int) + 3) + (t 0 + t 0)) + f =
        t 2 + (t ((a : Int) + 3) + (t 0 + (t 0 + f))) from by omega]
      rw [copyTrees_exec 0 ((a : Int) + 3) cur (by omega) (by decide) (by omega)
        t hb f k ir.input ir.output]
      rfl
    · show copyTape t 0 ((a : Int) + 3) 0 = ir.regA
      unfold copyTape
      rw [if_neg (by decide : (0 : Int) ≠ 2), if_pos rfl]
      exact h0
    · show copyTape t 0 ((a : Int) + 3) 1 = ir.regB
      unfold copyTape
      rw [if_neg (by decide : (1 : Int) ≠ 2), if_neg (by decide : (1 : Int) ≠ 0),
        if_neg (by omega : (1 : Int) ≠ (a : Int) + 3)]
      exact h1
    · intro b
      have hb3 := Int.natCast_nonneg b
      show copyTape t 0 ((a : Int) + 3) ((b : Int) + 3) = Function.update ir.mem a ir.regA b
      unfold copyTape
      rw [if_neg (by omega : ((b : Int) + 3) ≠ 2), if_neg (by omega : ((b : Int) + 3) ≠ 0)]
      by_cases hab : b = a
      · subst hab
        rw [if_pos rfl, Function.update_same]
        exact h0
      · rw [if_neg (by omega : ((b : Int) + 3) ≠ (a : Int) + 3),
          Function.update_noteq hab]
        exact hm b
  | storeB a =>
    have ha3 := Int.natCast_nonneg a
    refine ⟨t 2 + (t ((a : Int) + 3) + (t 1 + t 1)),
      copyTape t 1 ((a : Int) + 3), fun f k => ?_, ?_, ?_, ?_, copyTape_lt t _ _ hb⟩
    · show bfExec (t 2 + (t ((a : Int) + 3) + (t 1 + t 1)) + f) (copyTrees 1 ((a : Int) + 3) cur ++ k) (BFState.mk t cur ir.input ir.output) = bfExec f k (BFState.mk (copyTape t 1 ((a : Int) + 3)) (emitTrees (Instr.storeB a) cur).2 (irStep (Instr.storeB a) ir).input (irStep (Instr.storeB a) ir).output)
      rw [show t 2 + (t ((a : Int) + 3) + (t 1 + t 1)) + f =
        t 2 + (t ((a : Int) + 3) + (t 1 + (t 1 + f))) from by omega]
      rw [copyTrees_exec 1 ((a : Int) + 3) cur (by omega) (by decide) (by omega)
        t hb f k ir.input ir.output]
      rfl
    · show copyTape t 1 ((a : Int) + 3) 0 = ir.regA
      unfold copyTape
      rw [if_neg (by decide : (0 : Int) ≠ 2), if_neg (by decide : (0 : Int) ≠ 1),
        if_neg (by omega : (0 : Int) ≠ (a : Int) + 3)]
      exact h0
    · show copyTape t 1 ((a : Int) + 3) 1 = ir.regB
      unfold copyTape
      rw [if_neg (by decide : (1 : Int) ≠ 2), if_pos rfl]
      exact h1
    · intro b
      have hb3 := Int.natCast_nonneg b
      show copyTape t 1 ((a : Int) + 3) ((b : Int) + 3) = Function.update ir.mem a ir.regB b
      unfold copyTape
      rw [if_neg (by omega : ((b : Int) + 3) ≠ 2), if_neg (by omega : ((b : Int) + 3) ≠ 1)]
      by_cases hab : b = a
      · subst hab
        rw [if_pos rfl, Function.update_same]
        exact h1
      · rw [if_neg (by omega : ((b : Int) + 3) ≠ (a : Int) + 3),
          Function.update_noteq hab]
        exact hm b

theorem parseBF_emitInstr (i : Instr) (cur : Int)
    (hs : i ≠ .loopStart) (he : i ≠ .loopEnd) :
    parseBF (emitInstr i cur).1 = some (emitTrees i cur).1 := by
  show matchBFAux (emitInstr i cur).1.data [[]] = _
  rw [(emitInstr_data i cur hs he).1]
  exact parseBF_flatBLC (emitTrees i cur).1

/-- C6: compile-time cursor equals runtime head after every single
instruction: for every non-bracket IR instruction, running the emitted BF
from a related machine state whose head sits at the old cursor terminates
with the head exactly at the handler's new cursor; both loop handlers set
the cursor to 0 and emit a pure cursor move (whose runtime effect is to
park the head at cell 0) directly in front of the bracket, so the head
equals the cursor at both loop edges on every control-flow path. -/
theorem C6_cursor_head_alignment :
    (∀ (i : Instr) (cur : Int) (ir : IRState) (t : Int → Nat),
      i ≠ .loopStart → i ≠ .loopEnd → relate ir t →
      ∃ fuel s', bfRun fuel (emitInstr i cur).1
          (BFState.mk t cur ir.input ir.output) = some s' ∧
        s'.head = (emitInstr i cur).2) ∧
    (∀ cur : Int,
      (emitInstr .loopStart cur).2 = 0 ∧ (emitInstr .loopEnd cur).2 = 0 ∧
      (emitInstr .loopStart cur).1 = (move_to 0 cur).1 ++ "[" ∧
      (emitInstr .loopEnd cur).1 = (move_to 0 cur).1 ++ "]" ∧
      (move_to 0 cur).1.data = flatBLC (moveOps (0 - cur)) ∧
      (∀ s : BFState, s.head = cur →
        runBFActs (moveOps (0 - cur)) s = { s with head := 0 })) := by
  constructor
  · intro i cur ir t hs he hrel
    obtain ⟨V, T, hexec, _⟩ := emitTrees_sim i hs he cur ir t hrel
    refine ⟨V, BFState.mk T (emitTrees i cur).2 (irStep i ir).input
      (irStep i ir).output, ?_, ?_⟩
    · show (match parseBF (emitInstr i cur).1 with
        | none => none
        | some prog => bfExec V prog (BFState.mk t cur ir.input ir.output)) = _
      rw [parseBF_emitInstr i cur hs he]
      show bfExec V (emitTrees i cur).1 _ = _
      rw [show (emitTrees i cur).1 = (emitTrees i cur).1 ++ [] from
        (List.append_nil _).symm]
      rw [show V = V + 0 from by omega, hexec 0 []]
      simp only [bfExec]
    · exact (emitInstr_data i cur hs he).2.symm
  · intro cur
    refine ⟨rfl, rfl, rfl, rfl, move_to_data 0 cur, ?_⟩
    intro s hhead
    rw [runBFActs_moveOps, hhead]
    refine congrArg (fun h => { s with head := h }) ?_
    ring

theorem C6_cursor_head_alignment_witness :
    (∃ fuel s', bfRun fuel (emitInstr .outA 0).1
        (BFState.mk (fun _ => 0) 0 (IRState.init []).input
          (IRState.init []).output) = some s' ∧
      s'.head = (emitInstr .outA 0).2) ∧
    (emitInstr .loopStart 5).2 = 0 :=
  ⟨C6_cursor_head_alignment.1 .outA 0 (IRState.init []) (fun _ => 0)
      (by decide) (by decide)
      ⟨rfl, rfl, fun _ => rfl, fun _ => Nat.zero_lt_succ 255⟩,
    (C6_cursor_head_alignment.2 5).1⟩

/-! ## Whole-program compilation to structured BF

A loop node compiles to a cursor move to REG_A followed by a bracket
whose body is the compiled loop body plus the `LOOP_END` re-alignment
move back to cell 0 — exactly what `_handle_loop_start` and
`_handle_loop_end` print around the body's text. -/

mutual

def bfOfT : IRT → Int → List BF × Int
  | .act i, cur => emitTrees i cur
  | .loop b, cur =>
    (moveOps (0 - cur) ++
      [BF.loop ((bfOfL b 0).1 ++ moveOps (0 - (bfOfL b 0).2))], 0)

def bfOfL : List IRT → Int → List BF × Int
  | [], cur => ([], cur)
  | tr :: ts, cur =>
    ((bfOfT tr cur).1 ++ (bfOfL ts (bfOfT tr cur).2).1,
      (bfOfL ts (bfOfT tr cur).2).2)

end

theorem bfOfL_append : ∀ (A B : List IRT) (cur : Int),
    bfOfL (A ++ B) cur =
      ((bfOfL A cur).1 ++ (bfOfL B (bfOfL A cur).2).1,
        (bfOfL B (bfOfL A cur).2).2)
  | [], B, cur => by simp [bfOfL]
  | tr :: ts, B, cur => by
    show bfOfL (tr :: (ts ++ B)) cur = _
    rw [bfOfL]
    rw [bfOfL_append ts B (bfOfT tr cur).2]
    rw [bfOfL]
    simp [List.append_assoc]

theorem bf_sim : ∀ (fuel : Nat) (ts : List IRT) (cur : Int) (ir ir' : IRState)
    (t : Int → Nat), okL ts = true → relate ir t →
    irExec fuel ts ir = some ir' →
    ∃ (F : Nat) (T : Int → Nat),
      bfExec F (bfOfL ts cur).1 (BFState.mk t cur ir.input ir.output) =
        some (BFState.mk T (bfOfL ts cur).2 ir'.input ir'.output) ∧
      relate ir' T
  | fuel, [], cur, ir, ir', t, hok, hrel, hexec => by
    have heq : ir = ir' := by
      simpa [irExec] using hexec
    subst heq
    refine ⟨0, t, ?_, hrel⟩
    simp [bfOfL, bfExec]
  | fuel, .act i :: ts, cur, ir, ir', t, hok, hrel, hexec => by
    rw [okL.eq_2, Bool.and_eq_true] at hok
    have hsi : i ≠ .loopStart := by
      intro h
      subst h
      rw [show okT (.act .loopStart) = false from rfl] at hok
      cases hok.1
    have hei : i ≠ .loopEnd := by
      intro h
      subst h
      rw [show okT (.act .loopEnd) = false from rfl] at hok
      cases hok.1
    have hexec' : irExec fuel ts (irStep i ir) = some ir' := by
      simpa only [irExec] using hexec
    obtain ⟨V, T₁, hstep, hrel₁⟩ := emitTrees_sim i hsi hei cur ir t hrel
    obtain ⟨F, T, hrest, hrelF⟩ :=
      bf_sim fuel ts (emitTrees i cur).2 (irStep i ir) ir' T₁ hok.2 hrel₁ hexec'
    refine ⟨V + F, T, ?_, hrelF⟩
    show bfExec (V + F)
        ((emitTrees i cur).1 ++ (bfOfL ts (emitTrees i cur).2).1)
        (BFState.mk t cur ir.input ir.output) =
      some (BFState.mk T (bfOfL ts (emitTrees i cur).2).2 ir'.input ir'.output)
    rw [hstep F _]
    exact hrest
  | fuel, .loop b :: ts, cur, ir, ir', t, hok, hrel, hexec => by
    rw [okL.eq_2, show okT (.loop b) = okL b from rfl, Bool.and_eq_true] at hok
    obtain ⟨hokb, hokts⟩ := hok
    obtain ⟨h0, h1, hm, hb⟩ := hrel
    rw [irExec.eq_def] at hexec
    dsimp only at hexec
    by_cases hA : ir.regA = 0
    · rw [if_pos hA] at hexec
      obtain ⟨F, T, hrest, hrelF⟩ :=
        bf_sim fuel ts 0 ir ir' t hokts ⟨h0, h1, hm, hb⟩ hexec
      refine ⟨F, T, ?_, hrelF⟩
      show bfExec F
          ((moveOps (0 - cur) ++ [BF.loop ((bfOfL b 0).1 ++ moveOps (0 - (bfOfL b 0).2))]) ++ (bfOfL ts 0).1)
          (BFState.mk t cur ir.input ir.output) =
        some (BFState.mk T (bfOfL ts 0).2 ir'.input ir'.output)
      rw [List.append_assoc, List.singleton_append, bfExec_moveOps_mk,
        show cur + (0 - cur) = 0 from by ring]
      rw [bfExec.eq_def]
      dsimp only
      rw [if_pos (by rw [h0]; exact hA)]
      exact hrest
    · rw [if_neg hA] at hexec
      by_cases hf : fuel = 0
      · rw [dif_pos hf] at hexec
        cases hexec
      · rw [dif_neg hf] at hexec
        have hokall : okL (b ++ .loop b :: ts) = true := by
          rw [okL_append, hokb]
          show (true && (okT (.loop b) && okL ts)) = true
          rw [show okT (.loop b) = okL b from rfl, hokb, hokts]
          rfl
        obtain ⟨F, T, hrest, hrelF⟩ :=
          bf_sim (fuel - 1) (b ++ .loop b :: ts) 0 ir ir' t hokall
            ⟨h0, h1, hm, hb⟩ hexec
        refine ⟨1 + F, T, ?_, hrelF⟩
        show bfExec (1 + F)
            ((moveOps (0 - cur) ++ [BF.loop ((bfOfL b 0).1 ++ moveOps (0 - (bfOfL b 0).2))]) ++ (bfOfL ts 0).1)
            (BFState.mk t cur ir.input ir.output) =
          some (BFState.mk T (bfOfL ts 0).2 ir'.input ir'.output)
        rw [List.append_assoc, List.singleton_append, bfExec_moveOps_mk,
          show cur + (0 - cur) = 0 from by ring]
        rw [bfExec.eq_def]
        dsimp only
        rw [if_neg (by rw [h0]; exact hA)]
        rw [dif_neg (by omega : ¬ (1 + F = 0))]
        rw [show 1 + F - 1 = F from by omega]
        have hq1 : (bfOfL (b ++ .loop b :: ts) 0).1 =
            ((bfOfL b 0).1 ++ moveOps (0 - (bfOfL b 0).2)) ++
              BF.loop ((bfOfL b 0).1 ++ moveOps (0 - (bfOfL b 0).2)) :: (bfOfL ts 0).1 := by
          rw [bfOfL_append]
          show (bfOfL b 0).1 ++ (bfOfL (.loop b :: ts) (bfOfL b 0).2).1 = _
          rw [bfOfL]
          show (bfOfL b 0).1 ++ ((moveOps (0 - (bfOfL b 0).2) ++ [BF.loop ((bfOfL b 0).1 ++ moveOps (0 - (bfOfL b 0).2))]) ++ (bfOfL ts 0).1) = _
          simp [List.append_assoc]
        have hq2 : (bfOfL (b ++ .loop b :: ts) 0).2 = (bfOfL ts 0).2 := by
          rw [bfOfL_append]
          show (bfOfL (.loop b :: ts) (bfOfL b 0).2).2 = _
          rw [bfOfL]
          show (bfOfL ts (bfOfT (IRT.loop b) (bfOfL b 0).2).2).2 = (bfOfL ts 0).2
          rw [show (bfOfT (IRT.loop b) (bfOfL b 0).2).2 = 0 from rfl]
        rw [hq1, hq2] at hrest
        exact hrest
termination_by fuel ts => (fuel, ts.length)

theorem okL_forall : ∀ l : List IRT, okL l = true ↔ ∀ tr ∈ l, okT tr = true
  | [] => by
    simp [okL]
  | t :: ts => by
    rw [okL.eq_2, Bool.and_eq_true, okL_forall ts]
    constructor
    · rintro ⟨hh, h2⟩ tr htr
      rcases List.mem_cons.mp htr with h | h
      · subst h
        exact hh
      · exact h2 tr h
    · intro h
      exact ⟨h t (List.mem_cons_self _ _),
        fun tr htr => h tr (List.mem_cons_of_mem _ htr)⟩

theorem matchIRAux_okL : ∀ (l : List Instr) (st : List (List IRT)) (ts : List IRT),
    (∀ e ∈ st, ∀ tr ∈ e, okT tr = true) →
    matchIRAux l st = some ts → okL ts = true
  | [], st, ts, hst, hm => by
    cases st with
    | nil => simp [matchIRAux] at hm
    | cons top more =>
      cases more with
      | nil =>
        rw [matchIRAux] at hm
        injection hm with hts
        subst hts
        rw [okL_forall]
        intro tr htr
        exact hst top (by simp) tr (List.mem_reverse.mp htr)
      | cons nxt more2 => simp [matchIRAux] at hm
  | i :: rest, st, ts, hst, hm => by
    cases i with
    | loopStart =>
      rw [matchIRAux] at hm
      refine matchIRAux_okL rest ([] :: st) ts ?_ hm
      intro e he tr htr
      rcases List.mem_cons.mp he with h | h
      · subst h
        simp at htr
      · exact hst e h tr htr
    | loopEnd =>
      cases st with
      | nil => simp [matchIRAux] at hm
      | cons top more =>
        cases more with
        | nil => simp [matchIRAux] at hm
        | cons nxt more2 =>
          rw [matchIRAux] at hm
          refine matchIRAux_okL rest ((IRT.loop top.reverse :: nxt) :: more2) ts ?_ hm
          intro e he tr htr
          rcases List.mem_cons.mp he with h | h
          · subst h
            rcases List.mem_cons.mp htr with h2 | h2
            · subst h2
              rw [show okT (.loop top.reverse) = okL top.reverse from rfl, okL_forall]
              intro tr2 htr2
              exact hst top (by simp) tr2 (List.mem_reverse.mp htr2)
            · exact hst nxt (by simp) tr h2
          · exact hst e (by simp [h]) tr htr
    | loadAImm n =>
      cases st with
      | nil => simp [matchIRAux] at hm
      | cons top more =>
        simp only [matchIRAux] at hm
        refine matchIRAux_okL rest ((IRT.act (Instr.loadAImm n) :: top) :: more) ts ?_ hm
        intro e he tr htr
        rcases List.mem_cons.mp he with h | h
        · subst h
          rcases List.mem_cons.mp htr with h2 | h2
          · subst h2
            rfl
          · exact hst top (by simp) tr h2
        · exact hst e (by simp [h]) tr htr
    | loadAMem a =>
      cases st with
      | nil => simp [matchIRAux] at hm
      | cons top more =>
        simp only [matchIRAux] at hm
        refine matchIRAux_okL rest ((IRT.act (Instr.loadAMem a) :: top) :: more) ts ?_ hm
        intro e he tr htr
        rcases List.mem_cons.mp he with h | h
        · subst h
          rcases List.mem_cons.mp htr with h2 | h2
          · subst h2
            rfl
          · exact hst top (by simp) tr h2
        · exact hst e (by simp [h]) tr htr
    | loadBImm n =>
      cases st with
      | nil => simp [matchIRAux] at hm
      | cons top more =>
        simp only [matchIRAux] at hm
        refine matchIRAux_okL rest ((IRT.act (Instr.loadBImm n) :: top) :: more) ts ?_ hm
        intro e he tr htr
        rcases List.mem_cons.mp he with h | h
        · subst h
          rcases List.mem_cons.mp htr with h2 | h2
          · subst h2
            rfl
          · exact hst top (by simp) tr h2
        · exact hst e (by simp [h]) tr htr
    | loadBMem a =>
      cases st with
      | nil => simp [matchIRAux] at hm
      | cons top more =>
        simp only [matchIRAux] at hm
        refine matchIRAux_okL rest ((IRT.act (Instr.loadBMem a) :: top) :: more) ts ?_ hm
        intro e he tr htr
        rcases List.mem_cons.mp he with h | h
        · subst h
          rcases List.mem_cons.mp htr with h2 | h2
          · subst h2
            rfl
          · exact hst top (by simp) tr h2
        · exact hst e (by simp [h]) tr htr
    | storeA a =>
      cases st with
      | nil => simp [matchIRAux] at hm
      | cons top more =>
        simp only [matchIRAux] at hm
        refine matchIRAux_okL rest ((IRT.act (Instr.storeA a) :: top) :: more) ts ?_ hm
        intro e he tr htr
        rcases List.mem_cons.mp he with h | h
        · subst h
          rcases List.mem_cons.mp htr with h2 | h2
          · subst h2
            rfl
          · exact hst top (by simp) tr h2
        · exact hst e (by simp [h]) tr htr
    | storeB a =>
      cases st with
      | nil => simp [matchIRAux] at hm
      | cons top more =>
        simp only [matchIRAux] at hm
        refine matchIRAux_okL rest ((IRT.act (Instr.storeB a) :: top) :: more) ts ?_ hm
        intro e he tr htr
        rcases List.mem_cons.mp he with h | h
        · subst h
          rcases List.mem_cons.mp htr with h2 | h2
          · subst h2
            rfl
          · exact hst top (by simp) tr h2
        · exact hst e (by simp [h]) tr htr
    | add =>
      cases st with
      | nil => simp [matchIRAux] at hm
      | cons top more =>
        simp only [matchIRAux] at hm
        refine matchIRAux_okL rest ((IRT.act (Instr.add) :: top) :: more) ts ?_ hm
        intro e he tr htr
        rcases List.mem_cons.mp he with h | h
        · subst h
          rcases List.mem_cons.mp htr with h2 | h2
          · subst h2
            rfl
          · exact hst top (by simp) tr h2
        · exact hst e (by simp [h]) tr htr
    | sub =>
      cases st with
      | nil => simp [matchIRAux] at hm
      | cons top more =>
        simp only [matchIRAux] at hm
        refine matchIRAux_okL rest ((IRT.act (Instr.sub) :: top) :: more) ts ?_ hm
        intro e he tr htr
        rcases List.mem_cons.mp he with h | h
        · subst h
          rcases List.mem_cons.mp htr with h2 | h2
          · subst h2
            rfl
          · exact hst top (by simp) tr h2
        · exact hst e (by simp [h]) tr htr
    | inA =>
      cases st with
      | nil => simp [matchIRAux] at hm
      | cons top more =>
        simp only [matchIRAux] at hm
        refine matchIRAux_okL rest ((IRT.act (Instr.inA) :: top) :: more) ts ?_ hm
        intro e he tr htr
        rcases List.mem_cons.mp he with h | h
        · subst h
          rcases List.mem_cons.mp htr with h2 | h2
          · subst h2
            rfl
          · exact hst top (by simp) tr h2
        · exact hst e (by simp [h]) tr htr
    | inB =>
      cases st with
      | nil => simp [matchIRAux] at hm
      | cons top more =>
        simp only [matchIRAux] at hm
        refine matchIRAux_okL rest ((IRT.act (Instr.inB) :: top) :: more) ts ?_ hm
        intro e he tr htr
        rcases List.mem_cons.mp he with h | h
        · subst h
          rcases List.mem_cons.mp htr with h2 | h2
          · subst h2
            rfl
          · exact hst top (by simp) tr h2
        · exact hst e (by simp [h]) tr htr
    | outA =>
      cases st with
      | nil => simp [matchIRAux] at hm
      | cons top more =>
        simp only [matchIRAux] at hm
        refine matchIRAux_okL rest ((IRT.act (Instr.outA) :: top) :: more) ts ?_ hm
        intro e he tr htr
        rcases List.mem_cons.mp he with h | h
        · subst h
          rcases List.mem_cons.mp htr with h2 | h2
          · subst h2
            rfl
          · exact hst top (by simp) tr h2
        · exact hst e (by simp [h]) tr htr
    | outB =>
      cases st with
      | nil => simp [matchIRAux] at hm
      | cons top more =>
        simp only [matchIRAux] at hm
        refine matchIRAux_okL rest ((IRT.act (Instr.outB) :: top) :: more) ts ?_ hm
        intro e he tr htr
        rcases List.mem_cons.mp he with h | h
        · subst h
          rcases List.mem_cons.mp htr with h2 | h2
          · subst h2
            rfl
          · exact hst top (by simp) tr h2
        · exact hst e (by simp [h]) tr htr
    | comment c =>
      cases st with
      | nil => simp [matchIRAux] at hm
      | cons top more =>
        simp only [matchIRAux] at hm
        refine matchIRAux_okL rest ((IRT.act (Instr.comment c) :: top) :: more) ts ?_ hm
        intro e he tr htr
        rcases List.mem_cons.mp he with h | h
        · subst h
          rcases List.mem_cons.mp htr with h2 | h2
          · subst h2
            rfl
          · exact hst top (by simp) tr h2
        · exact hst e (by simp [h]) tr htr
termination_by l => l.length

theorem matchIR_okL (l : List Instr) (ts : List IRT)
    (hm : matchIR l = some ts) : okL ts = true := by
  refine matchIRAux_okL l [[]] ts ?_ hm
  intro e he tr htr
  rcases List.mem_cons.mp he with h | h
  · subst h
    simp at htr
  · simp at h

/-- The backend's parse loop over an already-tokenised IR program: each
instruction's handler output is appended followed by a newline (empty
results — comment lines — are skipped), threading the cursor. -/
def emitIS : List Instr → Int → String × Int
  | [], cur => ("", cur)
  | i :: rest, cur =>
    ((if (emitInstr i cur).1 = "" then "" else (emitInstr i cur).1 ++ "\n") ++
        (emitIS rest (emitInstr i cur).2).1,
      (emitIS rest (emitInstr i cur).2).2)

theorem emitIS_append : ∀ (A B : List Instr) (cur : Int),
    emitIS (A ++ B) cur =
      ((emitIS A cur).1 ++ (emitIS B (emitIS A cur).2).1,
        (emitIS B (emitIS A cur).2).2)
  | [], B, cur => by simp [emitIS]
  | i :: A, B, cur => by
    show emitIS (i :: (A ++ B)) cur = _
    rw [emitIS]
    rw [emitIS_append A B (emitInstr i cur).2]
    rw [emitIS]
    simp [String.append_assoc]

theorem matchBFAux_skip (c : Char) (rest : List Char) (st : List (List BF))
    (hc1 : ¬ c = '[') (hc2 : ¬ c = ']') (hc3 : bfOp? c = none) :
    matchBFAux (c :: rest) st = matchBFAux rest st := by
  rw [matchBFAux.eq_def]
  dsimp only
  rw [if_neg hc1, if_neg hc2, hc3]

theorem matchBFAux_open (rest : List Char) (st : List (List BF)) :
    matchBFAux ('[' :: rest) st = matchBFAux rest ([] :: st) := by
  rw [matchBFAux.eq_def]
  dsimp only
  rw [if_pos rfl]

theorem matchBFAux_close (rest : List Char) (top next : List BF)
    (more : List (List BF)) :
    matchBFAux (']' :: rest) (top :: next :: more) =
      matchBFAux rest ((BF.loop top.reverse :: next) :: more) := by
  rw [matchBFAux.eq_def]
  dsimp only
  rw [if_neg (by decide), if_pos rfl]

theorem matchBFAux_nl (rest : List Char) (st : List (List BF)) :
    matchBFAux ('\n' :: rest) st = matchBFAux rest st :=
  matchBFAux_skip '\n' rest st (by decide) (by decide) rfl

theorem flatBT_ne_nil : ∀ tr : BF, flatBT tr ≠ []
  | .right => by decide
  | .left => by decide
  | .inc => by decide
  | .dec => by decide
  | .out => by decide
  | .inp => by decide
  | .loop b => by
    intro h
    rw [show flatBT (.loop b) = '[' :: flatBLC b ++ [']'] from rfl] at h
    exact List.cons_ne_nil _ _ h

theorem flatBLC_eq_nil : ∀ ts : List BF, flatBLC ts = [] → ts = []
  | [], _ => rfl
  | tr :: ts, h => by
    rw [show flatBLC (tr :: ts) = flatBT tr ++ flatBLC ts from rfl] at h
    exact absurd (List.append_eq_nil.mp h).1 (flatBT_ne_nil tr)

theorem append_tail_ne_empty (s tail : String) (hc : tail.data ≠ []) :
    s ++ tail ≠ "" := by
  intro h
  have hd := congrArg String.data h
  rw [String.data_append] at hd
  exact hc (List.append_eq_nil.mp hd).2

theorem matchBFAux_emitIS : ∀ (ts : List IRT), okL ts = true →
    ∀ (cur : Int) (rest : List Char) (top : List BF) (more : List (List BF)),
    (matchBFAux ((emitIS (flattenL ts) cur).1.data ++ rest) (top :: more) =
      matchBFAux rest (((bfOfL ts cur).1.reverse ++ top) :: more)) ∧
    (emitIS (flattenL ts) cur).2 = (bfOfL ts cur).2
  | [], _, cur, rest, top, more => by
    constructor
    · rw [show flattenL [] = [] from rfl,
        show (emitIS [] cur).1 = "" from rfl,
        show ("" : String).data = [] from rfl, List.nil_append,
        show (bfOfL [] cur).1 = [] from rfl, List.reverse_nil, List.nil_append]
    · rfl
  | .act i :: ts', hok, cur, rest, top, more => by
    rw [okL.eq_2, Bool.and_eq_true] at hok
    have hsi : i ≠ .loopStart := by
      intro h
      subst h
      rw [show okT (.act .loopStart) = false from rfl] at hok
      cases hok.1
    have hei : i ≠ .loopEnd := by
      intro h
      subst h
      rw [show okT (.act .loopEnd) = false from rfl] at hok
      cases hok.1
    have hdata := (emitInstr_data i cur hsi hei).1
    have hcur2 := (emitInstr_data i cur hsi hei).2
    have hflat : flattenL (.act i :: ts') = i :: flattenL ts' := by
      rw [show flattenL (.act i :: ts') = flattenT (.act i) ++ flattenL ts' from rfl]
      rfl
    have IH := matchBFAux_emitIS ts' hok.2
    constructor
    · rw [hflat, emitIS]
      dsimp only
      by_cases hcode : (emitInstr i cur).1 = ""
      · rw [if_pos hcode]
        have htrees : (emitTrees i cur).1 = [] :=
          flatBLC_eq_nil _ (by rw [← hdata, hcode])
        rw [String.data_append, show ("" : String).data = [] from rfl,
          List.nil_append]
        rw [(IH (emitInstr i cur).2 rest top more).1]
        rw [bfOfL]
        dsimp only
        rw [show bfOfT (.act i) cur = emitTrees i cur from rfl, htrees,
          List.nil_append, hcur2]
      · rw [if_neg hcode]
        rw [String.data_append, String.data_append, hdata,
          show ("\n" : String).data = ['\n'] from rfl]
        rw [List.append_assoc, List.append_assoc, List.singleton_append]
        rw [matchBFAux_flatBLC (emitTrees i cur).1, matchBFAux_nl]
        rw [(IH (emitInstr i cur).2 rest ((emitTrees i cur).1.reverse ++ top) more).1]
        rw [bfOfL]
        dsimp only
        rw [show bfOfT (.act i) cur = emitTrees i cur from rfl, hcur2,
          List.reverse_append, List.append_assoc]
    · rw [hflat, emitIS]
      dsimp only
      rw [(IH (emitInstr i cur).2 rest top more).2]
      rw [bfOfL]
      dsimp only
      rw [show bfOfT (.act i) cur = emitTrees i cur from rfl, hcur2]
  | .loop b :: ts', hok, cur, rest, top, more => by
    rw [okL.eq_2, show okT (.loop b) = okL b from rfl, Bool.and_eq_true] at hok
    obtain ⟨hokb, hokts⟩ := hok
    have IHb := matchBFAux_emitIS b hokb
    have IHts := matchBFAux_emitIS ts' hokts
    have hcB : (emitIS (flattenL b) 0).2 = (bfOfL b 0).2 :=
      (IHb 0 [] [] []).2
    have hflat : flattenL (.loop b :: ts') =
        Instr.loopStart :: (flattenL b ++ (Instr.loopEnd :: flattenL ts')) := by
      rw [show flattenL (.loop b :: ts') = flattenT (.loop b) ++ flattenL ts' from rfl]
      rw [show flattenT (.loop b) = Instr.loopStart :: (flattenL b ++ [Instr.loopEnd]) from rfl]
      simp [List.append_assoc]
    have hne1 : (emitInstr .loopStart cur).1 ≠ "" := by
      show (move_to 0 cur).1 ++ "[" ≠ ""
      exact append_tail_ne_empty _ _ (by decide)
    have hne3 : (emitInstr .loopEnd (emitIS (flattenL b) 0).2).1 ≠ "" := by
      show (move_to 0 (emitIS (flattenL b) 0).2).1 ++ "]" ≠ ""
      exact append_tail_ne_empty _ _ (by decide)
    constructor
    · rw [hflat, emitIS]
      dsimp only
      rw [if_neg hne1, show (emitInstr .loopStart cur).2 = 0 from rfl]
      rw [show flattenL b ++ (Instr.loopEnd :: flattenL ts') =
        flattenL b ++ ([Instr.loopEnd] ++ flattenL ts') from rfl]
      rw [emitIS_append]
      dsimp only
      rw [show ([Instr.loopEnd] ++ flattenL ts' : List Instr) =
        Instr.loopEnd :: flattenL ts' from rfl]
      rw [emitIS]
      dsimp only
      rw [if_neg hne3, show ∀ c : Int, (emitInstr .loopEnd c).2 = 0 from fun _ => rfl]
      rw [show (emitInstr .loopStart cur).1 = (move_to 0 cur).1 ++ "[" from rfl]
      rw [show ∀ c : Int, (emitInstr .loopEnd c).1 = (move_to 0 c).1 ++ "]" from fun _ => rfl]
      simp only [String.data_append, show ("\n" : String).data = ['\n'] from rfl,
        show ("[" : String).data = ['['] from rfl,
        show ("]" : String).data = [']'] from rfl,
        move_to_data, List.append_assoc, List.singleton_append, List.cons_append,
        List.nil_append]
      rw [matchBFAux_flatBLC (moveOps (0 - cur)), matchBFAux_open, matchBFAux_nl]
      rw [(IHb 0 _ [] _).1]
      rw [matchBFAux_flatBLC (moveOps (0 - (emitIS (flattenL b) 0).2)), matchBFAux_close, matchBFAux_nl]
      rw [(IHts 0 rest _ more).1]
      rw [bfOfL]
      dsimp only
      rw [show bfOfT (.loop b) cur = (moveOps (0 - cur) ++ [BF.loop ((bfOfL b 0).1 ++ moveOps (0 - (bfOfL b 0).2))], 0) from rfl]
      dsimp only
      rw [hcB]
      simp [List.reverse_append, List.append_assoc]
    · rw [hflat, emitIS]
      dsimp only
      rw [show (emitInstr .loopStart cur).2 = 0 from rfl]
      rw [show flattenL b ++ (Instr.loopEnd :: flattenL ts') =
        flattenL b ++ ([Instr.loopEnd] ++ flattenL ts') from rfl]
      rw [emitIS_append]
      dsimp only
      rw [show ([Instr.loopEnd] ++ flattenL ts' : List Instr) =
        Instr.loopEnd :: flattenL ts' from rfl]
      rw [emitIS]
      dsimp only
      rw [show ∀ c : Int, (emitInstr .loopEnd c).2 = 0 from fun _ => rfl]
      rw [(IHts 0 [] [] []).2]
      rw [bfOfL]
      dsimp only
      rw [show bfOfT (.loop b) cur = (moveOps (0 - cur) ++ [BF.loop ((bfOfL b 0).1 ++ moveOps (0 - (bfOfL b 0).2))], 0) from rfl]
termination_by ts => sizeOf ts

/-- Reconstruction of the input consumed so far from the matcher's stack:
each deeper frame reopens with the bracket that pushed it. -/
def unwind : List (List IRT) → List Instr
  | [] => []
  | [top] => flattenL top.reverse
  | top :: nx :: more => unwind (nx :: more) ++ (Instr.loopStart :: flattenL top.reverse)

theorem matchIRAux_unwind : ∀ (l : List Instr) (st : List (List IRT))
    (ts : List IRT), st ≠ [] → matchIRAux l st = some ts →
    flattenL ts = unwind st ++ l
  | [], st, ts, hne, hm => by
    cases st with
    | nil => simp [matchIRAux] at hm
    | cons top more =>
      cases more with
      | nil =>
        rw [matchIRAux] at hm
        injection hm with hts
        subst hts
        rw [unwind, List.append_nil]
      | cons nxt more2 => simp [matchIRAux] at hm
  | i :: rest, st, ts, hne, hm => by
    cases i with
    | loopStart =>
      rw [matchIRAux] at hm
      have ih := matchIRAux_unwind rest ([] :: st) ts (List.cons_ne_nil _ _) hm
      rw [ih]
      cases st with
      | nil => exact absurd rfl hne
      | cons top2 more2 => simp [unwind, flattenL_append, flattenL, flattenT, List.reverse_cons, List.append_assoc]
    | loopEnd =>
      cases st with
      | nil => simp [matchIRAux] at hm
      | cons top more =>
        cases more with
        | nil => simp [matchIRAux] at hm
        | cons nxt more2 =>
          rw [matchIRAux] at hm
          have ih := matchIRAux_unwind rest ((IRT.loop top.reverse :: nxt) :: more2) ts
            (List.cons_ne_nil _ _) hm
          rw [ih]
          cases more2 with
          | nil => simp [unwind, flattenL_append, flattenL, flattenT, List.reverse_cons, List.append_assoc]
          | cons n2 m2 => simp [unwind, flattenL_append, flattenL, flattenT, List.reverse_cons, List.append_assoc]
    | loadAImm n =>
      cases st with
      | nil => simp [matchIRAux] at hm
      | cons top more =>
        simp only [matchIRAux] at hm
        have ih := matchIRAux_unwind rest ((IRT.act (Instr.loadAImm n) :: top) :: more) ts
          (List.cons_ne_nil _ _) hm
        rw [ih]
        cases more with
        | nil => simp [unwind, flattenL_append, flattenL, flattenT, List.reverse_cons, List.append_assoc]
        | cons nx mr => simp [unwind, flattenL_append, flattenL, flattenT, List.reverse_cons, List.append_assoc]
    | loadAMem a =>
      cases st with
      | nil => simp [matchIRAux] at hm
      | cons top more =>
        simp only [matchIRAux] at hm
        have ih := matchIRAux_unwind rest ((IRT.act (Instr.loadAMem a) :: top) :: more) ts
          (List.cons_ne_nil _ _) hm
        rw [ih]
        cases more with
        | nil => simp [unwind, flattenL_append, flattenL, flattenT, List.reverse_cons, List.append_assoc]
        | cons nx mr => simp [unwind, flattenL_append, flattenL, flattenT, List.reverse_cons, List.append_assoc]
    | loadBImm n =>
      cases st with
      | nil => simp [matchIRAux] at hm
      | cons top more =>
        simp only [matchIRAux] at hm
        have ih := matchIRAux_unwind rest ((IRT.act (Instr.loadBImm n) :: top) :: more) ts
          (List.cons_ne_nil _ _) hm
        rw [ih]
        cases more with
        | nil => simp [unwind, flattenL_append, flattenL, flattenT, List.reverse_cons, List.append_assoc]
        | cons nx mr => simp [unwind, flattenL_append, flattenL, flattenT, List.reverse_cons, List.append_assoc]
    | loadBMem a =>
      cases st with
      | nil => simp [matchIRAux] at hm
      | cons top more =>
        simp only [matchIRAux] at hm
        have ih := matchIRAux_unwind rest ((IRT.act (Instr.loadBMem a) :: top) :: more) ts
          (List.cons_ne_nil _ _) hm
        rw [ih]
        cases more with
        | nil => simp [unwind, flattenL_append, flattenL, flattenT, List.reverse_cons, List.append_assoc]
        | cons nx mr => simp [unwind, flattenL_append, flattenL, flattenT, List.reverse_cons, List.append_assoc]
    | storeA a =>
      cases st with
      | nil => simp [matchIRAux] at hm
      | cons top more =>
        simp only [matchIRAux] at hm
        have ih := matchIRAux_unwind rest ((IRT.act (Instr.storeA a) :: top) :: more) ts
          (List.cons_ne_nil _ _) hm
        rw [ih]
        cases more with
        | nil => simp [unwind, flattenL_append, flattenL, flattenT, List.reverse_cons, List.append_assoc]
        | cons nx mr => simp [unwind, flattenL_append, flattenL, flattenT, List.reverse_cons, List.append_assoc]
    | storeB a =>
      cases st with
      | nil => simp [matchIRAux] at hm
      | cons top more =>
        simp only [matchIRAux] at hm
        have ih := matchIRAux_unwind rest ((IRT.act (Instr.storeB a) :: top) :: more) ts
          (List.cons_ne_nil _ _) hm
        rw [ih]
        cases more with
        | nil => simp [unwind, flattenL_append, flattenL, flattenT, List.reverse_cons, List.append_assoc]
        | cons nx mr => simp [unwind, flattenL_append, flattenL, flattenT, List.reverse_cons, List.append_assoc]
    | add =>
      cases st with
      | nil => simp [matchIRAux] at hm
      | cons top more =>
        simp only [matchIRAux] at hm
        have ih := matchIRAux_unwind rest ((IRT.act (Instr.add) :: top) :: more) ts
          (List.cons_ne_nil _ _) hm
        rw [ih]
        cases more with
        | nil => simp [unwind, flattenL_append, flattenL, flattenT, List.reverse_cons, List.append_assoc]
        | cons nx mr => simp [unwind, flattenL_append, flattenL, flattenT, List.reverse_cons, List.append_assoc]
    | sub =>
      cases st with
      | nil => simp [matchIRAux] at hm
      | cons top more =>
        simp only [matchIRAux] at hm
        have ih := matchIRAux_unwind rest ((IRT.act (Instr.sub) :: top) :: more) ts
          (List.cons_ne_nil _ _) hm
        rw [ih]
        cases more with
        | nil => simp [unwind, flattenL_append, flattenL, flattenT, List.reverse_cons, List.append_assoc]
        | cons nx mr => simp [unwind, flattenL_append, flattenL, flattenT, List.reverse_cons, List.append_assoc]
    | inA =>
      cases st with
      | nil => simp [matchIRAux] at hm
      | cons top more =>
        simp only [matchIRAux] at hm
        have ih := matchIRAux_unwind rest ((IRT.act (Instr.inA) :: top) :: more) ts
          (List.cons_ne_nil _ _) hm
        rw [ih]
        cases more with
        | nil => simp [unwind, flattenL_append, flattenL, flattenT, List.reverse_cons, List.append_assoc]
        | cons nx mr => simp [unwind, flattenL_append, flattenL, flattenT, List.reverse_cons, List.append_assoc]
    | inB =>
      cases st with
      | nil => simp [matchIRAux] at hm
      | cons top more =>
        simp only [matchIRAux] at hm
        have ih := matchIRAux_unwind rest ((IRT.act (Instr.inB) :: top) :: more) ts
          (List.cons_ne_nil _ _) hm
        rw [ih]
        cases more with
        | nil => simp [unwind, flattenL_append, flattenL, flattenT, List.reverse_cons, List.append_assoc]
        | cons nx mr => simp [unwind, flattenL_append, flattenL, flattenT, List.reverse_cons, List.append_assoc]
    | outA =>
      cases st with
      | nil => simp [matchIRAux] at hm
      | cons top more =>
        simp only [matchIRAux] at hm
        have ih := matchIRAux_unwind rest ((IRT.act (Instr.outA) :: top) :: more) ts
          (List.cons_ne_nil _ _) hm
        rw [ih]
        cases more with
        | nil => simp [unwind, flattenL_append, flattenL, flattenT, List.reverse_cons, List.append_assoc]
        | cons nx mr => simp [unwind, flattenL_append, flattenL, flattenT, List.reverse_cons, List.append_assoc]
    | outB =>
      cases st with
      | nil => simp [matchIRAux] at hm
      | cons top more =>
        simp only [matchIRAux] at hm
        have ih := matchIRAux_unwind rest ((IRT.act (Instr.outB) :: top) :: more) ts
          (List.cons_ne_nil _ _) hm
        rw [ih]
        cases more with
        | nil => simp [unwind, flattenL_append, flattenL, flattenT, List.reverse_cons, List.append_assoc]
        | cons nx mr => simp [unwind, flattenL_append, flattenL, flattenT, List.reverse_cons, List.append_assoc]
    | comment c =>
      cases st with
      | nil => simp [matchIRAux] at hm
      | cons top more =>
        simp only [matchIRAux] at hm
        have ih := matchIRAux_unwind rest ((IRT.act (Instr.comment c) :: top) :: more) ts
          (List.cons_ne_nil _ _) hm
        rw [ih]
        cases more with
        | nil => simp [unwind, flattenL_append, flattenL, flattenT, List.reverse_cons, List.append_assoc]
        | cons nx mr => simp [unwind, flattenL_append, flattenL, flattenT, List.reverse_cons, List.append_assoc]
termination_by l => l.length

theorem matchIR_unwind (l : List Instr) (ts : List IRT)
    (hm : matchIR l = some ts) : flattenL ts = l := by
  have h := matchIRAux_unwind l [[]] ts (List.cons_ne_nil _ _) hm
  rw [h, unwind]
  simp [flattenL]

/-! ## The canceller is a no-op on the backend's output

Every handler output separates its cursor-move runs by non-move
characters and every emitted chunk is followed by a newline, so no
adjacent `<>` or `><` pair ever appears and
`_remove_redundant_instructions` returns the code unchanged. -/

theorem hasPair_cons_ne (a b c : Char) (y : List Char) (hca : ¬ c = a)
    (hy : hasPair a b y = false) : hasPair a b (c :: y) = false := by
  cases y with
  | nil => rfl
  | cons d y2 =>
    rw [show hasPair a b (c :: d :: y2) =
      ((c = a && d = b) || hasPair a b (d :: y2)) from rfl]
    rw [hy, Bool.or_false]
    simp [hca]

theorem hasPair_replicate (a b c : Char) (hne : ¬ (c = a ∧ c = b)) :
    ∀ n : Nat, hasPair a b (List.replicate n c) = false
  | 0 => rfl
  | 1 => rfl
  | n + 2 => by
    rw [List.replicate_succ, List.replicate_succ]
    rw [show hasPair a b (c :: c :: List.replicate n c) =
      ((c = a && c = b) || hasPair a b (c :: List.replicate n c)) from rfl]
    rw [← List.replicate_succ, hasPair_replicate a b c hne (n + 1), Bool.or_false]
    rcases not_and_or.mp hne with h | h <;> simp [h]

theorem hasPair_moveOps (a b : Char) (hgt : ¬ ('>' = a ∧ '>' = b))
    (hlt : ¬ ('<' = a ∧ '<' = b)) (off : Int) :
    hasPair a b (flatBLC (moveOps off)) = false := by
  unfold moveOps
  split
  · rw [flatBLC_replicate_right]
    exact hasPair_replicate a b '>' hgt _
  · rw [flatBLC_replicate_left]
    exact hasPair_replicate a b '<' hlt _

theorem hasPair_append_mid (a b : Char) : ∀ (x : List Char) (c : Char)
    (y : List Char), ¬ c = a → ¬ c = b →
    hasPair a b x = false → hasPair a b y = false →
    hasPair a b (x ++ c :: y) = false
  | [], c, y, hca, hcb, hx, hy => hasPair_cons_ne a b c y hca hy
  | [e], c, y, hca, hcb, hx, hy => by
    rw [show ([e] ++ c :: y : List Char) = e :: c :: y from rfl]
    rw [show hasPair a b (e :: c :: y) =
      ((e = a && c = b) || hasPair a b (c :: y)) from rfl]
    rw [hasPair_cons_ne a b c y hca hy, Bool.or_false]
    simp [hcb]
  | e :: f :: x2, c, y, hca, hcb, hx, hy => by
    rw [show hasPair a b (e :: f :: x2) =
      ((e = a && f = b) || hasPair a b (f :: x2)) from rfl] at hx
    rw [Bool.or_eq_false_iff] at hx
    rw [show ((e :: f :: x2) ++ c :: y : List Char) = e :: ((f :: x2) ++ c :: y) from rfl]
    rw [show hasPair a b (e :: ((f :: x2) ++ c :: y)) =
      ((e = a && f = b) || hasPair a b ((f :: x2) ++ c :: y)) from rfl]
    rw [hasPair_append_mid a b (f :: x2) c y hca hcb hx.2 hy, hx.1, Bool.or_false]

theorem pf_run (a b : Char) (hgt : ¬ ('>' = a ∧ '>' = b))
    (hlt : ¬ ('<' = a ∧ '<' = b)) (off : Int) (c : Char) (y : List Char)
    (hca : ¬ c = a) (hcb : ¬ c = b) (hy : hasPair a b y = false) :
    hasPair a b (flatBLC (moveOps off) ++ c :: y) = false :=
  hasPair_append_mid a b _ c y hca hcb (hasPair_moveOps a b hgt hlt off) hy

theorem hasPair_cons_pair (a b c d : Char) (y : List Char)
    (h : ¬ (c = a ∧ d = b)) (hy : hasPair a b (d :: y) = false) :
    hasPair a b (c :: d :: y) = false := by
  rw [show hasPair a b (c :: d :: y) =
    ((c = a && d = b) || hasPair a b (d :: y)) from rfl]
  rw [hy, Bool.or_false]
  rcases not_and_or.mp h with h1 | h1 <;> simp [h1]

theorem emitInstr_pairFree (i : Instr) (cur : Int) :
    hasPair '<' '>' (emitInstr i cur).1.data = false ∧
      hasPair '>' '<' (emitInstr i cur).1.data = false := by
  have key : ∀ a b : Char, (a = '<' ∧ b = '>') ∨ (a = '>' ∧ b = '<') →
      hasPair a b (emitInstr i cur).1.data = false := by
    intro a b hab
    have hgt : ¬ ('>' = a ∧ '>' = b) := by
      rcases hab with ⟨h1, h2⟩ | ⟨h1, h2⟩ <;> subst h1 <;> subst h2 <;> decide
    have hlt : ¬ ('<' = a ∧ '<' = b) := by
      rcases hab with ⟨h1, h2⟩ | ⟨h1, h2⟩ <;> subst h1 <;> subst h2 <;> decide
    cases i with
    | loadAImm n =>
      show hasPair a b ((move_to 0 cur).1 ++ "[-]" ++ repChar n '+').data = false
      simp only [String.data_append, move_to_data, move_offset_data,
        show ("[-]" : String).data = ['[', '-', ']'] from rfl,
        show ("[" : String).data = ['['] from rfl,
        show ("]" : String).data = [']'] from rfl,
        show ("+" : String).data = ['+'] from rfl,
        show ("-" : String).data = ['-'] from rfl,
        show ("-]" : String).data = ['-', ']'] from rfl,
        show ("," : String).data = [','] from rfl,
        show ("." : String).data = ['.'] from rfl,
        show ∀ m : Nat, (repChar m '+').data = List.replicate m '+' from fun _ => rfl,
        List.append_assoc, List.cons_append, List.nil_append]
      repeat
        first
        | exact rfl
        | exact hasPair_replicate a b '+' (by rcases hab with ⟨h1, h2⟩ | ⟨h1, h2⟩ <;> subst h1 <;> subst h2 <;> decide) n
        | exact hasPair_moveOps a b hgt hlt _
        | refine hasPair_append_mid a b _ _ _ (by rcases hab with ⟨h1, h2⟩ | ⟨h1, h2⟩ <;> subst h1 <;> subst h2 <;> decide) (by rcases hab with ⟨h1, h2⟩ | ⟨h1, h2⟩ <;> subst h1 <;> subst h2 <;> decide) ?_ ?_
        | refine hasPair_cons_pair a b _ _ _ (by rcases hab with ⟨h1, h2⟩ | ⟨h1, h2⟩ <;> subst h1 <;> subst h2 <;> decide) ?_
        | refine hasPair_cons_ne a b _ _ (by rcases hab with ⟨h1, h2⟩ | ⟨h1, h2⟩ <;> subst h1 <;> subst h2 <;> decide) ?_
    | loadBImm n =>
      show hasPair a b ((move_to 1 cur).1 ++ "[-]" ++ repChar n '+').data = false
      simp only [String.data_append, move_to_data, move_offset_data,
        show ("[-]" : String).data = ['[', '-', ']'] from rfl,
        show ("[" : String).data = ['['] from rfl,
        show ("]" : String).data = [']'] from rfl,
        show ("+" : String).data = ['+'] from rfl,
        show ("-" : String).data = ['-'] from rfl,
        show ("-]" : String).data = ['-', ']'] from rfl,
        show ("," : String).data = [','] from rfl,
        show ("." : String).data = ['.'] from rfl,
        show ∀ m : Nat, (repChar m '+').data = List.replicate m '+' from fun _ => rfl,
        List.append_assoc, List.cons_append, List.nil_append]
      repeat
        first
        | exact rfl
        | exact hasPair_replicate a b '+' (by rcases hab with ⟨h1, h2⟩ | ⟨h1, h2⟩ <;> subst h1 <;> subst h2 <;> decide) n
        | exact hasPair_moveOps a b hgt hlt _
        | refine hasPair_append_mid a b _ _ _ (by rcases hab with ⟨h1, h2⟩ | ⟨h1, h2⟩ <;> subst h1 <;> subst h2 <;> decide) (by rcases hab with ⟨h1, h2⟩ | ⟨h1, h2⟩ <;> subst h1 <;> subst h2 <;> decide) ?_ ?_
        | refine hasPair_cons_pair a b _ _ _ (by rcases hab with ⟨h1, h2⟩ | ⟨h1, h2⟩ <;> subst h1 <;> subst h2 <;> decide) ?_
        | refine hasPair_cons_ne a b _ _ (by rcases hab with ⟨h1, h2⟩ | ⟨h1, h2⟩ <;> subst h1 <;> subst h2 <;> decide) ?_
    | loadAMem a2 =>
      show hasPair a b (copy_value ((a2 : Int) + 3) 0 cur).1.data = false
      rw [copy_value_data]
      simp only [copyTrees, clearLoop, xfer2Loop, xfer2Body, xferLoop, xferBody]
      generalize hM1 : moveOps (2 - cur) = M1
      generalize hM2 : moveOps (0 - 2) = M2
      generalize hM3 : moveOps ((a2 : Int) + 3 - 0) = M3
      generalize hM4 : moveOps (0 - ((a2 : Int) + 3)) = M4
      generalize hM5 : moveOps (2 - 0) = M5
      generalize hM6 : moveOps ((a2 : Int) + 3 - 2) = M6
      generalize hM7 : moveOps (2 - ((a2 : Int) + 3)) = M7
      simp only [flatBLC_append, flatBLC, flatBT, List.append_assoc,
        List.cons_append, List.nil_append]
      repeat
        first
        | exact rfl
        | exact hasPair_moveOps a b hgt hlt _
        | (rw [← hM1]; exact hasPair_moveOps a b hgt hlt _)
        | (rw [← hM2]; exact hasPair_moveOps a b hgt hlt _)
        | (rw [← hM3]; exact hasPair_moveOps a b hgt hlt _)
        | (rw [← hM4]; exact hasPair_moveOps a b hgt hlt _)
        | (rw [← hM5]; exact hasPair_moveOps a b hgt hlt _)
        | (rw [← hM6]; exact hasPair_moveOps a b hgt hlt _)
        | (rw [← hM7]; exact hasPair_moveOps a b hgt hlt _)
        | refine hasPair_append_mid a b _ _ _ (by rcases hab with ⟨h1, h2⟩ | ⟨h1, h2⟩ <;> subst h1 <;> subst h2 <;> decide) (by rcases hab with ⟨h1, h2⟩ | ⟨h1, h2⟩ <;> subst h1 <;> subst h2 <;> decide) ?_ ?_
        | refine hasPair_cons_pair a b _ _ _ (by rcases hab with ⟨h1, h2⟩ | ⟨h1, h2⟩ <;> subst h1 <;> subst h2 <;> decide) ?_
        | refine hasPair_cons_ne a b _ _ (by rcases hab with ⟨h1, h2⟩ | ⟨h1, h2⟩ <;> subst h1 <;> subst h2 <;> decide) ?_
    | loadBMem a2 =>
      show hasPair a b (copy_value ((a2 : Int) + 3) 1 cur).1.data = false
      rw [copy_value_data]
      simp only [copyTrees, clearLoop, xfer2Loop, xfer2Body, xferLoop, xferBody]
      generalize hM1 : moveOps (2 - cur) = M1
      generalize hM2 : moveOps (1 - 2) = M2
      generalize hM3 : moveOps ((a2 : Int) + 3 - 1) = M3
      generalize hM4 : moveOps (1 - ((a2 : Int) + 3)) = M4
      generalize hM5 : moveOps (2 - 1) = M5
      generalize hM6 : moveOps ((a2 : Int) + 3 - 2) = M6
      generalize hM7 : moveOps (2 - ((a2 : Int) + 3)) = M7
      simp only [flatBLC_append, flatBLC, flatBT, List.append_assoc,
        List.cons_append, List.nil_append]
      repeat
        first
        | exact rfl
        | exact hasPair_moveOps a b hgt hlt _
        | (rw [← hM1]; exact hasPair_moveOps a b hgt hlt _)
        | (rw [← hM2]; exact hasPair_moveOps a b hgt hlt _)
        | (rw [← hM3]; exact hasPair_moveOps a b hgt hlt _)
        | (rw [← hM4]; exact hasPair_moveOps a b hgt hlt _)
        | (rw [← hM5]; exact hasPair_moveOps a b hgt hlt _)
        | (rw [← hM6]; exact hasPair_moveOps a b hgt hlt _)
        | (rw [← hM7]; exact hasPair_moveOps a b hgt hlt _)
        | refine hasPair_append_mid a b _ _ _ (by rcases hab with ⟨h1, h2⟩ | ⟨h1, h2⟩ <;> subst h1 <;> subst h2 <;> decide) (by rcases hab with ⟨h1, h2⟩ | ⟨h1, h2⟩ <;> subst h1 <;> subst h2 <;> decide) ?_ ?_
        | refine hasPair_cons_pair a b _ _ _ (by rcases hab with ⟨h1, h2⟩ | ⟨h1, h2⟩ <;> subst h1 <;> subst h2 <;> decide) ?_
        | refine hasPair_cons_ne a b _ _ (by rcases hab with ⟨h1, h2⟩ | ⟨h1, h2⟩ <;> subst h1 <;> subst h2 <;> decide) ?_
    | storeA a2 =>
      show hasPair a b (copy_value 0 ((a2 : Int) + 3) cur).1.data = false
      rw [copy_value_data]
      simp only [copyTrees, clearLoop, xfer2Loop, xfer2Body, xferLoop, xferBody]
      generalize hM1 : moveOps (2 - cur) = M1
      generalize hM2 : moveOps ((a2 : Int) + 3 - 2) = M2
      generalize hM3 : moveOps (0 - ((a2 : Int) + 3)) = M3
      generalize hM4 : moveOps ((a2 : Int) + 3 - 0) = M4
      generalize hM5 : moveOps (2 - ((a2 : Int) + 3)) = M5
      generalize hM6 : moveOps (0 - 2) = M6
      generalize hM7 : moveOps (2 - 0) = M7
      simp only [flatBLC_append, flatBLC, flatBT, List.append_assoc,
        List.cons_append, List.nil_append]
      repeat
        first
        | exact rfl
        | exact hasPair_moveOps a b hgt hlt _
        | (rw [← hM1]; exact hasPair_moveOps a b hgt hlt _)
        | (rw [← hM2]; exact hasPair_moveOps a b hgt hlt _)
        | (rw [← hM3]; exact hasPair_moveOps a b hgt hlt _)
        | (rw [← hM4]; exact hasPair_moveOps a b hgt hlt _)
        | (rw [← hM5]; exact hasPair_moveOps a b hgt hlt _)
        | (rw [← hM6]; exact hasPair_moveOps a b hgt hlt _)
        | (rw [← hM7]; exact hasPair_moveOps a b hgt hlt _)
        | refine hasPair_append_mid a b _ _ _ (by rcases hab with ⟨h1, h2⟩ | ⟨h1, h2⟩ <;> subst h1 <;> subst h2 <;> decide) (by rcases hab with ⟨h1, h2⟩ | ⟨h1, h2⟩ <;> subst h1 <;> subst h2 <;> decide) ?_ ?_
        | refine hasPair_cons_pair a b _ _ _ (by rcases hab with ⟨h1, h2⟩ | ⟨h1, h2⟩ <;> subst h1 <;> subst h2 <;> decide) ?_
        | refine hasPair_cons_ne a b _ _ (by rcases hab with ⟨h1, h2⟩ | ⟨h1, h2⟩ <;> subst h1 <;> subst h2 <;> decide) ?_
    | storeB a2 =>
      show hasPair a b (copy_value 1 ((a2 : Int) + 3) cur).1.data = false
      rw [copy_value_data]
      simp only [copyTrees, clearLoop, xfer2Loop, xfer2Body, xferLoop, xferBody]
      generalize hM1 : moveOps (2 - cur) = M1
      generalize hM2 : moveOps ((a2 : Int) + 3 - 2) = M2
      generalize hM3 : moveOps (1 - ((a2 : Int) + 3)) = M3
      generalize hM4 : moveOps ((a2 : Int) + 3 - 1) = M4
      generalize hM5 : moveOps (2 - ((a2 : Int) + 3)) = M5
      generalize hM6 : moveOps (1 - 2) = M6
      generalize hM7 : moveOps (2 - 1) = M7
      simp only [flatBLC_append, flatBLC, flatBT, List.append_assoc,
        List.cons_append, List.nil_append]
      repeat
        first
        | exact rfl
        | exact hasPair_moveOps a b hgt hlt _
        | (rw [← hM1]; exact hasPair_moveOps a b hgt hlt _)
        | (rw [← hM2]; exact hasPair_moveOps a b hgt hlt _)
        | (rw [← hM3]; exact hasPair_moveOps a b hgt hlt _)
        | (rw [← hM4]; exact hasPair_moveOps a b hgt hlt _)
        | (rw [← hM5]; exact hasPair_moveOps a b hgt hlt _)
        | (rw [← hM6]; exact hasPair_moveOps a b hgt hlt _)
        | (rw [← hM7]; exact hasPair_moveOps a b hgt hlt _)
        | refine hasPair_append_mid a b _ _ _ (by rcases hab with ⟨h1, h2⟩ | ⟨h1, h2⟩ <;> subst h1 <;> subst h2 <;> decide) (by rcases hab with ⟨h1, h2⟩ | ⟨h1, h2⟩ <;> subst h1 <;> subst h2 <;> decide) ?_ ?_
        | refine hasPair_cons_pair a b _ _ _ (by rcases hab with ⟨h1, h2⟩ | ⟨h1, h2⟩ <;> subst h1 <;> subst h2 <;> decide) ?_
        | refine hasPair_cons_ne a b _ _ (by rcases hab with ⟨h1, h2⟩ | ⟨h1, h2⟩ <;> subst h1 <;> subst h2 <;> decide) ?_
    | add =>
      show hasPair a b ((move_to 1 cur).1 ++ "[" ++ (move_offset (0 - 1) 1).1 ++ "+" ++ (move_offset (1 - 0) (1 + (0 - 1))).1 ++ "-]").data = false
      generalize hM1 : moveOps (0 - 1) = M1
      generalize hM2 : moveOps (1 - 0) = M2
      simp only [String.data_append, move_to_data, move_offset_data,
        show ("[-]" : String).data = ['[', '-', ']'] from rfl,
        show ("[" : String).data = ['['] from rfl,
        show ("]" : String).data = [']'] from rfl,
        show ("+" : String).data = ['+'] from rfl,
        show ("-" : String).data = ['-'] from rfl,
        show ("-]" : String).data = ['-', ']'] from rfl,
        show ("," : String).data = [','] from rfl,
        show ("." : String).data = ['.'] from rfl,
        show ∀ m : Nat, (repChar m '+').data = List.replicate m '+' from fun _ => rfl,
        List.append_assoc, List.cons_append, List.nil_append]
      repeat
        first
        | exact rfl
        | exact hasPair_moveOps a b hgt hlt _
        | (rw [← hM1]; exact hasPair_moveOps a b hgt hlt _)
        | (rw [← hM2]; exact hasPair_moveOps a b hgt hlt _)
        | refine hasPair_append_mid a b _ _ _ (by rcases hab with ⟨h1, h2⟩ | ⟨h1, h2⟩ <;> subst h1 <;> subst h2 <;> decide) (by rcases hab with ⟨h1, h2⟩ | ⟨h1, h2⟩ <;> subst h1 <;> subst h2 <;> decide) ?_ ?_
        | refine hasPair_cons_pair a b _ _ _ (by rcases hab with ⟨h1, h2⟩ | ⟨h1, h2⟩ <;> subst h1 <;> subst h2 <;> decide) ?_
        | refine hasPair_cons_ne a b _ _ (by rcases hab with ⟨h1, h2⟩ | ⟨h1, h2⟩ <;> subst h1 <;> subst h2 <;> decide) ?_
    | sub =>
      show hasPair a b ((move_to 1 cur).1 ++ "[" ++ (move_offset (0 - 1) 1).1 ++ "-" ++ (move_offset (1 - 0) (1 + (0 - 1))).1 ++ "-]").data = false
      generalize hM1 : moveOps (0 - 1) = M1
      generalize hM2 : moveOps (1 - 0) = M2
      simp only [String.data_append, move_to_data, move_offset_data,
        show ("[-]" : String).data = ['[', '-', ']'] from rfl,
        show ("[" : String).data = ['['] from rfl,
        show ("]" : String).data = [']'] from rfl,
        show ("+" : String).data = ['+'] from rfl,
        show ("-" : String).data = ['-'] from rfl,
        show ("-]" : String).data = ['-', ']'] from rfl,
        show ("," : String).data = [','] from rfl,
        show ("." : String).data = ['.'] from rfl,
        show ∀ m : Nat, (repChar m '+').data = List.replicate m '+' from fun _ => rfl,
        List.append_assoc, List.cons_append, List.nil_append]
      repeat
        first
        | exact rfl
        | exact hasPair_moveOps a b hgt hlt _
        | (rw [← hM1]; exact hasPair_moveOps a b hgt hlt _)
        | (rw [← hM2]; exact hasPair_moveOps a b hgt hlt _)
        | refine hasPair_append_mid a b _ _ _ (by rcases hab with ⟨h1, h2⟩ | ⟨h1, h2⟩ <;> subst h1 <;> subst h2 <;> decide) (by rcases hab with ⟨h1, h2⟩ | ⟨h1, h2⟩ <;> subst h1 <;> subst h2 <;> decide) ?_ ?_
        | refine hasPair_cons_pair a b _ _ _ (by rcases hab with ⟨h1, h2⟩ | ⟨h1, h2⟩ <;> subst h1 <;> subst h2 <;> decide) ?_
        | refine hasPair_cons_ne a b _ _ (by rcases hab with ⟨h1, h2⟩ | ⟨h1, h2⟩ <;> subst h1 <;> subst h2 <;> decide) ?_
    | inA =>
      show hasPair a b ((move_to 0 cur).1 ++ ",").data = false
      simp only [String.data_append, move_to_data, move_offset_data,
        show ("[-]" : String).data = ['[', '-', ']'] from rfl,
        show ("[" : String).data = ['['] from rfl,
        show ("]" : String).data = [']'] from rfl,
        show ("+" : String).data = ['+'] from rfl,
        show ("-" : String).data = ['-'] from rfl,
        show ("-]" : String).data = ['-', ']'] from rfl,
        show ("," : String).data = [','] from rfl,
        show ("." : String).data = ['.'] from rfl,
        show ∀ m : Nat, (repChar m '+').data = List.replicate m '+' from fun _ => rfl,
        List.append_assoc, List.cons_append, List.nil_append]
      repeat
        first
        | exact rfl
        | exact hasPair_moveOps a b hgt hlt _
        | refine hasPair_append_mid a b _ _ _ (by rcases hab with ⟨h1, h2⟩ | ⟨h1, h2⟩ <;> subst h1 <;> subst h2 <;> decide) (by rcases hab with ⟨h1, h2⟩ | ⟨h1, h2⟩ <;> subst h1 <;> subst h2 <;> decide) ?_ ?_
        | refine hasPair_cons_pair a b _ _ _ (by rcases hab with ⟨h1, h2⟩ | ⟨h1, h2⟩ <;> subst h1 <;> subst h2 <;> decide) ?_
        | refine hasPair_cons_ne a b _ _ (by rcases hab with ⟨h1, h2⟩ | ⟨h1, h2⟩ <;> subst h1 <;> subst h2 <;> decide) ?_
    | inB =>
      show hasPair a b ((move_to 1 cur).1 ++ ",").data = false
      simp only [String.data_append, move_to_data, move_offset_data,
        show ("[-]" : String).data = ['[', '-', ']'] from rfl,
        show ("[" : String).data = ['['] from rfl,
        show ("]" : String).data = [']'] from rfl,
        show ("+" : String).data = ['+'] from rfl,
        show ("-" : String).data = ['-'] from rfl,
        show ("-]" : String).data = ['-', ']'] from rfl,
        show ("," : String).data = [','] from rfl,
        show ("." : String).data = ['.'] from rfl,
        show ∀ m : Nat, (repChar m '+').data = List.replicate m '+' from fun _ => rfl,
        List.append_assoc, List.cons_append, List.nil_append]
      repeat
        first
        | exact rfl
        | exact hasPair_moveOps a b hgt hlt _
        | refine hasPair_append_mid a b _ _ _ (by rcases hab with ⟨h1, h2⟩ | ⟨h1, h2⟩ <;> subst h1 <;> subst h2 <;> decide) (by rcases hab with ⟨h1, h2⟩ | ⟨h1, h2⟩ <;> subst h1 <;> subst h2 <;> decide) ?_ ?_
        | refine hasPair_cons_pair a b _ _ _ (by rcases hab with ⟨h1, h2⟩ | ⟨h1, h2⟩ <;> subst h1 <;> subst h2 <;> decide) ?_
        | refine hasPair_cons_ne a b _ _ (by rcases hab with ⟨h1, h2⟩ | ⟨h1, h2⟩ <;> subst h1 <;> subst h2 <;> decide) ?_
    | outA =>
      show hasPair a b ((move_to 0 cur).1 ++ ".").data = false
      simp only [String.data_append, move_to_data, move_offset_data,
        show ("[-]" : String).data = ['[', '-', ']'] from rfl,
        show ("[" : String).data = ['['] from rfl,
        show ("]" : String).data = [']'] from rfl,
        show ("+" : String).data = ['+'] from rfl,
        show ("-" : String).data = ['-'] from rfl,
        show ("-]" : String).data = ['-', ']'] from rfl,
        show ("," : String).data = [','] from rfl,
        show ("." : String).data = ['.'] from rfl,
        show ∀ m : Nat, (repChar m '+').data = List.replicate m '+' from fun _ => rfl,
        List.append_assoc, List.cons_append, List.nil_append]
      repeat
        first
        | exact rfl
        | exact hasPair_moveOps a b hgt hlt _
        | refine hasPair_append_mid a b _ _ _ (by rcases hab with ⟨h1, h2⟩ | ⟨h1, h2⟩ <;> subst h1 <;> subst h2 <;> decide) (by rcases hab with ⟨h1, h2⟩ | ⟨h1, h2⟩ <;> subst h1 <;> subst h2 <;> decide) ?_ ?_
        | refine hasPair_cons_pair a b _ _ _ (by rcases hab with ⟨h1, h2⟩ | ⟨h1, h2⟩ <;> subst h1 <;> subst h2 <;> decide) ?_
        | refine hasPair_cons_ne a b _ _ (by rcases hab with ⟨h1, h2⟩ | ⟨h1, h2⟩ <;> subst h1 <;> subst h2 <;> decide) ?_
    | outB =>
      show hasPair a b ((move_to 1 cur).1 ++ ".").data = false
      simp only [String.data_append, move_to_data, move_offset_data,
        show ("[-]" : String).data = ['[', '-', ']'] from rfl,
        show ("[" : String).data = ['['] from rfl,
        show ("]" : String).data = [']'] from rfl,
        show ("+" : String).data = ['+'] from rfl,
        show ("-" : String).data = ['-'] from rfl,
        show ("-]" : String).data = ['-', ']'] from rfl,
        show ("," : String).data = [','] from rfl,
        show ("." : String).data = ['.'] from rfl,
        show ∀ m : Nat, (repChar m '+').data = List.replicate m '+' from fun _ => rfl,
        List.append_assoc, List.cons_append, List.nil_append]
      repeat
        first
        | exact rfl
        | exact hasPair_moveOps a b hgt hlt _
        | refine hasPair_append_mid a b _ _ _ (by rcases hab with ⟨h1, h2⟩ | ⟨h1, h2⟩ <;> subst h1 <;> subst h2 <;> decide) (by rcases hab with ⟨h1, h2⟩ | ⟨h1, h2⟩ <;> subst h1 <;> subst h2 <;> decide) ?_ ?_
        | refine hasPair_cons_pair a b _ _ _ (by rcases hab with ⟨h1, h2⟩ | ⟨h1, h2⟩ <;> subst h1 <;> subst h2 <;> decide) ?_
        | refine hasPair_cons_ne a b _ _ (by rcases hab with ⟨h1, h2⟩ | ⟨h1, h2⟩ <;> subst h1 <;> subst h2 <;> decide) ?_
    | loopStart =>
      show hasPair a b ((move_to 0 cur).1 ++ "[").data = false
      simp only [String.data_append, move_to_data, move_offset_data,
        show ("[-]" : String).data = ['[', '-', ']'] from rfl,
        show ("[" : String).data = ['['] from rfl,
        show ("]" : String).data = [']'] from rfl,
        show ("+" : String).data = ['+'] from rfl,
        show ("-" : String).data = ['-'] from rfl,
        show ("-]" : String).data = ['-', ']'] from rfl,
        show ("," : String).data = [','] from rfl,
        show ("." : String).data = ['.'] from rfl,
        show ∀ m : Nat, (repChar m '+').data = List.replicate m '+' from fun _ => rfl,
        List.append_assoc, List.cons_append, List.nil_append]
      repeat
        first
        | exact rfl
        | exact hasPair_moveOps a b hgt hlt _
        | refine hasPair_append_mid a b _ _ _ (by rcases hab with ⟨h1, h2⟩ | ⟨h1, h2⟩ <;> subst h1 <;> subst h2 <;> decide) (by rcases hab with ⟨h1, h2⟩ | ⟨h1, h2⟩ <;> subst h1 <;> subst h2 <;> decide) ?_ ?_
        | refine hasPair_cons_pair a b _ _ _ (by rcases hab with ⟨h1, h2⟩ | ⟨h1, h2⟩ <;> subst h1 <;> subst h2 <;> decide) ?_
        | refine hasPair_cons_ne a b _ _ (by rcases hab with ⟨h1, h2⟩ | ⟨h1, h2⟩ <;> subst h1 <;> subst h2 <;> decide) ?_
    | loopEnd =>
      show hasPair a b ((move_to 0 cur).1 ++ "]").data = false
      simp only [String.data_append, move_to_data, move_offset_data,
        show ("[-]" : String).data = ['[', '-', ']'] from rfl,
        show ("[" : String).data = ['['] from rfl,
        show ("]" : String).data = [']'] from rfl,
        show ("+" : String).data = ['+'] from rfl,
        show ("-" : String).data = ['-'] from rfl,
        show ("-]" : String).data = ['-', ']'] from rfl,
        show ("," : String).data = [','] from rfl,
        show ("." : String).data = ['.'] from rfl,
        show ∀ m : Nat, (repChar m '+').data = List.replicate m '+' from fun _ => rfl,
        List.append_assoc, List.cons_append, List.nil_append]
      repeat
        first
        | exact rfl
        | exact hasPair_moveOps a b hgt hlt _
        | refine hasPair_append_mid a b _ _ _ (by rcases hab with ⟨h1, h2⟩ | ⟨h1, h2⟩ <;> subst h1 <;> subst h2 <;> decide) (by rcases hab with ⟨h1, h2⟩ | ⟨h1, h2⟩ <;> subst h1 <;> subst h2 <;> decide) ?_ ?_
        | refine hasPair_cons_pair a b _ _ _ (by rcases hab with ⟨h1, h2⟩ | ⟨h1, h2⟩ <;> subst h1 <;> subst h2 <;> decide) ?_
        | refine hasPair_cons_ne a b _ _ (by rcases hab with ⟨h1, h2⟩ | ⟨h1, h2⟩ <;> subst h1 <;> subst h2 <;> decide) ?_
    | comment c2 =>
      exact rfl
  exact ⟨key '<' '>' (Or.inl ⟨rfl, rfl⟩), key '>' '<' (Or.inr ⟨rfl, rfl⟩)⟩

theorem emitIS_pairFree : ∀ (l : List Instr) (cur : Int),
    hasPair '<' '>' (emitIS l cur).1.data = false ∧
      hasPair '>' '<' (emitIS l cur).1.data = false
  | [], cur => ⟨rfl, rfl⟩
  | i :: l, cur => by
    have ih := emitIS_pairFree l (emitInstr i cur).2
    have hch := emitInstr_pairFree i cur
    rw [emitIS]
    dsimp only
    by_cases hcode : (emitInstr i cur).1 = ""
    · rw [if_pos hcode]
      constructor
      · rw [String.data_append, show ("" : String).data = [] from rfl,
          List.nil_append]
        exact ih.1
      · rw [String.data_append, show ("" : String).data = [] from rfl,
          List.nil_append]
        exact ih.2
    · rw [if_neg hcode]
      constructor
      · rw [String.data_append, String.data_append,
          show ("\n" : String).data = ['\n'] from rfl, List.append_assoc,
          List.singleton_append]
        exact hasPair_append_mid '<' '>' _ _ _ (by decide) (by decide) hch.1 ih.1
      · rw [String.data_append, String.data_append,
          show ("\n" : String).data = ['\n'] from rfl, List.append_assoc,
          List.singleton_append]
        exact hasPair_append_mid '>' '<' _ _ _ (by decide) (by decide) hch.2 ih.2

theorem removePair_of_no_pair (a b : Char) : ∀ l : List Char,
    hasPair a b l = false → removePair a b l = l
  | [], _ => rfl
  | [c], _ => rfl
  | c :: d :: rest, h => by
    rw [show hasPair a b (c :: d :: rest) =
      ((c = a && d = b) || hasPair a b (d :: rest)) from rfl,
      Bool.or_eq_false_iff] at h
    rw [removePair, if_neg (by
      intro hcd
      have := h.1
      simp [hcd.1, hcd.2] at this)]
    rw [removePair_of_no_pair a b (d :: rest) h.2]

theorem removeRedundant_of_pairFree (s : String)
    (h1 : hasPair '<' '>' s.data = false)
    (h2 : hasPair '>' '<' s.data = false) : removeRedundant s = s := by
  show (⟨cancelLoop s.data⟩ : String) = s
  have hfix : cancelStep s.data = s.data := by
    show removePair '>' '<' (removePair '<' '>' s.data) = s.data
    rw [removePair_of_no_pair '<' '>' s.data h1,
      removePair_of_no_pair '>' '<' s.data h2]
  rw [cancelLoop_of_fixed hfix]

/-- C1: refinement of the full pipeline.  For a BFS program that lowers
without error, whenever the IR runs to completion under the IR
interpreter, the backend's BF text (handler outputs joined by newlines,
then the peephole canceller — which is the identity here, since emitted
code never contains an adjacent cancellable pair) runs to completion
under the standard BF interpreter from the same input and produces the
same observable output and the same remaining input. -/
theorem C1_refinement (p : List Item) (ir : List Instr) (st : Low)
    (input : List Nat) (fuel : Nat) (ir' : IRState)
    (hc : lowerProgram p = .ok (ir, st))
    (hrun : irRun fuel ir (IRState.init input) = some ir') :
    removeRedundant (emitIS ir 0).1 = (emitIS ir 0).1 ∧
      ∃ F bf', bfRun F (removeRedundant (emitIS ir 0).1)
          (BFState.init input) = some bf' ∧
        bf'.output = ir'.output ∧ bf'.input = ir'.input := by
  have hpf := emitIS_pairFree ir 0
  have hrr := removeRedundant_of_pairFree _ hpf.1 hpf.2
  refine ⟨hrr, ?_⟩
  unfold irRun at hrun
  cases hm : matchIR ir with
  | none =>
    rw [hm] at hrun
    cases hrun
  | some ts =>
    rw [hm] at hrun
    have hok := matchIR_okL ir ts hm
    have hflat := matchIR_unwind ir ts hm
    have hrel : relate (IRState.init input) (fun _ => 0) :=
      ⟨rfl, rfl, fun _ => rfl, fun _ => Nat.zero_lt_succ 255⟩
    obtain ⟨F, T, hbf, hrelF⟩ :=
      bf_sim fuel ts 0 (IRState.init input) ir' (fun _ => 0) hok hrel hrun
    refine ⟨F, BFState.mk T (bfOfL ts 0).2 ir'.input ir'.output, ?_, rfl, rfl⟩
    have hparse : parseBF (emitIS ir 0).1 = some (bfOfL ts 0).1 := by
      show matchBFAux (emitIS ir 0).1.data [[]] = _
      rw [← hflat]
      have h := (matchBFAux_emitIS ts hok 0 [] [] []).1
      rw [List.append_nil] at h
      rw [h]
      rw [matchBFAux]
      simp
    rw [hrr]
    simp only [bfRun, hparse]
    exact hbf

theorem C1_refinement_witness :
    removeRedundant (emitIS [Instr.comment "# Output statement",
        Instr.loadAImm 65, Instr.outA] 0).1 =
      (emitIS [Instr.comment "# Output statement",
        Instr.loadAImm 65, Instr.outA] 0).1 ∧
      ∃ F bf', bfRun F (removeRedundant (emitIS [Instr.comment "# Output statement",
          Instr.loadAImm 65, Instr.outA] 0).1)
          (BFState.init []) = some bf' ∧
        bf'.output = (IRState.mk 65 0 (fun _ => 0) [] [65]).output ∧
        bf'.input = (IRState.mk 65 0 (fun _ => 0) [] [65]).input :=
  C1_refinement [Item.stmtI (Stmt.outputS (Expr.num 65))]
    [Instr.comment "# Output statement", Instr.loadAImm 65, Instr.outA]
    initLow [] 0 (IRState.mk 65 0 (fun _ => 0) [] [65]) rfl
    (by simp [irRun, matchIR, matchIRAux, irExec, irStep, IRState.init])
